import Mathlib

/-!
# Page memory manager (`src/allocator.c`, `src/allocator.h`)

A shallow embedding of the paged allocator and the properties of it that the
specification states.

## Conventions of the embedding

* A C singly linked list is a Lean `List`; the pointer to its `i`-th node is the
  index `i`, the null pointer is `none`.  The head pointer is index `0` of a
  non-empty list and null for the empty list.  The three places of the source that
  keep a node pointer across a mutation (`pageTableTail`, `currentPage` in
  `allocator_deallocate`, `tail`/`prevLast` in `__pageTable_erase`) are such that an
  index which is still inside the list denotes the same node as before and an index
  outside the list denotes a node that has been released.
* A pointer into the backing buffer is `some off`, the byte offset from the start of
  the buffer; `none` is `NULL`.  `malloc` is assumed to succeed.
* `size_t` values are natural numbers, with `% 2 ^ 64` written wherever the source
  computes a value that can wrap; `ssize_t` and `long` values are integers.
* Behaviour that C leaves undefined (dereferencing `NULL` or a released node, copying
  outside the backing buffer, `memcpy` on ranges that overlap) and a loop that never
  exits end the run: the functions return `Except Stuck _` and such a run is `.error _`.
-/

namespace PageMemory

/-- Ways in which a run of the C code ends without returning to its caller. -/
inductive Stuck where
  /-- A null pointer is dereferenced. -/
  | nullDeref
  /-- A list node is used after it has been released. -/
  | danglingDeref
  /-- Bytes are copied from or to a place outside the backing buffer. -/
  | outOfBounds
  /-- A loop does not exit. -/
  | noReturn
  /-- The function `memcpy` is called on two ranges that overlap. -/
  | overlap
deriving DecidableEq

instance instDecidableEqExcept {ε α : Type} [DecidableEq ε] [DecidableEq α] :
    DecidableEq (Except ε α)
  | .ok a, .ok b => if h : a = b then isTrue (by rw [h]) else isFalse (fun e => h (by cases e; rfl))
  | .error a, .error b =>
    if h : a = b then isTrue (by rw [h]) else isFalse (fun e => h (by cases e; rfl))
  | .ok _, .error _ => isFalse (fun e => by cases e)
  | .error _, .ok _ => isFalse (fun e => by cases e)

/-- The constant `PAGE_SIZE` of the source. -/
def PAGE_SIZE : Nat := 4096

/-- The number of values of a `size_t`. -/
def SIZE_MOD : Nat := 2 ^ 64

/-- The `struct __pageTableEntry` of the source; the `next` link is the position in the
list. -/
structure __pageTableEntry where
  memAddr : Option Nat
  pageNumber : Nat
deriving DecidableEq

/-- The `struct __frameTableEntry` of the source; the `next` link is the position in the
list. -/
structure __frameTableEntry where
  memAddr : Option Nat
  isFree : Bool
deriving DecidableEq

/-- The `struct allocator` of the header.  `buffer` gives the byte stored at each offset
of the backing buffer, whose offsets below `bufSize` belong to the buffer. -/
structure allocator where
  bufSize : Nat
  freeFramesNum : Int
  buffer : Nat → UInt8
  pageTableHead : List __pageTableEntry
  pageTableTail : Option Nat
  frameTableHead : List __frameTableEntry

/-- Line 16: a new page table node, not bound to a frame. -/
def __pageTableEntry_construct (pageNumber : Nat) : __pageTableEntry :=
  { memAddr := none, pageNumber := pageNumber }

/-- Line 39: the node whose `next` link equals `next`, scanning from the head.  The link
of the node at index `i` is `i + 1` when that index is in the list and null otherwise.
When the scan runs past the last node, `ret->next` dereferences null. -/
def __pageTable_find_from (i : Nat) : List __pageTableEntry → Option Nat → Except Stuck Nat
  | [], _ => .error .nullDeref
  | [_], next => if next = none then .ok i else .error .nullDeref
  | _ :: e :: rest, next =>
    if next = some (i + 1) then .ok i else __pageTable_find_from (i + 1) (e :: rest) next

/-- Line 39: `__pageTable_find`. -/
def __pageTable_find (head : List __pageTableEntry) (next : Option Nat) :
    Except Stuck (Option Nat) :=
  match head with
  | [] => .ok none
  | _ :: _ => (__pageTable_find_from 0 head next).map some

/-- Line 50: `__pageTableEntry_find`.  The loop condition reads
`currentPage->pageNumber` before it compares `currentPage` with null, so that reaching
the end of the list (or starting from an empty list) dereferences null. -/
def __pageTableEntry_find_from (i : Nat) : List __pageTableEntry → Nat → Except Stuck (Option Nat)
  | [], _ => .error .nullDeref
  | e :: rest, pageNumber =>
    if e.pageNumber ≠ pageNumber then __pageTableEntry_find_from (i + 1) rest pageNumber
    else .ok (some i)

/-- Line 50: `__pageTableEntry_find`. -/
def __pageTableEntry_find (head : List __pageTableEntry) (pageNumber : Nat) :
    Except Stuck (Option Nat) :=
  __pageTableEntry_find_from 0 head pageNumber

/-- Line 59: `__pageTable_erase`, returning the new list.  `currentPage` is a node
pointer that is not null. -/
def __pageTable_erase (head : List __pageTableEntry) (currentPage : Nat) :
    Except Stuck (List __pageTableEntry) :=
  match __pageTable_find head none with
  | .error s => .error s
  | .ok tail =>
    if some currentPage = tail ∧ currentPage ≠ 0 then
      -- the scan for `prevLast` stops at the node before the tail, which becomes the last
      .ok (head.take currentPage)
    else if some currentPage = tail ∧ currentPage = 0 then
      .ok []
    else
      match head[currentPage]? with
      | none => .error .danglingDeref
      | some _ =>
        match head[currentPage + 1]? with
        | none => .error .nullDeref
        | some forDelete => .ok ((head.set currentPage forDelete).eraseIdx (currentPage + 1))

/-- Line 100: a new frame table node, flagged free. -/
def __frameTableEntry_construct (memAddr : Option Nat) : __frameTableEntry :=
  { memAddr := memAddr, isFree := true }

/-- Line 115: the loop of `__frameTable_construct`, the nodes it appends from the value
`i` of its counter on.  `fuel` bounds the number of iterations. -/
def __frameTable_construct_loop : Nat → Nat → Nat → Except Stuck (List __frameTableEntry)
  | 0, i, bufSize => if i < bufSize then .error .noReturn else .ok []
  | fuel + 1, i, bufSize =>
    if i < bufSize then
      (__frameTable_construct_loop fuel ((i + PAGE_SIZE) % SIZE_MOD) bufSize).map
        (fun rest => __frameTableEntry_construct (some i) :: rest)
    else .ok []

/-- Line 110: `__frameTable_construct`.  Without wrap of the counter the loop makes at
most `bufSize / PAGE_SIZE` iterations; when `bufSize > 2 ^ 64 - PAGE_SIZE` the counter
wraps to `0` and the loop does not exit. -/
def __frameTable_construct (bufSize : Nat) : Except Stuck (List __frameTableEntry) :=
  (__frameTable_construct_loop (bufSize / PAGE_SIZE) PAGE_SIZE bufSize).map
    (fun rest => __frameTableEntry_construct (some 0) :: rest)

/-- Line 124: `__frameTableEntry_find`, the first node with the given address. -/
def __frameTableEntry_find_from (i : Nat) : List __frameTableEntry → Option Nat → Option Nat
  | [], _ => none
  | f :: rest, memAddr =>
    if f.memAddr ≠ memAddr then __frameTableEntry_find_from (i + 1) rest memAddr else some i

/-- Line 124: `__frameTableEntry_find`. -/
def __frameTableEntry_find (head : List __frameTableEntry) (memAddr : Option Nat) : Option Nat :=
  __frameTableEntry_find_from 0 head memAddr

/-- Line 147: `__zero_fill_allocator`; the buffer pointer is null, no offset belongs to
the buffer. -/
def __zero_fill_allocator (heap : Nat → UInt8) : allocator :=
  { bufSize := 0, freeFramesNum := 0, buffer := heap,
    pageTableHead := [], pageTableTail := none, frameTableHead := [] }

/-- Line 159: `allocator_construct`, returning the allocator it fills in and its status.
`heap` is the content of the block that `malloc` hands out. -/
def allocator_construct (heap : Nat → UInt8) (buffSize : Nat) : Except Stuck (allocator × Int) :=
  let mmanager := __zero_fill_allocator heap
  if buffSize > 0 then
    let bufSize := (buffSize + (if buffSize % PAGE_SIZE = 0 then 0 else PAGE_SIZE)) % SIZE_MOD
    match __frameTable_construct bufSize with
    | .error s => .error s
    | .ok frames =>
      .ok ({ mmanager with
              bufSize := bufSize
              frameTableHead := frames
              freeFramesNum := ((bufSize / PAGE_SIZE : Nat) : Int) }, 0)
  else .ok (mmanager, 1)

/-- Line 188: `__allocator_push_pageTableEntry`.  The new node is linked after the node
that `pageTableTail` points to. -/
def __allocator_push_pageTableEntry (mmanager : allocator) : Except Stuck allocator :=
  match mmanager.pageTableHead with
  | [] =>
    .ok { mmanager with
          pageTableHead := [__pageTableEntry_construct 1]
          pageTableTail := some 0 }
  | _ :: _ =>
    match mmanager.pageTableTail with
    | none => .error .nullDeref
    | some t =>
      match mmanager.pageTableHead[t]? with
      | none => .error .danglingDeref
      | some tail =>
        .ok { mmanager with
              pageTableHead := mmanager.pageTableHead.take (t + 1) ++
                [__pageTableEntry_construct ((tail.pageNumber + 1) % SIZE_MOD)]
              pageTableTail := some (t + 1) }

/-- Line 207: the loop of `__allocator_find_free_frame` over the frame list: the list
with the first free node flagged in use and the address of that node, or `none` when no
node is free. -/
def __allocator_find_free_frame_loop :
    List __frameTableEntry → Option (List __frameTableEntry × Option Nat)
  | [] => none
  | currentFrame :: rest =>
    if currentFrame.isFree then
      some ({ currentFrame with isFree := false } :: rest, currentFrame.memAddr)
    else
      (__allocator_find_free_frame_loop rest).map (fun r => (currentFrame :: r.1, r.2))

/-- Line 204: `__allocator_find_free_frame`. -/
def __allocator_find_free_frame (mmanager : allocator) : allocator × Option Nat :=
  match __allocator_find_free_frame_loop mmanager.frameTableHead with
  | some (frames, memAddr) =>
    ({ mmanager with frameTableHead := frames, freeFramesNum := mmanager.freeFramesNum - 1 },
      memAddr)
  | none => (mmanager, none)

/-- Lines 228 to 235: the body of the loop of `allocator_allocate`, returning the state and
the new value of `virtAddr` (`0` is `NULL`). -/
def allocator_allocate_body (mmanager : allocator) (virtAddr : Nat) :
    Except Stuck (allocator × Nat) :=
  match __allocator_push_pageTableEntry mmanager with
  | .error s => .error s
  | .ok m1 =>
    let (m2, frame) := __allocator_find_free_frame m1
    match m2.pageTableTail with
    | none => .error .nullDeref
    | some t =>
      match m2.pageTableHead[t]? with
      | none => .error .danglingDeref
      | some tail =>
        let m3 := { m2 with pageTableHead := m2.pageTableHead.set t { tail with memAddr := frame } }
        .ok (m3, if virtAddr = 0 then (tail.pageNumber <<< 12) % SIZE_MOD else virtAddr)

/-- Line 226: the loop of `allocator_allocate`. -/
def allocator_allocate_loop : Nat → allocator → Int → Nat → Except Stuck (allocator × Nat)
  | 0, mmanager, msize, virtAddr =>
    if msize > 0 then .error .noReturn else .ok (mmanager, virtAddr)
  | fuel + 1, mmanager, msize, virtAddr =>
    if msize > 0 then
      match allocator_allocate_body mmanager virtAddr with
      | .error s => .error s
      | .ok (m, v) => allocator_allocate_loop fuel m (msize - PAGE_SIZE) v
    else .ok (mmanager, virtAddr)

/-- Line 219: `allocator_allocate`, returning the state and the address (`0` is `NULL`).
`msize / PAGE_SIZE` is a division of integers, which truncates, so that `ceil` is applied
to a whole number; both sides of the comparison are exact as `double`s, the free frame
count and the quotient being below `2 ^ 53` in absolute value.  The loop makes at most
`msize` iterations. -/
def allocator_allocate (mmanager : allocator) (msize : Int) : Except Stuck (allocator × Nat) :=
  if mmanager.freeFramesNum < Int.tdiv msize PAGE_SIZE then .ok (mmanager, 0)
  else allocator_allocate_loop msize.toNat mmanager msize 0

/-- Line 241: `__allocator_freeUp_frame`. -/
def __allocator_freeUp_frame (mmanager : allocator) (memAddr : Option Nat) :
    Except Stuck allocator :=
  match __frameTableEntry_find mmanager.frameTableHead memAddr with
  | none => .error .nullDeref
  | some i =>
    match mmanager.frameTableHead[i]? with
    | none => .error .danglingDeref
    | some currentFrame =>
      .ok { mmanager with
            frameTableHead := mmanager.frameTableHead.set i { currentFrame with isFree := true }
            freeFramesNum := mmanager.freeFramesNum + 1 }

/-- Lines 260 to 265: the body of the loop of `allocator_deallocate`. -/
def allocator_deallocate_body (mmanager : allocator) (currentPage : Nat) :
    Except Stuck allocator :=
  match mmanager.pageTableHead[currentPage]? with
  | none => .error .danglingDeref
  | some page =>
    match __allocator_freeUp_frame mmanager page.memAddr with
    | .error s => .error s
    | .ok m1 =>
      match __pageTable_erase m1.pageTableHead currentPage with
      | .error s => .error s
      | .ok head =>
        match __pageTable_find head none with
        | .error s => .error s
        | .ok tail => .ok { m1 with pageTableHead := head, pageTableTail := tail }

/-- Line 258: the loop of `allocator_deallocate`. -/
def allocator_deallocate_loop : Nat → allocator → Nat → Int → Except Stuck allocator
  | 0, mmanager, _, msize => if msize > 0 then .error .noReturn else .ok mmanager
  | fuel + 1, mmanager, currentPage, msize =>
    if msize > 0 then
      match allocator_deallocate_body mmanager currentPage with
      | .error s => .error s
      | .ok m => allocator_deallocate_loop fuel m currentPage (msize - PAGE_SIZE)
    else .ok mmanager

/-- The low twelve bits of an address as the source computes them,
`((size_t)virtAddr << 52) >> 52`. -/
def offsetOf (virtAddr : Nat) : Nat := ((virtAddr <<< 52) % SIZE_MOD) >>> 52

/-- Line 248: `allocator_deallocate`, returning the state and the status. -/
def allocator_deallocate (mmanager : allocator) (virtAddr : Nat) (msize : Int) :
    Except Stuck (allocator × Int) :=
  if offsetOf virtAddr ≠ 0 ∨ msize ≤ 0 then .ok (mmanager, 1)
  else
    let pageNumber := virtAddr >>> 12
    match __pageTableEntry_find mmanager.pageTableHead pageNumber with
    | .error s => .error s
    | .ok none => .ok (mmanager, 1)
    | .ok (some currentPage) =>
      match allocator_deallocate_loop msize.toNat mmanager currentPage msize with
      | .error s => .error s
      | .ok m => .ok (m, 0)

/-- The effect of `memcpy(dst + d, src + s, n)` on the destination memory. -/
def memcpy (dst : Nat → UInt8) (d : Nat) (src : Nat → UInt8) (s n : Nat) : Nat → UInt8 :=
  fun a => if d ≤ a ∧ a < d + n then src (s + (a - d)) else dst a

/-- The address `memAddr + offset` of `n` bytes of the backing buffer that a `memcpy`
of the source reads or writes. -/
def bufferRange (mmanager : allocator) (memAddr : Option Nat) (offset n : Nat) :
    Except Stuck Nat :=
  match memAddr with
  | none => .error .nullDeref
  | some base => if base + offset + n ≤ mmanager.bufSize then .ok (base + offset) else .error .outOfBounds

/-- Line 271: `allocator_read`, returning the memory of the caller and the status.  The
memory of the caller is `real`, `toRealAddr` an address in it.  The status of the
recursive call is not used.  `fuel` bounds the depth of the recursion. -/
def allocator_read_rec : Nat → allocator → (Nat → UInt8) → Nat → Nat → Int →
    Except Stuck ((Nat → UInt8) × Int)
  | 0, _, _, _, _, _ => .error .noReturn
  | fuel + 1, mmanager, real, toRealAddr, fromVirtAddr, msize =>
    let pageNumber := fromVirtAddr >>> 12
    let offset := offsetOf fromVirtAddr
    match __pageTableEntry_find mmanager.pageTableHead pageNumber with
    | .error s => .error s
    | .ok none => .ok (real, 1)
    | .ok (some current) =>
      match mmanager.pageTableHead[current]? with
      | none => .error .danglingDeref
      | some page =>
        if msize > 0 then
          if ((PAGE_SIZE - offset : Nat) : Int) ≥ msize then
            match bufferRange mmanager page.memAddr offset msize.toNat with
            | .error s => .error s
            | .ok src => .ok (memcpy real toRealAddr mmanager.buffer src msize.toNat, 0)
          else
            match mmanager.pageTableHead[current + 1]? with
            | none => .ok (real, 1)
            | some next =>
              match bufferRange mmanager page.memAddr offset (PAGE_SIZE - offset) with
              | .error s => .error s
              | .ok src =>
                let real1 := memcpy real toRealAddr mmanager.buffer src (PAGE_SIZE - offset)
                match allocator_read_rec fuel mmanager real1 (toRealAddr + PAGE_SIZE - offset)
                    ((next.pageNumber <<< 12) % SIZE_MOD) (msize - ((PAGE_SIZE - offset : Nat) : Int)) with
                | .error s => .error s
                | .ok (real2, _) => .ok (real2, 0)
        else .ok (real, 0)

/-- Line 271: `allocator_read`.  Every recursive call has a smaller positive `msize`. -/
def allocator_read (mmanager : allocator) (real : Nat → UInt8) (toRealAddr fromVirtAddr : Nat)
    (msize : Int) : Except Stuck ((Nat → UInt8) × Int) :=
  allocator_read_rec (msize.toNat + 1) mmanager real toRealAddr fromVirtAddr msize

/-- Line 301: `allocator_write`, returning the state and the status.  The memory of the
caller is `real`, `fromRealAddr` an address in it.  The status of the recursive call is
not used.  `fuel` bounds the depth of the recursion. -/
def allocator_write_rec : Nat → allocator → (Nat → UInt8) → Nat → Nat → Int →
    Except Stuck (allocator × Int)
  | 0, _, _, _, _, _ => .error .noReturn
  | fuel + 1, mmanager, real, toVirtAddr, fromRealAddr, msize =>
    let pageNumber := toVirtAddr >>> 12
    let offset := offsetOf toVirtAddr
    match __pageTableEntry_find mmanager.pageTableHead pageNumber with
    | .error s => .error s
    | .ok none => .ok (mmanager, 1)
    | .ok (some current) =>
      match mmanager.pageTableHead[current]? with
      | none => .error .danglingDeref
      | some page =>
        if msize > 0 then
          if ((PAGE_SIZE - offset : Nat) : Int) ≥ msize then
            match bufferRange mmanager page.memAddr offset msize.toNat with
            | .error s => .error s
            | .ok dst =>
              .ok ({ mmanager with
                      buffer := memcpy mmanager.buffer dst real fromRealAddr msize.toNat }, 0)
          else
            match mmanager.pageTableHead[current + 1]? with
            | none => .ok (mmanager, 1)
            | some next =>
              match bufferRange mmanager page.memAddr offset (PAGE_SIZE - offset) with
              | .error s => .error s
              | .ok dst =>
                let m1 := { mmanager with
                  buffer := memcpy mmanager.buffer dst real fromRealAddr (PAGE_SIZE - offset) }
                match allocator_write_rec fuel m1 real ((next.pageNumber <<< 12) % SIZE_MOD)
                    (fromRealAddr + PAGE_SIZE - offset) (msize - ((PAGE_SIZE - offset : Nat) : Int)) with
                | .error s => .error s
                | .ok (m2, _) => .ok (m2, 0)
        else .ok (mmanager, 0)

/-- Line 301: `allocator_write`.  Every recursive call has a smaller positive `msize`. -/
def allocator_write (mmanager : allocator) (real : Nat → UInt8) (toVirtAddr fromRealAddr : Nat)
    (msize : Int) : Except Stuck (allocator × Int) :=
  allocator_write_rec (msize.toNat + 1) mmanager real toVirtAddr fromRealAddr msize

/-- The bookkeeping of an allocator: every field but the content of the buffer. -/
structure Tables where
  bufSize : Nat
  freeFramesNum : Int
  pageTableHead : List __pageTableEntry
  pageTableTail : Option Nat
  frameTableHead : List __frameTableEntry
deriving DecidableEq

/-- The bookkeeping of an allocator. -/
def tables (mmanager : allocator) : Tables :=
  { bufSize := mmanager.bufSize
    freeFramesNum := mmanager.freeFramesNum
    pageTableHead := mmanager.pageTableHead
    pageTableTail := mmanager.pageTableTail
    frameTableHead := mmanager.frameTableHead }

/-- A call of `allocator_allocate` or of `allocator_deallocate`. -/
inductive Call where
  | allocate (msize : Int)
  | deallocate (virtAddr : Nat) (msize : Int)

/-- The state after a call and the value the call returns: the address for
`allocator_allocate`, the status for `allocator_deallocate`. -/
def Call.run (mmanager : allocator) : Call → Except Stuck (allocator × Int)
  | .allocate msize =>
    match allocator_allocate mmanager msize with
    | .error s => .error s
    | .ok (m, virtAddr) => .ok (m, (virtAddr : Int))
  | .deallocate virtAddr msize => allocator_deallocate mmanager virtAddr msize

/-- A sequence of calls, one after the other: the last state and the values returned. -/
def runCalls (mmanager : allocator) : List Call → Except Stuck (allocator × List Int)
  | [] => .ok (mmanager, [])
  | c :: rest =>
    match c.run mmanager with
    | .error s => .error s
    | .ok (m, v) =>
      match runCalls m rest with
      | .error s => .error s
      | .ok (m', vs) => .ok (m', v :: vs)

/-- A sequence of calls on the allocator that `allocator_construct` makes. -/
def runFrom (heap : Nat → UInt8) (buffSize : Nat) (calls : List Call) :
    Except Stuck (allocator × List Int) :=
  match allocator_construct heap buffSize with
  | .error s => .error s
  | .ok (m, _) => runCalls m calls

/-- The page numbers of the nodes that the page table of `m'` has after those of `m`: the
identifiers that a call of `allocator_allocate` from `m` to `m'` has assigned. -/
def assigned (m m' : allocator) : List Nat :=
  (m'.pageTableHead.drop m.pageTableHead.length).map (fun e => e.pageNumber)

/-- The identifiers that the calls of `allocator_allocate` in a sequence of calls assign, in
the order of assignment. -/
def assignedIds (mmanager : allocator) : List Call → List Nat
  | [] => []
  | .allocate msize :: rest =>
    match allocator_allocate mmanager msize with
    | .error _ => []
    | .ok (m, _) => assigned mmanager m ++ assignedIds m rest
  | .deallocate virtAddr msize :: rest =>
    match allocator_deallocate mmanager virtAddr msize with
    | .error _ => []
    | .ok (m, _) => assignedIds m rest

/-- The identifiers assigned by a sequence of calls on the allocator that
`allocator_construct` makes. -/
def assignedIdsFrom (heap : Nat → UInt8) (buffSize : Nat) (calls : List Call) : List Nat :=
  match allocator_construct heap buffSize with
  | .error _ => []
  | .ok (m, _) => assignedIds m calls

/-- A block of memory filled with zero bytes. -/
def zeroHeap : Nat → UInt8 := fun _ => 0

/-- The number of iterations of `while (msize > 0) msize -= PAGE_SIZE`, which is
`msize / PAGE_SIZE` rounded up for a positive `msize`. -/
def pagesOf (msize : Int) : Nat := ((msize + 4095) / 4096).toNat

/-! ## Closed forms used by the proofs -/

/-- The pointer to the last node of a list: null for the empty list. -/
def tailOf (head : List __pageTableEntry) : Option Nat :=
  match head with
  | [] => none
  | _ :: rest => some rest.length

/-- The stored tail pointer points to the last node of the page table, and is null when the
page table is empty. -/
def TailOK (mmanager : allocator) : Prop :=
  mmanager.pageTableTail = tailOf mmanager.pageTableHead

/-- The page number of the last node, `0` for the empty list. -/
def lastId (head : List __pageTableEntry) : Nat :=
  match head.getLast? with
  | none => 0
  | some e => e.pageNumber

/-- The page numbers of a page table from head to tail. -/
def pageIds (head : List __pageTableEntry) : List Nat := head.map (fun e => e.pageNumber)

/-- The number of frame nodes flagged free. -/
def freeCount (frames : List __frameTableEntry) : Nat := frames.countP (fun f => f.isFree)

/-- The addresses of the frame nodes. -/
def frameAddrs (frames : List __frameTableEntry) : List (Option Nat) :=
  frames.map (fun f => f.memAddr)

/-- One iteration of the loop of `allocator_allocate` on a state whose tail pointer is right. -/
def allocStep (m : allocator) : allocator :=
  { (__allocator_find_free_frame m).1 with
    pageTableHead := m.pageTableHead ++
      [{ memAddr := (__allocator_find_free_frame m).2,
         pageNumber := (lastId m.pageTableHead + 1) % SIZE_MOD }]
    pageTableTail := some m.pageTableHead.length }

/-- The state after `k` iterations of the loop of `allocator_allocate`. -/
def allocSteps : Nat → allocator → allocator
  | 0, m => m
  | k + 1, m => allocSteps k (allocStep m)

/-- The value of `virtAddr` after `k` iterations of the loop of `allocator_allocate`. -/
def allocAddr : Nat → allocator → Nat → Nat
  | 0, _, v => v
  | k + 1, m, v =>
    allocAddr k (allocStep m)
      (if v = 0 then (((lastId m.pageTableHead + 1) % SIZE_MOD) <<< 12) % SIZE_MOD else v)

/-- The frame list with the first node of address `memAddr` flagged free. -/
def releaseFlag : List __frameTableEntry → Option Nat → List __frameTableEntry
  | [], _ => []
  | f :: rest, memAddr =>
    if f.memAddr = memAddr then { f with isFree := true } :: rest
    else f :: releaseFlag rest memAddr

/-- One iteration of the loop of `allocator_deallocate` at a node of the page table whose
frame address is in the frame table. -/
def deallocStep (m : allocator) (currentPage : Nat) : allocator :=
  match m.pageTableHead[currentPage]? with
  | none => m
  | some page =>
    { m with
      frameTableHead := releaseFlag m.frameTableHead page.memAddr
      freeFramesNum := m.freeFramesNum + 1
      pageTableHead := m.pageTableHead.eraseIdx currentPage
      pageTableTail := tailOf (m.pageTableHead.eraseIdx currentPage) }

/-- The state after `k` iterations of the loop of `allocator_deallocate`. -/
def deallocSteps : Nat → allocator → Nat → allocator
  | 0, m, _ => m
  | k + 1, m, currentPage => deallocSteps k (deallocStep m currentPage) currentPage

/-- The number of pages that the calls of `allocator_allocate` in a sequence ask for. -/
def totalPages : List Call → Nat
  | [] => 0
  | .allocate msize :: rest => pagesOf msize + totalPages rest
  | .deallocate _ _ :: rest => totalPages rest

/-- The invariant of the page identifiers: the tail pointer is right, the page numbers
increase strictly from head to tail and none is above `n`. -/
def IdsInv (mmanager : allocator) (n : Nat) : Prop :=
  TailOK mmanager ∧ List.Pairwise (fun a b => a < b) (pageIds mmanager.pageTableHead) ∧
    ∀ id ∈ pageIds mmanager.pageTableHead, id ≤ n

/-- The allocator for 12288 bytes after one `allocator_allocate(4096)`: page 1 in the first
frame, two frames free. -/
def onePageOfThree : allocator :=
  { bufSize := 12288, freeFramesNum := 2, buffer := zeroHeap,
    pageTableHead := [⟨some 0, 1⟩], pageTableTail := some 0,
    frameTableHead := [⟨some 0, false⟩, ⟨some 4096, true⟩, ⟨some 8192, true⟩] }

/-! ## The read with a destination that may lie in the backing buffer -/

/-- The destination that a caller passes to `allocator_read` as `toRealAddr`: a pointer into
the backing buffer, at an offset from its start, or a pointer into an object of the caller
apart from the memory that the allocator owns.  A pointer into the allocator structure or
into a node of its lists is not represented. -/
inductive Dest where
  /-- The pointer `buffer + offset`. -/
  | inBuffer (offset : Nat)
  /-- The address `addr` of the memory of the caller. -/
  | inCaller (addr : Nat)
deriving DecidableEq

/-- Line 293: the pointer `toRealAddr + PAGE_SIZE - offset`. -/
def Dest.step (toRealAddr : Dest) (offset : Nat) : Dest :=
  match toRealAddr with
  | .inBuffer d => .inBuffer (d + PAGE_SIZE - offset)
  | .inCaller a => .inCaller (a + PAGE_SIZE - offset)

/-- Lines 284 and 290: `memcpy(toRealAddr, buffer + src, n)`, the allocator and the memory of
the caller after it.  A destination in the backing buffer changes the content of the buffer;
the copy is undefined when the destination range leaves the buffer or overlaps the range
that is read. -/
def memcpyFromBuffer (mmanager : allocator) (real : Nat → UInt8) (toRealAddr : Dest)
    (src n : Nat) : Except Stuck (allocator × (Nat → UInt8)) :=
  match toRealAddr with
  | .inCaller a => .ok (mmanager, memcpy real a mmanager.buffer src n)
  | .inBuffer d =>
    if mmanager.bufSize < d + n then .error .outOfBounds
    else if d < src + n ∧ src < d + n then .error .overlap
    else .ok ({ mmanager with buffer := memcpy mmanager.buffer d mmanager.buffer src n }, real)

/-- Line 271: `allocator_read` on the allocator and the memory of the caller together,
returning both and the status.  The C function copies through the raw pointer
`toRealAddr`, which may point into the backing buffer; the bytes that a later `memcpy`
reads are those that an earlier one left.  The status of the recursive call is not used.
`fuel` bounds the depth of the recursion. -/
def allocator_read_dest_rec : Nat → allocator → (Nat → UInt8) → Dest → Nat → Int →
    Except Stuck (allocator × (Nat → UInt8) × Int)
  | 0, _, _, _, _, _ => .error .noReturn
  | fuel + 1, mmanager, real, toRealAddr, fromVirtAddr, msize =>
    let pageNumber := fromVirtAddr >>> 12
    let offset := offsetOf fromVirtAddr
    match __pageTableEntry_find mmanager.pageTableHead pageNumber with
    | .error s => .error s
    | .ok none => .ok (mmanager, real, 1)
    | .ok (some current) =>
      match mmanager.pageTableHead[current]? with
      | none => .error .danglingDeref
      | some page =>
        if msize > 0 then
          if ((PAGE_SIZE - offset : Nat) : Int) ≥ msize then
            match bufferRange mmanager page.memAddr offset msize.toNat with
            | .error s => .error s
            | .ok src =>
              match memcpyFromBuffer mmanager real toRealAddr src msize.toNat with
              | .error s => .error s
              | .ok (m1, real1) => .ok (m1, real1, 0)
          else
            match mmanager.pageTableHead[current + 1]? with
            | none => .ok (mmanager, real, 1)
            | some next =>
              match bufferRange mmanager page.memAddr offset (PAGE_SIZE - offset) with
              | .error s => .error s
              | .ok src =>
                match memcpyFromBuffer mmanager real toRealAddr src (PAGE_SIZE - offset) with
                | .error s => .error s
                | .ok (m1, real1) =>
                  match allocator_read_dest_rec fuel m1 real1 (toRealAddr.step offset)
                      ((next.pageNumber <<< 12) % SIZE_MOD)
                      (msize - ((PAGE_SIZE - offset : Nat) : Int)) with
                  | .error s => .error s
                  | .ok (m2, real2, _) => .ok (m2, real2, 0)
        else .ok (mmanager, real, 0)

/-- Line 271: `allocator_read` on the allocator and the memory of the caller together.
Every recursive call has a smaller positive `msize`. -/
def allocator_read_dest (mmanager : allocator) (real : Nat → UInt8) (toRealAddr : Dest)
    (fromVirtAddr : Nat) (msize : Int) : Except Stuck (allocator × (Nat → UInt8) × Int) :=
  allocator_read_dest_rec (msize.toNat + 1) mmanager real toRealAddr fromVirtAddr msize

/-- The allocator for 8192 bytes after one `allocator_allocate(8192)`: the pages 1 and 2 in
the two frames. -/
def twoPages : allocator :=
  { bufSize := 8192, freeFramesNum := 0, buffer := zeroHeap,
    pageTableHead := [⟨some 0, 1⟩, ⟨some 4096, 2⟩], pageTableTail := some 1,
    frameTableHead := [⟨some 0, false⟩, ⟨some 4096, false⟩] }

/-! ## The binding of pages to frames -/

/-- The flag of the first frame node of address `memAddr`, the node that
`__frameTableEntry_find` returns; `none` when no node has the address. -/
def flagOf : List __frameTableEntry → Option Nat → Option Bool
  | [], _ => none
  | f :: rest, memAddr => if f.memAddr = memAddr then some f.isFree else flagOf rest memAddr

/-- The frame addresses of the page table nodes that are not null, from head to tail. -/
def boundAddrs (head : List __pageTableEntry) : List (Option Nat) :=
  (head.map (fun e => e.memAddr)).filter (fun a => a.isSome)

/-- The invariant of the binding of pages to frames: the tail pointer is right, the frame
nodes have distinct addresses, none null; the frame addresses of the pages that are not null
are distinct and each is the address of a frame node flagged in use; the number of frame
nodes flagged free is the stored count plus `d`. -/
def FramesInv (mmanager : allocator) (d : Int) : Prop :=
  TailOK mmanager ∧
  (frameAddrs mmanager.frameTableHead).Nodup ∧ none ∉ frameAddrs mmanager.frameTableHead ∧
  (boundAddrs mmanager.pageTableHead).Nodup ∧
  (∀ a ∈ boundAddrs mmanager.pageTableHead, flagOf mmanager.frameTableHead a = some false) ∧
  (freeCount mmanager.frameTableHead : Int) = mmanager.freeFramesNum + d

/-! ## The address codec -/

theorem offsetOf_eq_mod (virtAddr : Nat) : offsetOf virtAddr = virtAddr % 4096 := by
  unfold offsetOf SIZE_MOD
  rw [Nat.shiftLeft_eq, Nat.shiftRight_eq_div_pow]
  norm_num
  omega

/-! ## The page table as a list -/

theorem pageTable_find_from_none (i : Nat) (e : __pageTableEntry) (rest : List __pageTableEntry) :
    __pageTable_find_from i (e :: rest) none = .ok (i + rest.length) := by
  induction rest generalizing i e with
  | nil => simp [__pageTable_find_from]
  | cons e' rest ih =>
    rw [__pageTable_find_from]
    simp only [reduceCtorEq, if_false]
    rw [ih]
    simp only [List.length_cons]
    congr 1
    omega

theorem pageTable_find_none (head : List __pageTableEntry) :
    __pageTable_find head none = .ok (tailOf head) := by
  cases head with
  | nil => rfl
  | cons e rest =>
    simp [__pageTable_find, pageTable_find_from_none, tailOf, Except.map]

theorem set_next_eraseIdx {α : Type} (l : List α) (i : Nat) (x : α) (h : l[i + 1]? = some x) :
    (l.set i x).eraseIdx (i + 1) = l.eraseIdx i := by
  induction l generalizing i with
  | nil => simp at h
  | cons a l ih =>
    cases i with
    | zero =>
      cases l with
      | nil => simp at h
      | cons b l =>
        simp at h
        simp [h]
    | succ i =>
      simp only [List.getElem?_cons_succ] at h
      simp [ih i h]

theorem take_eq_eraseIdx_last {α : Type} (l : List α) (i : Nat) (h : i + 1 = l.length) :
    l.take i = l.eraseIdx i := by
  induction l generalizing i with
  | nil => simp at h
  | cons a l ih =>
    cases i with
    | zero =>
      cases l with
      | nil => simp
      | cons b l => simp at h
    | succ i =>
      simp only [List.length_cons, Nat.add_right_cancel_iff] at h
      simp [ih i h]

/-- At a node of the list, `__pageTable_erase` removes the entry at that position. -/
theorem pageTable_erase_eq (head : List __pageTableEntry) (i : Nat) (h : i < head.length) :
    __pageTable_erase head i = .ok (head.eraseIdx i) := by
  unfold __pageTable_erase
  rw [pageTable_find_none]
  cases head with
  | nil => simp at h
  | cons e rest =>
    simp only [tailOf, Option.some.injEq]
    by_cases hlast : i = rest.length
    · by_cases h0 : i = 0
      · subst h0
        have : rest = [] := List.length_eq_zero.mp hlast.symm
        subst this
        simp
      · rw [if_pos ⟨hlast, h0⟩]
        rw [take_eq_eraseIdx_last]
        simp [hlast]
    · rw [if_neg (fun hh => hlast hh.1), if_neg (fun hh => hlast hh.1)]
      simp only [List.length_cons] at h
      have h1 : i + 1 < (e :: rest).length := by simp only [List.length_cons]; omega
      have h2 : i < (e :: rest).length := by simp only [List.length_cons]; omega
      rw [List.getElem?_eq_getElem h2, List.getElem?_eq_getElem h1]
      simp only
      rw [set_next_eraseIdx]
      exact List.getElem?_eq_getElem h1

theorem tailOf_append_singleton (head : List __pageTableEntry) (e : __pageTableEntry) :
    tailOf (head ++ [e]) = some head.length := by
  cases head with
  | nil => rfl
  | cons a l => simp [tailOf]

theorem lastId_append_singleton (head : List __pageTableEntry) (e : __pageTableEntry) :
    lastId (head ++ [e]) = e.pageNumber := by
  simp [lastId]

/-! ## `allocator_allocate` -/

theorem find_free_frame_pageTable (m : allocator) :
    (__allocator_find_free_frame m).1.pageTableHead = m.pageTableHead ∧
    (__allocator_find_free_frame m).1.pageTableTail = m.pageTableTail ∧
    (__allocator_find_free_frame m).1.bufSize = m.bufSize ∧
    (__allocator_find_free_frame m).1.buffer = m.buffer := by
  unfold __allocator_find_free_frame
  cases __allocator_find_free_frame_loop m.frameTableHead with
  | none => simp
  | some r => simp

theorem find_free_frame_update (m : allocator) (head : List __pageTableEntry) (t : Option Nat) :
    __allocator_find_free_frame { m with pageTableHead := head, pageTableTail := t } =
      ({ (__allocator_find_free_frame m).1 with pageTableHead := head, pageTableTail := t },
        (__allocator_find_free_frame m).2) := by
  unfold __allocator_find_free_frame
  cases __allocator_find_free_frame_loop m.frameTableHead with
  | none => simp
  | some r => simp

theorem getLast?_eq_getElem?_tail (head : List __pageTableEntry) (t : Nat)
    (h : tailOf head = some t) : head[t]? = head.getLast? := by
  cases head with
  | nil => simp [tailOf] at h
  | cons a l =>
    simp only [tailOf, Option.some.injEq] at h
    subst h
    rw [List.getLast?_eq_getElem?]
    simp

theorem push_eq (m : allocator) (h : TailOK m) :
    __allocator_push_pageTableEntry m = .ok
      { m with
        pageTableHead := m.pageTableHead ++
          [__pageTableEntry_construct ((lastId m.pageTableHead + 1) % SIZE_MOD)]
        pageTableTail := some m.pageTableHead.length } := by
  unfold __allocator_push_pageTableEntry
  unfold TailOK at h
  cases hm : m.pageTableHead with
  | nil => simp [lastId, SIZE_MOD]
  | cons a l =>
    rw [hm] at h
    simp only [h, tailOf]
    have hlen : l.length < (a :: l).length := by simp
    rw [List.getElem?_eq_getElem hlen]
    simp only
    have hlast : (a :: l)[l.length]? = (a :: l).getLast? :=
      getLast?_eq_getElem?_tail (a :: l) l.length rfl
    rw [List.getElem?_eq_getElem hlen] at hlast
    have : lastId (a :: l) = ((a :: l)[l.length]).pageNumber := by
      unfold lastId
      rw [← hlast]
    rw [this]
    have ht : List.take (l.length + 1) (a :: l) = a :: l := by
      apply List.take_of_length_le
      simp
    rw [ht]
    simp

/-- The body of the loop of `allocator_allocate` on a state whose tail pointer is right. -/
theorem allocate_body_eq (m : allocator) (v : Nat) (h : TailOK m) :
    allocator_allocate_body m v = .ok (allocStep m,
      if v = 0 then (((lastId m.pageTableHead + 1) % SIZE_MOD) <<< 12) % SIZE_MOD else v) := by
  unfold allocator_allocate_body
  rw [push_eq m h]
  simp only
  rw [find_free_frame_update]
  simp only
  have hp := (find_free_frame_pageTable m)
  have hlen : m.pageTableHead.length <
      (m.pageTableHead ++ [__pageTableEntry_construct ((lastId m.pageTableHead + 1) % SIZE_MOD)]).length := by
    simp
  rw [List.getElem?_eq_getElem hlen]
  simp only [List.getElem_concat_length, __pageTableEntry_construct]
  congr 2
  unfold allocStep
  congr 1
  simp

theorem allocStep_tailOK (m : allocator) : TailOK (allocStep m) := by
  unfold TailOK allocStep
  simp [tailOf_append_singleton]

theorem allocSteps_tailOK (k : Nat) (m : allocator) (h : TailOK m) : TailOK (allocSteps k m) := by
  induction k generalizing m with
  | zero => exact h
  | succ k ih => exact ih _ (allocStep_tailOK m)

theorem pagesOf_nonpos (msize : Int) (h : ¬ msize > 0) : pagesOf msize = 0 := by
  unfold pagesOf
  have : (msize + 4095) / 4096 ≤ 0 := by omega
  omega

theorem pagesOf_pos (msize : Int) (h : msize > 0) :
    pagesOf msize = pagesOf (msize - 4096) + 1 := by
  unfold pagesOf
  omega

/-- The loop of `allocator_allocate` makes `pagesOf msize` iterations and returns. -/
theorem allocate_loop_eq (fuel : Nat) (m : allocator) (msize : Int) (v : Nat) (h : TailOK m)
    (hf : msize.toNat ≤ fuel) :
    allocator_allocate_loop fuel m msize v =
      .ok (allocSteps (pagesOf msize) m, allocAddr (pagesOf msize) m v) := by
  induction fuel generalizing m msize v with
  | zero =>
    have hm : ¬ msize > 0 := by omega
    simp [allocator_allocate_loop, hm, pagesOf_nonpos msize hm, allocSteps, allocAddr]
  | succ fuel ih =>
    unfold allocator_allocate_loop
    by_cases hm : msize > 0
    · rw [if_pos hm, allocate_body_eq m v h]
      simp only [PAGE_SIZE]
      rw [ih _ _ _ (allocStep_tailOK m) (by omega), pagesOf_pos msize hm]
      rfl
    · rw [if_neg hm, pagesOf_nonpos msize hm]
      rfl

/-- The result of `allocator_allocate` on a state whose tail pointer is right. -/
theorem allocate_eq (m : allocator) (msize : Int) (h : TailOK m) :
    allocator_allocate m msize =
      if m.freeFramesNum < Int.tdiv msize 4096 then .ok (m, 0)
      else .ok (allocSteps (pagesOf msize) m, allocAddr (pagesOf msize) m 0) := by
  unfold allocator_allocate
  simp only [PAGE_SIZE, Nat.cast_ofNat]
  by_cases hc : m.freeFramesNum < Int.tdiv msize 4096
  · rw [if_pos hc, if_pos hc]
  · rw [if_neg hc, if_neg hc]
    exact allocate_loop_eq _ m msize 0 h (le_refl _)

/-! ## The frame table -/

theorem find_free_frame_loop_some (frames : List __frameTableEntry) (h : 1 ≤ freeCount frames) :
    ∃ frames' a, __allocator_find_free_frame_loop frames = some (frames', a) ∧
      freeCount frames' + 1 = freeCount frames ∧ frameAddrs frames' = frameAddrs frames ∧
      a ∈ frameAddrs frames := by
  induction frames with
  | nil => simp [freeCount] at h
  | cons f rest ih =>
    unfold __allocator_find_free_frame_loop
    by_cases hf : f.isFree = true
    · rw [if_pos hf]
      refine ⟨_, _, rfl, ?_, ?_, ?_⟩
      · simp [freeCount, List.countP_cons, hf]
      · simp [frameAddrs]
      · simp [frameAddrs]
    · rw [if_neg hf]
      have h' : 1 ≤ freeCount rest := by
        simpa [freeCount, List.countP_cons, hf] using h
      obtain ⟨frames', a, he, hc, ha, hm⟩ := ih h'
      refine ⟨f :: frames', a, ?_, ?_, ?_, ?_⟩
      · rw [he]; rfl
      · simp only [freeCount, List.countP_cons, hf] at hc ⊢
        simpa using hc
      · simp only [frameAddrs, List.map_cons] at ha ⊢
        rw [ha]
      · simp only [frameAddrs, List.map_cons, List.mem_cons] at hm ⊢
        exact Or.inr hm

theorem find_free_frame_loop_addrs (frames frames' : List __frameTableEntry) (a : Option Nat)
    (h : __allocator_find_free_frame_loop frames = some (frames', a)) :
    frameAddrs frames' = frameAddrs frames := by
  induction frames generalizing frames' with
  | nil => simp [__allocator_find_free_frame_loop] at h
  | cons f rest ih =>
    unfold __allocator_find_free_frame_loop at h
    by_cases hf : f.isFree = true
    · rw [if_pos hf] at h
      simp only [Option.some.injEq, Prod.mk.injEq] at h
      rw [← h.1]
      simp [frameAddrs]
    · rw [if_neg hf] at h
      cases hr : __allocator_find_free_frame_loop rest with
      | none => rw [hr] at h; simp at h
      | some r =>
        rw [hr] at h
        simp only [Option.map_some', Option.some.injEq, Prod.mk.injEq] at h
        rw [← h.1]
        have := ih r.1 (by rw [hr, ← h.2])
        simp only [frameAddrs, List.map_cons] at this ⊢
        rw [this]

theorem find_free_frame_addrs (m : allocator) :
    frameAddrs (__allocator_find_free_frame m).1.frameTableHead = frameAddrs m.frameTableHead := by
  unfold __allocator_find_free_frame
  cases hr : __allocator_find_free_frame_loop m.frameTableHead with
  | none => rfl
  | some r =>
    obtain ⟨frames', a⟩ := r
    exact find_free_frame_loop_addrs _ _ _ hr

/-- With a free frame in the table, `__allocator_find_free_frame` takes one: the count and
the number of nodes flagged free go down by one and the address returned is the address of
a frame node. -/
theorem find_free_frame_some (m : allocator) (h : 1 ≤ freeCount m.frameTableHead) :
    (__allocator_find_free_frame m).1.freeFramesNum = m.freeFramesNum - 1 ∧
    freeCount (__allocator_find_free_frame m).1.frameTableHead + 1 = freeCount m.frameTableHead ∧
    (__allocator_find_free_frame m).2 ∈ frameAddrs m.frameTableHead := by
  obtain ⟨frames', a, he, hc, _, hm⟩ := find_free_frame_loop_some m.frameTableHead h
  unfold __allocator_find_free_frame
  rw [he]
  exact ⟨rfl, hc, hm⟩

/-! ## Properties of the iterations of `allocator_allocate` -/

theorem allocStep_pageTable (m : allocator) :
    (allocStep m).pageTableHead = m.pageTableHead ++
      [{ memAddr := (__allocator_find_free_frame m).2,
         pageNumber := (lastId m.pageTableHead + 1) % SIZE_MOD }] := rfl

theorem allocStep_frames (m : allocator) :
    (allocStep m).frameTableHead = (__allocator_find_free_frame m).1.frameTableHead ∧
    (allocStep m).freeFramesNum = (__allocator_find_free_frame m).1.freeFramesNum ∧
    (allocStep m).bufSize = m.bufSize ∧ (allocStep m).buffer = m.buffer := by
  have h := find_free_frame_pageTable m
  exact ⟨rfl, rfl, h.2.2.1, h.2.2.2⟩

/-- The iterations of `allocator_allocate` append nodes to the page table and leave the
nodes it had. -/
theorem allocSteps_pageTable (k : Nat) (m : allocator) :
    ∃ new, (allocSteps k m).pageTableHead = m.pageTableHead ++ new ∧ new.length = k := by
  induction k generalizing m with
  | zero => exact ⟨[], by simp [allocSteps], rfl⟩
  | succ k ih =>
    obtain ⟨new, h1, h2⟩ := ih (allocStep m)
    refine ⟨{ memAddr := (__allocator_find_free_frame m).2,
               pageNumber := (lastId m.pageTableHead + 1) % SIZE_MOD } :: new, ?_, by simp [h2]⟩
    rw [allocSteps, h1, allocStep_pageTable]
    simp

/-- Without wrap of the page number, the nodes that the iterations append have the numbers
that follow the number of the last node. -/
theorem allocSteps_pageIds (k : Nat) (m : allocator) (h : lastId m.pageTableHead + k < SIZE_MOD) :
    pageIds (allocSteps k m).pageTableHead =
      pageIds m.pageTableHead ++ List.range' (lastId m.pageTableHead + 1) k := by
  induction k generalizing m with
  | zero => simp [allocSteps]
  | succ k ih =>
    have hmod : (lastId m.pageTableHead + 1) % SIZE_MOD = lastId m.pageTableHead + 1 :=
      Nat.mod_eq_of_lt (by omega)
    have hl : lastId (allocStep m).pageTableHead = lastId m.pageTableHead + 1 := by
      rw [allocStep_pageTable, lastId_append_singleton, hmod]
    rw [allocSteps, ih (allocStep m) (by rw [hl]; omega), hl]
    rw [allocStep_pageTable, hmod]
    simp [pageIds, List.range'_succ]

theorem allocSteps_frames (k : Nat) (m : allocator) :
    frameAddrs (allocSteps k m).frameTableHead = frameAddrs m.frameTableHead ∧
    (allocSteps k m).bufSize = m.bufSize ∧ (allocSteps k m).buffer = m.buffer := by
  induction k generalizing m with
  | zero => exact ⟨rfl, rfl, rfl⟩
  | succ k ih =>
    obtain ⟨h1, h2, h3⟩ := ih (allocStep m)
    obtain ⟨g1, _, g3, g4⟩ := allocStep_frames m
    rw [allocSteps]
    refine ⟨?_, by rw [h2, g3], by rw [h3, g4]⟩
    rw [h1, g1, find_free_frame_addrs]

/-- With `k` frames flagged free, `k` iterations of `allocator_allocate` take `k` frames:
the count goes down by `k` and every node appended is bound to the address of a frame
node. -/
theorem allocSteps_bound (k : Nat) (m : allocator) (h : k ≤ freeCount m.frameTableHead) :
    (allocSteps k m).freeFramesNum = m.freeFramesNum - k ∧
    freeCount (allocSteps k m).frameTableHead + k = freeCount m.frameTableHead ∧
    ∀ e ∈ (allocSteps k m).pageTableHead.drop m.pageTableHead.length,
      e.memAddr ∈ frameAddrs m.frameTableHead := by
  induction k generalizing m with
  | zero => simp [allocSteps]
  | succ k ih =>
    obtain ⟨f1, f2, f3⟩ := find_free_frame_some m (by omega)
    obtain ⟨g1, g2, _, _⟩ := allocStep_frames m
    obtain ⟨h1, h2, h3⟩ := ih (allocStep m) (by rw [g1]; omega)
    rw [allocSteps]
    refine ⟨?_, ?_, ?_⟩
    · rw [h1, g2, f1]; push_cast; ring
    · rw [g1] at h2; omega
    · obtain ⟨new, hn, _⟩ := allocSteps_pageTable k (allocStep m)
      rw [hn, List.drop_left, g1, find_free_frame_addrs] at h3
      rw [hn, allocStep_pageTable, List.append_assoc, List.drop_left]
      intro e he
      rcases List.mem_append.mp he with he | he
      · rw [List.mem_singleton.mp he]; exact f3
      · exact h3 e he

/-! ## `allocator_deallocate` -/

theorem frameTableEntry_find_from_none (i : Nat) (frames : List __frameTableEntry)
    (a : Option Nat) (h : a ∉ frameAddrs frames) :
    __frameTableEntry_find_from i frames a = none := by
  induction frames generalizing i with
  | nil => rfl
  | cons f rest ih =>
    simp only [frameAddrs, List.map_cons, List.mem_cons, not_or] at h
    unfold __frameTableEntry_find_from
    rw [if_pos (fun hh => h.1 hh.symm)]
    exact ih (i + 1) h.2

theorem frameTableEntry_find_from_some (i : Nat) (frames : List __frameTableEntry)
    (a : Option Nat) (h : a ∈ frameAddrs frames) :
    ∃ j f, __frameTableEntry_find_from i frames a = some (i + j) ∧ frames[j]? = some f ∧
      frames.set j { f with isFree := true } = releaseFlag frames a := by
  induction frames generalizing i with
  | nil => simp [frameAddrs] at h
  | cons f rest ih =>
    unfold __frameTableEntry_find_from
    by_cases hf : f.memAddr = a
    · refine ⟨0, f, ?_, by simp, ?_⟩
      · simp [hf]
      · simp [releaseFlag, hf]
    · have h' : a ∈ frameAddrs rest := by
        simp only [frameAddrs, List.map_cons, List.mem_cons] at h
        rcases h with h | h
        · exact absurd h.symm hf
        · exact h
      obtain ⟨j, g, h1, h2, h3⟩ := ih (i + 1) h'
      refine ⟨j + 1, g, ?_, ?_, ?_⟩
      · rw [if_pos hf, h1]
        congr 1
        omega
      · simpa using h2
      · simp [releaseFlag, hf, h3]

theorem releaseFlag_addrs (frames : List __frameTableEntry) (a : Option Nat) :
    frameAddrs (releaseFlag frames a) = frameAddrs frames := by
  induction frames with
  | nil => rfl
  | cons f rest ih =>
    unfold releaseFlag
    by_cases hf : f.memAddr = a
    · simp [hf, frameAddrs]
    · simp only [hf, if_false]
      simp only [frameAddrs, List.map_cons] at ih ⊢
      rw [ih]

/-- The result of `__allocator_freeUp_frame` with the address of a frame node. -/
theorem freeUp_frame_eq (m : allocator) (a : Option Nat) (h : a ∈ frameAddrs m.frameTableHead) :
    __allocator_freeUp_frame m a = .ok
      { m with
        frameTableHead := releaseFlag m.frameTableHead a
        freeFramesNum := m.freeFramesNum + 1 } := by
  obtain ⟨j, f, h1, h2, h3⟩ := frameTableEntry_find_from_some 0 m.frameTableHead a h
  unfold __allocator_freeUp_frame __frameTableEntry_find
  rw [h1]
  simp only [Nat.zero_add, h2, h3]

/-- With an address that no frame node has, `__allocator_freeUp_frame` dereferences null. -/
theorem freeUp_frame_stuck (m : allocator) (a : Option Nat) (h : a ∉ frameAddrs m.frameTableHead) :
    __allocator_freeUp_frame m a = .error .nullDeref := by
  unfold __allocator_freeUp_frame __frameTableEntry_find
  rw [frameTableEntry_find_from_none 0 _ a h]

/-- The body of the loop of `allocator_deallocate` at a node of the page table whose frame
address is in the frame table. -/
theorem deallocate_body_eq (m : allocator) (i : Nat) (page : __pageTableEntry)
    (hp : m.pageTableHead[i]? = some page) (ha : page.memAddr ∈ frameAddrs m.frameTableHead) :
    allocator_deallocate_body m i = .ok (deallocStep m i) := by
  unfold allocator_deallocate_body deallocStep
  rw [hp]
  simp only
  rw [freeUp_frame_eq m _ ha]
  simp only
  have hi : i < m.pageTableHead.length := by
    by_contra hc
    rw [List.getElem?_eq_none (by omega)] at hp
    exact Option.noConfusion hp
  rw [pageTable_erase_eq _ i hi]
  simp only
  rw [pageTable_find_none]

/-- When the body of the loop of `allocator_deallocate` returns, it has released the frame
of the node and erased the node. -/
theorem deallocate_body_ok (m m' : allocator) (i : Nat)
    (h : allocator_deallocate_body m i = .ok m') :
    m' = deallocStep m i ∧ i < m.pageTableHead.length := by
  cases hp : m.pageTableHead[i]? with
  | none =>
    unfold allocator_deallocate_body at h
    rw [hp] at h
    exact Except.noConfusion h
  | some page =>
    have hi : i < m.pageTableHead.length := by
      by_contra hc
      rw [List.getElem?_eq_none (by omega)] at hp
      exact Option.noConfusion hp
    by_cases ha : page.memAddr ∈ frameAddrs m.frameTableHead
    · rw [deallocate_body_eq m i page hp ha] at h
      exact ⟨(Except.ok.inj h).symm, hi⟩
    · unfold allocator_deallocate_body at h
      rw [hp] at h
      simp only at h
      rw [freeUp_frame_stuck m _ ha] at h
      exact Except.noConfusion h

/-- When the loop of `allocator_deallocate` returns, it has made `pagesOf msize`
iterations. -/
theorem deallocate_loop_ok (fuel : Nat) (m m' : allocator) (i : Nat) (msize : Int)
    (h : allocator_deallocate_loop fuel m i msize = .ok m') :
    m' = deallocSteps (pagesOf msize) m i := by
  induction fuel generalizing m msize with
  | zero =>
    unfold allocator_deallocate_loop at h
    by_cases hm : msize > 0
    · rw [if_pos hm] at h; exact Except.noConfusion h
    · rw [if_neg hm] at h
      rw [pagesOf_nonpos msize hm]
      exact (Except.ok.inj h).symm
  | succ fuel ih =>
    unfold allocator_deallocate_loop at h
    by_cases hm : msize > 0
    · rw [if_pos hm] at h
      cases hb : allocator_deallocate_body m i with
      | error s => rw [hb] at h; exact Except.noConfusion h
      | ok m1 =>
        rw [hb] at h
        simp only [PAGE_SIZE, Nat.cast_ofNat] at h
        rw [pagesOf_pos msize hm, deallocSteps, ← (deallocate_body_ok m m1 i hb).1]
        exact ih m1 (msize - 4096) h
    · rw [if_neg hm] at h
      rw [pagesOf_nonpos msize hm]
      exact (Except.ok.inj h).symm

/-- The loop of `allocator_deallocate` returns when the `pagesOf msize` nodes from
`currentPage` on are in the page table and are bound to addresses of frame nodes. -/
theorem deallocate_loop_eq (fuel : Nat) (m : allocator) (i : Nat) (msize : Int)
    (hf : msize.toNat ≤ fuel) (hlen : i + pagesOf msize ≤ m.pageTableHead.length)
    (hb : ∀ e ∈ (m.pageTableHead.drop i).take (pagesOf msize),
      e.memAddr ∈ frameAddrs m.frameTableHead) :
    allocator_deallocate_loop fuel m i msize = .ok (deallocSteps (pagesOf msize) m i) := by
  induction fuel generalizing m msize with
  | zero =>
    have hm : ¬ msize > 0 := by omega
    simp [allocator_deallocate_loop, hm, pagesOf_nonpos msize hm, deallocSteps]
  | succ fuel ih =>
    unfold allocator_deallocate_loop
    by_cases hm : msize > 0
    · rw [if_pos hm]
      have hk := pagesOf_pos msize hm
      rw [hk] at hlen hb
      have hi : i < m.pageTableHead.length := by omega
      have hp : m.pageTableHead[i]? = some (m.pageTableHead[i]) := List.getElem?_eq_getElem hi
      have hdrop : m.pageTableHead.drop i = m.pageTableHead[i] :: m.pageTableHead.drop (i + 1) :=
        List.drop_eq_getElem_cons hi
      rw [hdrop, List.take_succ_cons] at hb
      have ha := hb _ (List.mem_cons_self _ _)
      rw [deallocate_body_eq m i _ hp ha]
      simp only [PAGE_SIZE, Nat.cast_ofNat]
      have hs : (deallocStep m i).pageTableHead = m.pageTableHead.eraseIdx i := by
        unfold deallocStep; rw [hp]
      have hfr : (deallocStep m i).frameTableHead =
          releaseFlag m.frameTableHead (m.pageTableHead[i]).memAddr := by
        unfold deallocStep; rw [hp]
      rw [ih (deallocStep m i) (msize - 4096) (by omega), hk, deallocSteps]
      · rw [hs, List.length_eraseIdx, if_pos hi]
        omega
      · rw [hs, hfr, releaseFlag_addrs]
        intro e he
        apply hb e
        apply List.mem_cons_of_mem
        have : (m.pageTableHead.eraseIdx i).drop i = m.pageTableHead.drop (i + 1) := by
          rw [List.eraseIdx_eq_take_drop_succ, List.drop_append_of_le_length (by simp; omega)]
          simp [List.drop_take, Nat.min_eq_left (le_of_lt hi)]
        rw [this] at he
        exact he
    · rw [if_neg hm, pagesOf_nonpos msize hm]
      rfl

theorem deallocStep_fields (m : allocator) (i : Nat) (hi : i < m.pageTableHead.length) :
    (deallocStep m i).pageTableHead = m.pageTableHead.eraseIdx i ∧
    (deallocStep m i).pageTableTail = tailOf (m.pageTableHead.eraseIdx i) ∧
    (deallocStep m i).frameTableHead =
      releaseFlag m.frameTableHead (m.pageTableHead[i]).memAddr ∧
    (deallocStep m i).freeFramesNum = m.freeFramesNum + 1 ∧
    (deallocStep m i).bufSize = m.bufSize ∧ (deallocStep m i).buffer = m.buffer := by
  unfold deallocStep
  rw [List.getElem?_eq_getElem hi]
  exact ⟨rfl, rfl, rfl, rfl, rfl, rfl⟩

theorem deallocStep_out_of_range (m : allocator) (i : Nat) (hi : m.pageTableHead.length ≤ i) :
    deallocStep m i = m := by
  unfold deallocStep
  rw [List.getElem?_eq_none hi]

theorem deallocStep_tailOK (m : allocator) (i : Nat) (h : TailOK m) : TailOK (deallocStep m i) := by
  by_cases hi : i < m.pageTableHead.length
  · obtain ⟨h1, h2, _⟩ := deallocStep_fields m i hi
    unfold TailOK
    rw [h1, h2]
  · rw [deallocStep_out_of_range m i (by omega)]
    exact h

theorem deallocSteps_tailOK (k : Nat) (m : allocator) (i : Nat) (h : TailOK m) :
    TailOK (deallocSteps k m i) := by
  induction k generalizing m with
  | zero => exact h
  | succ k ih => exact ih _ (deallocStep_tailOK m i h)

theorem deallocStep_sublist (m : allocator) (i : Nat) :
    List.Sublist (deallocStep m i).pageTableHead m.pageTableHead := by
  by_cases hi : i < m.pageTableHead.length
  · rw [(deallocStep_fields m i hi).1]
    exact List.eraseIdx_sublist _ _
  · rw [deallocStep_out_of_range m i (by omega)]

/-- The iterations of `allocator_deallocate` remove nodes from the page table and keep the
order of the others. -/
theorem deallocSteps_sublist (k : Nat) (m : allocator) (i : Nat) :
    List.Sublist (deallocSteps k m i).pageTableHead m.pageTableHead := by
  induction k generalizing m with
  | zero => exact List.Sublist.refl _
  | succ k ih => exact (ih (deallocStep m i)).trans (deallocStep_sublist m i)

/-- At a node that has `k - 1` nodes after it, `k` iterations of `allocator_deallocate` add
`k` to the free frame count. -/
theorem deallocSteps_count (k : Nat) (m : allocator) (i : Nat)
    (h : i + k ≤ m.pageTableHead.length) :
    (deallocSteps k m i).freeFramesNum = m.freeFramesNum + k := by
  induction k generalizing m with
  | zero => simp [deallocSteps]
  | succ k ih =>
    have hi : i < m.pageTableHead.length := by omega
    obtain ⟨h1, _, _, h4, _⟩ := deallocStep_fields m i hi
    rw [deallocSteps, ih (deallocStep m i) (by rw [h1, List.length_eraseIdx, if_pos hi]; omega), h4]
    push_cast
    ring

/-! ## `allocator_construct` -/

theorem frameTable_construct_loop_ok (fuel i bufSize : Nat) (frames : List __frameTableEntry)
    (h : __frameTable_construct_loop fuel i bufSize = .ok frames) :
    (∀ f ∈ frames, f.isFree = true) ∧ bufSize ≤ i + 4096 * frames.length := by
  induction fuel generalizing i frames with
  | zero =>
    unfold __frameTable_construct_loop at h
    by_cases hi : i < bufSize
    · rw [if_pos hi] at h; exact Except.noConfusion h
    · rw [if_neg hi] at h
      rw [← Except.ok.inj h]
      exact ⟨by simp, by simp; omega⟩
  | succ fuel ih =>
    unfold __frameTable_construct_loop at h
    by_cases hi : i < bufSize
    · rw [if_pos hi] at h
      cases hr : __frameTable_construct_loop fuel ((i + PAGE_SIZE) % SIZE_MOD) bufSize with
      | error s => rw [hr] at h; exact Except.noConfusion h
      | ok rest =>
        rw [hr] at h
        obtain ⟨h1, h2⟩ := ih _ rest hr
        have hfr : frames = __frameTableEntry_construct (some i) :: rest :=
          (Except.ok.inj h).symm
        rw [hfr]
        refine ⟨?_, ?_⟩
        · intro f hf
          rcases List.mem_cons.mp hf with hf | hf
          · rw [hf]; rfl
          · exact h1 f hf
        · have : (i + PAGE_SIZE) % SIZE_MOD ≤ i + PAGE_SIZE := Nat.mod_le _ _
          simp only [PAGE_SIZE] at this h2
          simp only [List.length_cons]
          omega
    · rw [if_neg hi] at h
      rw [← Except.ok.inj h]
      exact ⟨by simp, by simp; omega⟩

theorem freeCount_of_all_free (frames : List __frameTableEntry)
    (h : ∀ f ∈ frames, f.isFree = true) : freeCount frames = frames.length := by
  unfold freeCount
  rw [List.countP_eq_length]
  exact h

/-- The allocator that a successful `allocator_construct` makes: no page, every frame node
flagged free, the frame nodes cover the buffer. -/
theorem construct_ok (heap : Nat → UInt8) (buffSize : Nat) (m : allocator)
    (h : allocator_construct heap buffSize = .ok (m, 0)) :
    0 < buffSize ∧
    m.bufSize = (buffSize + (if buffSize % PAGE_SIZE = 0 then 0 else PAGE_SIZE)) % SIZE_MOD ∧
    m.pageTableHead = [] ∧ m.pageTableTail = none ∧
    m.freeFramesNum = ((m.bufSize / PAGE_SIZE : Nat) : Int) ∧
    freeCount m.frameTableHead = m.frameTableHead.length ∧
    m.bufSize ≤ 4096 * m.frameTableHead.length ∧ m.buffer = heap := by
  unfold allocator_construct at h
  by_cases hb : buffSize > 0
  · simp only [if_pos hb] at h
    generalize (buffSize + (if buffSize % PAGE_SIZE = 0 then 0 else PAGE_SIZE)) % SIZE_MOD = B
      at h ⊢
    unfold __frameTable_construct at h
    cases hl : __frameTable_construct_loop (B / PAGE_SIZE) PAGE_SIZE B with
    | error s => rw [hl] at h; exact Except.noConfusion h
    | ok rest =>
      rw [hl] at h
      simp only [Except.map] at h
      have hm := (Prod.mk.inj (Except.ok.inj h)).1
      obtain ⟨h1, h2⟩ := frameTable_construct_loop_ok _ _ _ rest hl
      subst hm
      refine ⟨hb, rfl, rfl, rfl, rfl, ?_, ?_, rfl⟩
      · apply freeCount_of_all_free
        intro f hf
        rcases List.mem_cons.mp hf with hf | hf
        · rw [hf]; rfl
        · exact h1 f hf
      · simp only [PAGE_SIZE] at h2
        simp only [List.length_cons]
        omega
  · simp only [if_neg hb] at h
    have := (Prod.mk.inj (Except.ok.inj h)).2
    exact absurd this (by decide)

/-- Without wrap of its counter, the loop of `__frameTable_construct` returns within the
iterations that the fuel allows. -/
theorem frameTable_construct_loop_returns (fuel i bufSize : Nat)
    (hb : bufSize + 4096 ≤ SIZE_MOD) (hf : bufSize ≤ i + 4096 * fuel) :
    ∃ frames, __frameTable_construct_loop fuel i bufSize = .ok frames := by
  induction fuel generalizing i with
  | zero =>
    unfold __frameTable_construct_loop
    rw [if_neg (by omega)]
    exact ⟨[], rfl⟩
  | succ fuel ih =>
    unfold __frameTable_construct_loop
    by_cases hi : i < bufSize
    · rw [if_pos hi]
      have hmod : (i + PAGE_SIZE) % SIZE_MOD = i + 4096 :=
        Nat.mod_eq_of_lt (by simp only [PAGE_SIZE]; omega)
      rw [hmod]
      obtain ⟨rest, hr⟩ := ih (i + 4096) (by omega)
      rw [hr]
      exact ⟨_, rfl⟩
    · rw [if_neg hi]
      exact ⟨[], rfl⟩

/-- The call `allocator_construct` returns for every requested size above 0 whose padded size is at
most `2 ^ 64 - 4096`. -/
theorem construct_returns (heap : Nat → UInt8) (buffSize : Nat) (h0 : 0 < buffSize)
    (hb : (buffSize + (if buffSize % PAGE_SIZE = 0 then 0 else PAGE_SIZE)) % SIZE_MOD + 4096 ≤
      SIZE_MOD) :
    ∃ m, allocator_construct heap buffSize = .ok (m, 0) := by
  unfold allocator_construct
  simp only [if_pos h0]
  generalize (buffSize + (if buffSize % PAGE_SIZE = 0 then 0 else PAGE_SIZE)) % SIZE_MOD = B
    at hb ⊢
  unfold __frameTable_construct
  obtain ⟨rest, hr⟩ := frameTable_construct_loop_returns (B / PAGE_SIZE) PAGE_SIZE B hb
    (by simp only [PAGE_SIZE]; omega)
  rw [hr]
  exact ⟨_, rfl⟩

/-- With a buffer size above `2 ^ 64 - 4096` the counter of the loop of
`__frameTable_construct` wraps before it reaches the buffer size: the loop does not exit,
whatever the fuel. -/
theorem frameTable_construct_loop_no_exit (fuel i bufSize : Nat)
    (hb : SIZE_MOD < bufSize + 4096) (hi : i % 4096 = 0) (hlt : i < SIZE_MOD) :
    __frameTable_construct_loop fuel i bufSize = .error .noReturn := by
  have hcond : i < bufSize := by
    unfold SIZE_MOD at hb hlt
    omega
  induction fuel generalizing i with
  | zero =>
    unfold __frameTable_construct_loop
    rw [if_pos hcond]
  | succ fuel ih =>
    unfold __frameTable_construct_loop
    rw [if_pos hcond]
    have h1 : (i + PAGE_SIZE) % SIZE_MOD % 4096 = 0 := by
      unfold SIZE_MOD PAGE_SIZE
      omega
    have h2 : (i + PAGE_SIZE) % SIZE_MOD < SIZE_MOD := Nat.mod_lt _ (by unfold SIZE_MOD; omega)
    rw [ih _ h1 h2 (by unfold SIZE_MOD PAGE_SIZE at *; omega)]
    rfl

/-- The stored buffer size is at least the requested size when the requested size plus one
page does not wrap. -/
theorem construct_bufSize_ge (heap : Nat → UInt8) (buffSize : Nat) (m : allocator)
    (h : allocator_construct heap buffSize = .ok (m, 0)) (hb : buffSize + 4096 ≤ SIZE_MOD) :
    buffSize ≤ m.bufSize := by
  obtain ⟨_, h2, _⟩ := construct_ok heap buffSize m h
  rw [h2]
  unfold SIZE_MOD at hb ⊢
  unfold PAGE_SIZE
  by_cases hm : buffSize % 4096 = 0
  · rw [if_pos hm]
    omega
  · rw [if_neg hm]
    omega

theorem allocAddr_of_ne_zero (k : Nat) (m : allocator) (v : Nat) (h : v ≠ 0) :
    allocAddr k m v = v := by
  induction k generalizing m with
  | zero => rfl
  | succ k ih => rw [allocAddr, if_neg h, ih]

theorem pageTableEntry_find_from_append (i : Nat) (pre post : List __pageTableEntry)
    (p : __pageTableEntry) (pageNumber : Nat) (h : ∀ e ∈ pre, e.pageNumber ≠ pageNumber)
    (hp : p.pageNumber = pageNumber) :
    __pageTableEntry_find_from i (pre ++ p :: post) pageNumber = .ok (some (i + pre.length)) := by
  induction pre generalizing i with
  | nil => simp [__pageTableEntry_find_from, hp]
  | cons e pre ih =>
    rw [List.cons_append, __pageTableEntry_find_from, if_pos (h e (List.mem_cons_self _ _)),
      ih (i + 1) (fun e' he' => h e' (List.mem_cons_of_mem _ he'))]
    simp only [List.length_cons]
    congr 2
    omega

theorem allocAddr_aligned (k : Nat) (m : allocator) (v : Nat) (h : v % 4096 = 0) :
    allocAddr k m v % 4096 = 0 := by
  induction k generalizing m v with
  | zero => exact h
  | succ k ih =>
    rw [allocAddr]
    apply ih
    by_cases hv : v = 0
    · rw [if_pos hv, Nat.shiftLeft_eq]
      unfold SIZE_MOD
      omega
    · rw [if_neg hv]
      exact h

theorem encode_eq (id : Nat) (h : id < 2 ^ 52) :
    ((id % SIZE_MOD) <<< 12) % SIZE_MOD = id <<< 12 ∧ (id <<< 12) >>> 12 = id ∧
      (id <<< 12 = 0 ↔ id = 0) := by
  unfold SIZE_MOD
  simp only [Nat.shiftLeft_eq, Nat.shiftRight_eq_div_pow]
  norm_num at h ⊢
  omega

theorem scenario_two_allocations (heap : Nat → UInt8) :
    (runFrom heap 8192 [.allocate 4096]).map (fun r => (r.1.freeFramesNum, r.2)) =
      .ok (1, [0x1000]) ∧
    (runFrom heap 8192 [.allocate 4096, .allocate 4096]).map
        (fun r => (r.1.freeFramesNum, r.2)) = .ok (0, [0x1000, 0x2000]) := by
  have hc : allocator_construct heap 8192 =
      .ok (⟨8192, 2, heap, [], none, [⟨some 0, true⟩, ⟨some 4096, true⟩]⟩, 0) := rfl
  have hp : pagesOf 4096 = 1 := by decide
  have h1 : allocator_allocate ⟨8192, 2, heap, [], none, [⟨some 0, true⟩, ⟨some 4096, true⟩]⟩
      4096 = .ok (⟨8192, 1, heap, [⟨some 0, 1⟩], some 0,
        [⟨some 0, false⟩, ⟨some 4096, true⟩]⟩, 0x1000) := by
    rw [allocate_eq _ _ (by unfold TailOK; rfl), hp, if_neg (show ¬ (2 : Int) < Int.tdiv 4096 4096 by decide)]
    simp [allocSteps, allocStep, allocAddr, __allocator_find_free_frame,
      __allocator_find_free_frame_loop, lastId, SIZE_MOD]
  have h2 : allocator_allocate ⟨8192, 1, heap, [⟨some 0, 1⟩], some 0,
      [⟨some 0, false⟩, ⟨some 4096, true⟩]⟩ 4096 =
      .ok (⟨8192, 0, heap, [⟨some 0, 1⟩, ⟨some 4096, 2⟩], some 1,
        [⟨some 0, false⟩, ⟨some 4096, false⟩]⟩, 0x2000) := by
    rw [allocate_eq _ _ (by unfold TailOK; rfl), hp, if_neg (show ¬ (1 : Int) < Int.tdiv 4096 4096 by decide)]
    simp [allocSteps, allocStep, allocAddr, __allocator_find_free_frame,
      __allocator_find_free_frame_loop, lastId, SIZE_MOD]
  constructor
  · simp only [runFrom, hc, runCalls, Call.run, h1]
    rfl
  · simp only [runFrom, hc, runCalls, Call.run, h1, h2]
    rfl

/-! ## The page identifiers along a sequence of calls -/

theorem lastId_nil : lastId [] = 0 := rfl

theorem le_lastId_of_sorted (head : List __pageTableEntry)
    (h : List.Pairwise (fun a b => a < b) (pageIds head)) :
    ∀ e ∈ head, e.pageNumber ≤ lastId head := by
  rcases List.eq_nil_or_concat head with hn | ⟨l, x, hl⟩
  · rw [hn]; simp
  · rw [hl, List.concat_eq_append] at h ⊢
    rw [lastId_append_singleton]
    simp only [pageIds, List.map_append, List.map_cons, List.map_nil] at h
    have h2 := (List.pairwise_append.mp h).2.2
    intro e he
    rcases List.mem_append.mp he with he | he
    · exact le_of_lt (h2 e.pageNumber (List.mem_map_of_mem _ he) x.pageNumber (by simp))
    · rw [List.mem_singleton.mp he]

theorem lastId_le_of_bound (head : List __pageTableEntry) (n : Nat)
    (h : ∀ id ∈ pageIds head, id ≤ n) : lastId head ≤ n := by
  rcases List.eq_nil_or_concat head with hn | ⟨l, x, hl⟩
  · rw [hn, lastId_nil]; omega
  · rw [hl, List.concat_eq_append, lastId_append_singleton]
    apply h
    rw [hl, List.concat_eq_append]
    simp [pageIds]

theorem IdsInv_mono (m : allocator) (n n' : Nat) (h : IdsInv m n) (hn : n ≤ n') : IdsInv m n' :=
  ⟨h.1, h.2.1, fun id hid => le_trans (h.2.2 id hid) hn⟩

theorem IdsInv_construct (heap : Nat → UInt8) (buffSize : Nat) (m : allocator)
    (h : allocator_construct heap buffSize = .ok (m, 0)) : IdsInv m 0 := by
  obtain ⟨_, _, hp, ht, _⟩ := construct_ok heap buffSize m h
  refine ⟨?_, ?_, ?_⟩
  · unfold TailOK; rw [hp, ht]; rfl
  · rw [hp]; exact List.Pairwise.nil
  · rw [hp]; simp [pageIds]

/-- A call of `allocator_allocate` appends the page numbers that follow the last one and
keeps the invariant of the page identifiers. -/
theorem IdsInv_allocate (m m' : allocator) (n : Nat) (msize : Int) (A : Nat)
    (h : IdsInv m n) (hn : n + pagesOf msize < SIZE_MOD)
    (ha : allocator_allocate m msize = .ok (m', A)) :
    IdsInv m' (n + pagesOf msize) ∧
    ∃ k, pageIds m'.pageTableHead =
      pageIds m.pageTableHead ++ List.range' (lastId m.pageTableHead + 1) k := by
  obtain ⟨ht, hs, hb⟩ := h
  rw [allocate_eq m msize ht] at ha
  by_cases hc : m.freeFramesNum < Int.tdiv msize 4096
  · rw [if_pos hc] at ha
    have hm : m' = m := (Prod.mk.inj (Except.ok.inj ha)).1.symm
    rw [hm]
    exact ⟨IdsInv_mono m n _ ⟨ht, hs, hb⟩ (by omega), 0, by simp⟩
  · rw [if_neg hc] at ha
    have hm : m' = allocSteps (pagesOf msize) m := (Prod.mk.inj (Except.ok.inj ha)).1.symm
    have hl : lastId m.pageTableHead ≤ n := lastId_le_of_bound _ n hb
    have hids := allocSteps_pageIds (pagesOf msize) m (by omega)
    rw [hm]
    refine ⟨⟨allocSteps_tailOK _ m ht, ?_, ?_⟩, pagesOf msize, hids⟩
    · rw [hids, List.pairwise_append]
      refine ⟨hs, List.pairwise_lt_range' _ _, ?_⟩
      intro a ha' b hb'
      obtain ⟨e, he, hea⟩ := List.mem_map.mp ha'
      have := le_lastId_of_sorted _ hs e he
      have hb2 := (List.mem_range'_1.mp hb').1
      omega
    · intro id hid
      rw [hids] at hid
      rcases List.mem_append.mp hid with hid | hid
      · have := hb id hid
        omega
      · have := (List.mem_range'_1.mp hid).2
        omega

/-- A call of `allocator_deallocate` that returns keeps the invariant of the page
identifiers. -/
theorem IdsInv_deallocate (m m' : allocator) (n : Nat) (virtAddr : Nat) (msize : Int) (st : Int)
    (h : IdsInv m n) (hd : allocator_deallocate m virtAddr msize = .ok (m', st)) :
    IdsInv m' n := by
  unfold allocator_deallocate at hd
  by_cases hc : offsetOf virtAddr ≠ 0 ∨ msize ≤ 0
  · rw [if_pos hc] at hd
    rw [← (Prod.mk.inj (Except.ok.inj hd)).1]
    exact h
  · rw [if_neg hc] at hd
    simp only at hd
    cases hf : __pageTableEntry_find m.pageTableHead (virtAddr >>> 12) with
    | error s => rw [hf] at hd; exact Except.noConfusion hd
    | ok r =>
      rw [hf] at hd
      cases r with
      | none =>
        simp only at hd
        rw [← (Prod.mk.inj (Except.ok.inj hd)).1]
        exact h
      | some i =>
        simp only at hd
        cases hl : allocator_deallocate_loop msize.toNat m i msize with
        | error s => rw [hl] at hd; exact Except.noConfusion hd
        | ok m1 =>
          rw [hl] at hd
          simp only at hd
          rw [← (Prod.mk.inj (Except.ok.inj hd)).1, deallocate_loop_ok _ m m1 i msize hl]
          have hsub := deallocSteps_sublist (pagesOf msize) m i
          have hsub' : List.Sublist (pageIds (deallocSteps (pagesOf msize) m i).pageTableHead)
              (pageIds m.pageTableHead) := List.Sublist.map _ hsub
          exact ⟨deallocSteps_tailOK _ m i h.1, List.Pairwise.sublist hsub' h.2.1,
            fun id hid => h.2.2 id (hsub'.subset hid)⟩

/-- A sequence of calls that returns keeps the invariant of the page identifiers, with the
bound raised by the number of pages asked for. -/
theorem IdsInv_runCalls (calls : List Call) (m m' : allocator) (n : Nat) (vs : List Int)
    (h : IdsInv m n) (hn : n + totalPages calls < SIZE_MOD)
    (hr : runCalls m calls = .ok (m', vs)) : IdsInv m' (n + totalPages calls) := by
  induction calls generalizing m n vs with
  | nil =>
    unfold runCalls at hr
    rw [← (Prod.mk.inj (Except.ok.inj hr)).1]
    exact h
  | cons c rest ih =>
    unfold runCalls at hr
    cases hc : c.run m with
    | error s => rw [hc] at hr; exact Except.noConfusion hr
    | ok r =>
      obtain ⟨m1, v⟩ := r
      rw [hc] at hr
      simp only at hr
      cases hrest : runCalls m1 rest with
      | error s => rw [hrest] at hr; exact Except.noConfusion hr
      | ok r2 =>
        obtain ⟨m2, vs2⟩ := r2
        rw [hrest] at hr
        simp only at hr
        have hm2 : m2 = m' := (Prod.mk.inj (Except.ok.inj hr)).1
        subst hm2
        cases c with
        | allocate msize =>
          simp only [Call.run] at hc
          cases ha : allocator_allocate m msize with
          | error s => rw [ha] at hc; exact Except.noConfusion hc
          | ok ra =>
            obtain ⟨ma, A⟩ := ra
            rw [ha] at hc
            simp only at hc
            have hma : ma = m1 := (Prod.mk.inj (Except.ok.inj hc)).1
            rw [hma] at ha
            simp only [totalPages] at hn ⊢
            have h1 := (IdsInv_allocate m m1 n msize A h (by omega) ha).1
            have := ih m1 (n + pagesOf msize) vs2 h1 (by omega) hrest
            rw [Nat.add_assoc] at this
            exact this
        | deallocate virtAddr msize =>
          simp only [Call.run] at hc
          simp only [totalPages] at hn ⊢
          exact ih m1 n vs2 (IdsInv_deallocate m m1 n virtAddr msize v h hc) hn hrest

/-- Every state that a sequence of calls reaches from `allocator_construct` has a right tail
pointer and page numbers that increase from head to tail and are at most the number of pages
asked for, when that number is below `2 ^ 64`. -/
theorem IdsInv_reachable (heap : Nat → UInt8) (buffSize : Nat) (calls : List Call)
    (m0 m : allocator) (vs : List Int)
    (hc : allocator_construct heap buffSize = .ok (m0, 0))
    (hr : runCalls m0 calls = .ok (m, vs)) (hb : totalPages calls < SIZE_MOD) :
    IdsInv m (totalPages calls) := by
  have h := IdsInv_runCalls calls m0 m 0 vs (IdsInv_construct heap buffSize m0 hc)
    (by omega) hr
  rw [Nat.zero_add] at h
  exact h

/-! ## First fit after a release -/

theorem find_free_frame_loop_after_release (frames frames1 frames2 : List __frameTableEntry)
    (a b : Option Nat)
    (h1 : __allocator_find_free_frame_loop frames = some (frames1, a))
    (h2 : __allocator_find_free_frame_loop frames1 = some (frames2, b)) :
    ∃ frames4, __allocator_find_free_frame_loop (releaseFlag frames2 a) = some (frames4, a) := by
  induction frames generalizing frames1 frames2 b with
  | nil => simp [__allocator_find_free_frame_loop] at h1
  | cons f rest ih =>
    unfold __allocator_find_free_frame_loop at h1
    by_cases hf : f.isFree = true
    · rw [if_pos hf] at h1
      obtain ⟨e1, e2⟩ := Prod.mk.inj (Option.some.inj h1)
      rw [← e1] at h2
      unfold __allocator_find_free_frame_loop at h2
      simp only [Bool.false_eq_true, if_false] at h2
      cases hr : __allocator_find_free_frame_loop rest with
      | none => rw [hr] at h2; simp at h2
      | some r =>
        rw [hr] at h2
        obtain ⟨e3, _⟩ := Prod.mk.inj (Option.some.inj h2)
        rw [← e3, ← e2]
        simp [releaseFlag, __allocator_find_free_frame_loop]
    · rw [if_neg hf] at h1
      cases hr : __allocator_find_free_frame_loop rest with
      | none => rw [hr] at h1; simp at h1
      | some r =>
        obtain ⟨r1, a'⟩ := r
        rw [hr] at h1
        obtain ⟨e1, e2⟩ := Prod.mk.inj (Option.some.inj h1)
        simp only at e1 e2
        rw [← e1] at h2
        unfold __allocator_find_free_frame_loop at h2
        rw [if_neg hf] at h2
        cases hr2 : __allocator_find_free_frame_loop r1 with
        | none => rw [hr2] at h2; simp at h2
        | some r' =>
          obtain ⟨r2, b'⟩ := r'
          rw [hr2] at h2
          obtain ⟨e3, _⟩ := Prod.mk.inj (Option.some.inj h2)
          simp only at e3
          rw [← e3]
          subst e2
          by_cases hfa : f.memAddr = a'
          · simp [releaseFlag, hfa, __allocator_find_free_frame_loop]
          · obtain ⟨frames4, h4⟩ := ih r1 r2 b' hr hr2
            refine ⟨f :: frames4, ?_⟩
            simp only [releaseFlag, hfa, if_false]
            unfold __allocator_find_free_frame_loop
            rw [if_neg hf, h4]
            rfl

theorem releaseFlag_free (frames : List __frameTableEntry) (a : Option Nat)
    (h : a ∈ frameAddrs frames) :
    ∃ f ∈ releaseFlag frames a, f.memAddr = a ∧ f.isFree = true := by
  induction frames with
  | nil => simp [frameAddrs] at h
  | cons f rest ih =>
    by_cases hf : f.memAddr = a
    · exact ⟨{ f with isFree := true }, by simp [releaseFlag, hf], hf, rfl⟩
    · have h' : a ∈ frameAddrs rest := by
        simp only [frameAddrs, List.map_cons, List.mem_cons] at h
        rcases h with h | h
        · exact absurd h.symm hf
        · exact h
      obtain ⟨g, hg, h1, h2⟩ := ih h'
      exact ⟨g, by simp [releaseFlag, hf, hg], h1, h2⟩

theorem allocStep_of_loop (m : allocator) (frames' : List __frameTableEntry) (a : Option Nat)
    (h : __allocator_find_free_frame_loop m.frameTableHead = some (frames', a)) :
    allocStep m =
      { m with
        frameTableHead := frames'
        freeFramesNum := m.freeFramesNum - 1
        pageTableHead := m.pageTableHead ++
          [{ memAddr := a, pageNumber := (lastId m.pageTableHead + 1) % SIZE_MOD }]
        pageTableTail := some m.pageTableHead.length } := by
  unfold allocStep __allocator_find_free_frame
  rw [h]

theorem eraseIdx_length_append {α : Type} (l : List α) (x : α) (r : List α) :
    (l ++ x :: r).eraseIdx l.length = l ++ r := by
  induction l with
  | nil => rfl
  | cons a l ih => simp [ih]

theorem pagesOf_page : pagesOf 4096 = 1 := by decide

/-- One call `allocator_allocate(4096)` on a state with a right tail pointer, a positive free
frame count and a free frame node. -/
theorem allocate_one_page (m : allocator) (frames' : List __frameTableEntry) (a : Option Nat)
    (ht : TailOK m) (hc : 1 ≤ m.freeFramesNum) (hl : lastId m.pageTableHead + 1 < 2 ^ 52)
    (hF : __allocator_find_free_frame_loop m.frameTableHead = some (frames', a)) :
    ∃ m1, allocator_allocate m 4096 = .ok (m1, (lastId m.pageTableHead + 1) <<< 12) ∧
      TailOK m1 ∧
      m1.pageTableHead = m.pageTableHead ++ [⟨a, lastId m.pageTableHead + 1⟩] ∧
      m1.frameTableHead = frames' ∧ m1.freeFramesNum = m.freeFramesNum - 1 := by
  have hcheck : ¬ m.freeFramesNum < Int.tdiv 4096 4096 := by
    have : Int.tdiv 4096 4096 = 1 := by decide
    omega
  have hmod : (lastId m.pageTableHead + 1) % SIZE_MOD = lastId m.pageTableHead + 1 :=
    Nat.mod_eq_of_lt (by unfold SIZE_MOD; omega)
  refine ⟨allocStep m, ?_, allocStep_tailOK m, ?_, ?_, ?_⟩
  · rw [allocate_eq m 4096 ht, if_neg hcheck, pagesOf_page]
    simp only [allocSteps, allocAddr, if_true]
    rw [(encode_eq _ hl).1]
  · rw [allocStep_of_loop m frames' a hF, hmod]
  · rw [allocStep_of_loop m frames' a hF]
  · rw [allocStep_of_loop m frames' a hF]

/-- One call `allocator_deallocate` of 4096 bytes at the address of a page whose number no
earlier node has and whose frame address is in the frame table. -/
theorem deallocate_one_page (m : allocator) (pre post : List __pageTableEntry)
    (p : __pageTableEntry) (hp : m.pageTableHead = pre ++ p :: post)
    (hpre : ∀ e ∈ pre, e.pageNumber ≠ p.pageNumber) (hlt : p.pageNumber < 2 ^ 52)
    (ha : p.memAddr ∈ frameAddrs m.frameTableHead) :
    ∃ m3, allocator_deallocate m (p.pageNumber <<< 12) 4096 = .ok (m3, 0) ∧ TailOK m3 ∧
      m3.pageTableHead = pre ++ post ∧
      m3.frameTableHead = releaseFlag m.frameTableHead p.memAddr ∧
      m3.freeFramesNum = m.freeFramesNum + 1 := by
  have hidx : pre.length < m.pageTableHead.length := by rw [hp]; simp
  have hget : m.pageTableHead[pre.length] = p := by
    have h1 : m.pageTableHead[pre.length]? = some p := by
      rw [hp, List.getElem?_append_right (le_refl _)]
      simp
    rw [List.getElem?_eq_getElem hidx] at h1
    exact Option.some.inj h1
  obtain ⟨d1, d2, d3, d4, _, _⟩ := deallocStep_fields m pre.length hidx
  refine ⟨deallocStep m pre.length, ?_, ?_, ?_, ?_, d4⟩
  · unfold allocator_deallocate
    have hoff : ¬ (offsetOf (p.pageNumber <<< 12) ≠ 0 ∨ (4096 : Int) ≤ 0) := by
      rw [offsetOf_eq_mod, Nat.shiftLeft_eq]
      omega
    rw [if_neg hoff]
    simp only
    rw [(encode_eq _ hlt).2.1]
    have hfind : __pageTableEntry_find m.pageTableHead p.pageNumber =
        .ok (some pre.length) := by
      unfold __pageTableEntry_find
      rw [hp]
      have := pageTableEntry_find_from_append 0 pre post p p.pageNumber hpre rfl
      rw [Nat.zero_add] at this
      exact this
    rw [hfind]
    simp only
    rw [deallocate_loop_eq _ m _ 4096 (le_refl _), pagesOf_page]
    · rfl
    · rw [pagesOf_page]; omega
    · rw [pagesOf_page, List.drop_eq_getElem_cons hidx, hget]
      intro e he
      simp only [List.take_succ_cons, List.take_zero, List.mem_singleton] at he
      rw [he]
      exact ha
  · unfold TailOK
    rw [d2, d1]
  · rw [d1, hp, eraseIdx_length_append]
  · rw [d3, hget]

/-! ## The two guards that miss their case -/

theorem pageTableEntry_find_from_absent (i : Nat) (head : List __pageTableEntry)
    (pageNumber : Nat) (h : ∀ e ∈ head, e.pageNumber ≠ pageNumber) :
    __pageTableEntry_find_from i head pageNumber = .error .nullDeref := by
  induction head generalizing i with
  | nil => rfl
  | cons e rest ih =>
    rw [__pageTableEntry_find_from, if_pos (h e (List.mem_cons_self _ _))]
    exact ih (i + 1) (fun e' he' => h e' (List.mem_cons_of_mem _ he'))

/-- The function `__pageTableEntry_find` with an identifier that no node of the page table has
dereferences null, whatever the page table. -/
theorem pageTableEntry_find_absent (head : List __pageTableEntry) (pageNumber : Nat)
    (h : ∀ e ∈ head, e.pageNumber ≠ pageNumber) :
    __pageTableEntry_find head pageNumber = .error .nullDeref :=
  pageTableEntry_find_from_absent 0 head pageNumber h

/-- On a state whose tail pointer is right and whose next page number is below `2 ^ 52`,
`allocator_allocate` of a positive size returns `NULL` exactly when the free frame count is
below `msize / 4096` rounded down. -/
theorem allocate_null_iff (m : allocator) (msize : Int) (ht : TailOK m) (hm : 0 < msize)
    (hl : lastId m.pageTableHead + 1 < 2 ^ 52) :
    (∃ m', allocator_allocate m msize = .ok (m', 0)) ↔ m.freeFramesNum < msize / 4096 := by
  rw [allocate_eq m msize ht, Int.tdiv_eq_ediv (le_of_lt hm) (by norm_num)]
  by_cases hc : m.freeFramesNum < msize / 4096
  · rw [if_pos hc]
    exact ⟨fun _ => hc, fun _ => ⟨m, rfl⟩⟩
  · rw [if_neg hc]
    refine ⟨fun ⟨m', h⟩ => ?_, fun h => absurd h hc⟩
    exfalso
    have hA := (Prod.mk.inj (Except.ok.inj h)).2
    obtain ⟨k, hk⟩ : ∃ k, pagesOf msize = k + 1 := ⟨pagesOf msize - 1, by unfold pagesOf; omega⟩
    obtain ⟨e1, _, e3⟩ := encode_eq (lastId m.pageTableHead + 1) hl
    have hne : (lastId m.pageTableHead + 1) <<< 12 ≠ 0 := fun h0 => by
      have := e3.mp h0
      omega
    rw [hk, allocAddr, if_pos rfl, e1, allocAddr_of_ne_zero _ _ _ hne] at hA
    exact hne hA

/-! ## An allocation and its release -/

theorem take_drop_eraseIdx {α : Type} (l : List α) (i k : Nat) (h : i < l.length) :
    (l.eraseIdx i).take i ++ (l.eraseIdx i).drop (i + k) = l.take i ++ l.drop (i + (k + 1)) := by
  induction l generalizing i with
  | nil => simp at h
  | cons a l ih =>
    cases i with
    | zero => simp
    | succ j =>
      simp only [List.length_cons, Nat.add_lt_add_iff_right] at h
      have e1 : j + 1 + k = (j + k) + 1 := by omega
      have e2 : j + 1 + (k + 1) = (j + (k + 1)) + 1 := by omega
      rw [List.eraseIdx_cons_succ, List.take_succ_cons, e1, List.drop_succ_cons,
        List.take_succ_cons, e2, List.drop_succ_cons, List.cons_append, List.cons_append,
        ih j h]

/-- At a node that has `k - 1` nodes after it, `k` iterations of `allocator_deallocate` erase
these `k` nodes and keep the others in their order. -/
theorem deallocSteps_pageTable (k : Nat) (m : allocator) (i : Nat)
    (h : i + k ≤ m.pageTableHead.length) :
    (deallocSteps k m i).pageTableHead =
      m.pageTableHead.take i ++ m.pageTableHead.drop (i + k) := by
  induction k generalizing m with
  | zero => simp [deallocSteps]
  | succ k ih =>
    have hi : i < m.pageTableHead.length := by omega
    obtain ⟨h1, _⟩ := deallocStep_fields m i hi
    have hlen : i + k ≤ (deallocStep m i).pageTableHead.length := by
      rw [h1, List.length_eraseIdx, if_pos hi]
      omega
    rw [deallocSteps, ih (deallocStep m i) hlen, h1, take_drop_eraseIdx _ i k hi]

/-- On a state whose tail pointer is right and whose page numbers increase and stay below
`2 ^ 52 - 1`, when `allocator_allocate` passes its guard and the frame table has the free
nodes for the pages: the allocation returns the address of the page after the last one,
its release with the same size returns 0, and the free frame count and the page table are
again what they were. -/
theorem allocate_then_deallocate (m : allocator) (msize : Int) (ht : TailOK m)
    (hs : List.Pairwise (fun a b => a < b) (pageIds m.pageTableHead))
    (hl : lastId m.pageTableHead + 1 < 2 ^ 52) (h1 : 1 ≤ msize)
    (hguard : ¬ m.freeFramesNum < Int.tdiv msize 4096)
    (hfree : pagesOf msize ≤ freeCount m.frameTableHead) :
    ∃ m1 m2, allocator_allocate m msize = .ok (m1, (lastId m.pageTableHead + 1) <<< 12) ∧
      allocator_deallocate m1 ((lastId m.pageTableHead + 1) <<< 12) msize = .ok (m2, 0) ∧
      m2.freeFramesNum = m.freeFramesNum ∧ m2.pageTableHead = m.pageTableHead := by
  obtain ⟨k, hk1⟩ : ∃ k, pagesOf msize = k + 1 := ⟨pagesOf msize - 1, by unfold pagesOf; omega⟩
  obtain ⟨b1, _, b3⟩ := allocSteps_bound (pagesOf msize) m hfree
  obtain ⟨a1, _, _⟩ := allocSteps_frames (pagesOf msize) m
  obtain ⟨e1, e2, e3⟩ := encode_eq (lastId m.pageTableHead + 1) hl
  have hmod : (lastId m.pageTableHead + 1) % SIZE_MOD = lastId m.pageTableHead + 1 :=
    Nat.mod_eq_of_lt (by unfold SIZE_MOD; omega)
  have hne : (lastId m.pageTableHead + 1) <<< 12 ≠ 0 := fun h0 => by
    have := e3.mp h0
    omega
  have hpages : ∃ rest, (allocSteps (pagesOf msize) m).pageTableHead =
      m.pageTableHead ++ (⟨(__allocator_find_free_frame m).2,
        lastId m.pageTableHead + 1⟩ : __pageTableEntry) :: rest ∧ rest.length = k := by
    obtain ⟨new, hn, hlen⟩ := allocSteps_pageTable k (allocStep m)
    refine ⟨new, ?_, hlen⟩
    rw [hk1, allocSteps, hn, allocStep_pageTable, hmod, List.append_assoc]
    rfl
  obtain ⟨rest, hpg, hrest⟩ := hpages
  have hle := le_lastId_of_sorted _ hs
  refine ⟨allocSteps (pagesOf msize) m,
    deallocSteps (pagesOf msize) (allocSteps (pagesOf msize) m) m.pageTableHead.length,
    ?_, ?_, ?_, ?_⟩
  · rw [allocate_eq m msize ht, if_neg hguard, hk1, allocAddr, if_pos rfl, e1,
      allocAddr_of_ne_zero _ _ _ hne]
  · unfold allocator_deallocate
    have hoff : ¬ (offsetOf ((lastId m.pageTableHead + 1) <<< 12) ≠ 0 ∨ msize ≤ 0) := by
      rw [offsetOf_eq_mod, Nat.shiftLeft_eq]
      omega
    rw [if_neg hoff]
    simp only
    rw [e2]
    have hfind : __pageTableEntry_find (allocSteps (pagesOf msize) m).pageTableHead
        (lastId m.pageTableHead + 1) = .ok (some m.pageTableHead.length) := by
      unfold __pageTableEntry_find
      rw [hpg]
      have := pageTableEntry_find_from_append 0 m.pageTableHead rest
        ⟨(__allocator_find_free_frame m).2, lastId m.pageTableHead + 1⟩
        (lastId m.pageTableHead + 1) (fun e he => by have := hle e he; omega) rfl
      rw [Nat.zero_add] at this
      exact this
    rw [hfind]
    simp only
    rw [deallocate_loop_eq _ _ _ msize (le_refl _)]
    · rw [hpg, hk1]
      simp [hrest]
    · rw [a1]
      intro e he
      exact b3 e (List.mem_of_mem_take he)
  · rw [deallocSteps_count _ _ _, b1]
    · ring
    · rw [hpg, hk1]
      simp [hrest]
  · rw [deallocSteps_pageTable _ _ _ (by rw [hpg, hk1]; simp [hrest]), hpg, hk1]
    rw [List.take_left, List.drop_eq_nil_of_le (by simp [hrest])]
    simp

/-! ## C1: `allocator_allocate` and the free frame count -/

/-- C1, at the failing input.  On the allocator that `allocator_construct` makes for 8192
bytes, two calls `allocator_allocate(4096)` leave a free frame count of 0.  A third call
`allocator_allocate(1)` needs one page, more than the free frame count, and still returns
the address `0x3000` instead of `NULL`: it appends a third page, bound to no frame. -/
theorem C1_allocate_returns_address_without_free_frame :
    pagesOf 1 = 1 ∧
    (runFrom zeroHeap 8192 [.allocate 4096, .allocate 4096]).map
        (fun r => (r.1.freeFramesNum, r.2)) = .ok (0, [0x1000, 0x2000]) ∧
    (runFrom zeroHeap 8192 [.allocate 4096, .allocate 4096, .allocate 1]).map
        (fun r => (tables r.1, r.2)) =
      .ok ({ bufSize := 8192, freeFramesNum := 0,
             pageTableHead := [⟨some 0, 1⟩, ⟨some 4096, 2⟩, ⟨none, 3⟩],
             pageTableTail := some 2,
             frameTableHead := [⟨some 0, false⟩, ⟨some 4096, false⟩] },
           [0x1000, 0x2000, 0x3000]) := by
  decide

/-! ## C2: write, then read -/

/-- C2, at the failing input.  On the allocator for 4096 bytes, `allocator_allocate(4096)`
takes the only frame and `allocator_allocate(1)` then returns `0x2000` for a page bound to
no frame; `allocator_write` of one byte to `0x2000` copies to the null address and does
not return. -/
theorem C2_write_to_page_without_frame :
    (runFrom zeroHeap 4096 [.allocate 4096, .allocate 1]).map (fun r => r.2) =
      .ok [0x1000, 0x2000] ∧
    (runFrom zeroHeap 4096 [.allocate 4096, .allocate 1]).bind
        (fun r => (allocator_write r.1 (fun _ => 0xAB) 0x2000 0 1).map (fun w => w.2)) =
      .error .nullDeref := by
  decide

/-! ## C3: allocate, then deallocate -/

/-- On the allocator that `allocator_construct` makes, before any other call, for every
size from 1 to the stored buffer size, `allocator_allocate` returns the address `0x1000` and
`allocator_deallocate` of that address and size then returns the status 0 and leaves the
free frame count that the allocator had before the allocation. -/
theorem fresh_allocate_then_deallocate (heap : Nat → UInt8) (buffSize : Nat)
    (m0 : allocator) (msize : Int)
    (hc : allocator_construct heap buffSize = .ok (m0, 0))
    (h1 : 1 ≤ msize) (h2 : msize ≤ (m0.bufSize : Int)) :
    ∃ m1 m2, allocator_allocate m0 msize = .ok (m1, 0x1000) ∧
      allocator_deallocate m1 0x1000 msize = .ok (m2, 0) ∧
      m2.freeFramesNum = m0.freeFramesNum := by
  obtain ⟨_, _, hp, ht, hcount, hfree, hcover, _⟩ := construct_ok heap buffSize m0 hc
  have htail : TailOK m0 := by
    unfold TailOK
    rw [hp, ht]
    rfl
  have hk : pagesOf msize ≤ freeCount m0.frameTableHead := by
    rw [hfree]
    unfold pagesOf
    omega
  have hguard : ¬ m0.freeFramesNum < Int.tdiv msize 4096 := by
    rw [Int.tdiv_eq_ediv (by omega) (by norm_num), hcount]
    simp only [PAGE_SIZE]
    omega
  obtain ⟨m1, m2, g1, g2, g3, _⟩ := allocate_then_deallocate m0 msize htail
    (by rw [hp]; exact List.Pairwise.nil) (by rw [hp]; decide) h1 hguard hk
  rw [hp] at g1 g2
  exact ⟨m1, m2, g1, g2, g3⟩

/-- The new allocator for 8192 bytes and a size of 5000 bytes. -/
theorem fresh_allocate_then_deallocate_at_5000 :
    ∃ m0, allocator_construct zeroHeap 8192 = .ok (m0, 0) ∧ (1 : Int) ≤ 5000 ∧
      (5000 : Int) ≤ (m0.bufSize : Int) ∧
      ∃ m1 m2, allocator_allocate m0 5000 = .ok (m1, 0x1000) ∧
        allocator_deallocate m1 0x1000 5000 = .ok (m2, 0) ∧
        m2.freeFramesNum = m0.freeFramesNum :=
  ⟨_, rfl, by decide, by decide,
    fresh_allocate_then_deallocate zeroHeap 8192 _ 5000 rfl (by decide)
      (by decide)⟩

/-- C3 fails on the code.  On the allocator for 8192 bytes after `allocator_allocate(4096)`,
with one frame free and sizes from 1 to the buffer size: `allocator_allocate(8191)` passes
the guard, which compares the free frame count 1 with `8191 / 4096 = 1`, commits page 2 in
the free frame and page 3 with no frame and returns `0x2000`; `allocator_deallocate(0x2000,
8191)` then releases page 2 and dereferences a null pointer for the frame of page 3.
`allocator_allocate(8192)` returns null there, and `allocator_deallocate(0, 8192)`
dereferences a null pointer in the lookup of page 0. -/
theorem C3_deallocate_after_allocate_is_stuck :
    (allocator_construct zeroHeap 8192).map (fun r => (r.1.bufSize, r.1.freeFramesNum, r.2)) =
      .ok (8192, 2, 0) ∧
    (runFrom zeroHeap 8192 [.allocate 4096, .allocate 8191]).map
        (fun r => (r.1.freeFramesNum, r.1.pageTableHead, r.2)) =
      .ok (0, [⟨some 0, 1⟩, ⟨some 4096, 2⟩, ⟨none, 3⟩], [0x1000, 0x2000]) ∧
    (runFrom zeroHeap 8192 [.allocate 4096, .allocate 8191, .deallocate 0x2000 8191]).map
        (fun r => r.2) = .error .nullDeref ∧
    (runFrom zeroHeap 8192 [.allocate 4096, .allocate 8192]).map
        (fun r => (r.1.freeFramesNum, r.2)) = .ok (1, [0x1000, 0]) ∧
    (runFrom zeroHeap 8192 [.allocate 4096, .allocate 8192, .deallocate 0 8192]).map
        (fun r => r.2) = .error .nullDeref := by
  decide

/-! ## C4: `allocator_deallocate` rejects a misaligned address and a size that is not positive -/

/-- C4.  For every state, `allocator_deallocate` with an address whose low 12 bits are not
all zero, or with a size that is not positive, returns the status 1 and the state it was
given: page table, frame table, free frame count and buffer are unchanged. -/
theorem C4_deallocate_rejects_misaligned_or_empty (mmanager : allocator) (virtAddr : Nat)
    (msize : Int) (h : virtAddr % 4096 ≠ 0 ∨ msize ≤ 0) :
    allocator_deallocate mmanager virtAddr msize = .ok (mmanager, 1) := by
  unfold allocator_deallocate
  rw [offsetOf_eq_mod]
  simp [h]

/-- C4 at the misaligned address `0x1001` on an allocator without pages. -/
theorem C4_deallocate_rejects_witness :
    (0x1001 % 4096 ≠ 0 ∨ (4096 : Int) ≤ 0) ∧
      allocator_deallocate (__zero_fill_allocator zeroHeap) 0x1001 4096 =
        .ok (__zero_fill_allocator zeroHeap, 1) :=
  ⟨Or.inl (by decide),
    C4_deallocate_rejects_misaligned_or_empty (__zero_fill_allocator zeroHeap) 0x1001 4096
      (Or.inl (by decide))⟩

/-! ## C5: page identifiers along a sequence of calls -/

/-- C5 as stated fails.  On the allocator for 4096 bytes, `allocator_allocate(4096)` assigns
the identifier 1, `allocator_deallocate(0x1000, 4096)` empties the page table and the next
`allocator_allocate(4096)` assigns the identifier 1 again: the identifiers assigned are not
strictly increasing. -/
theorem C5_released_identifier_is_assigned_again :
    assignedIdsFrom zeroHeap 4096
        [.allocate 4096, .deallocate 0x1000 4096, .allocate 4096] = [1, 1] ∧
    ¬ List.Pairwise (fun a b => a < b)
        (assignedIdsFrom zeroHeap 4096
          [.allocate 4096, .deallocate 0x1000 4096, .allocate 4096]) := by
  decide

/-- C5, amended.  After `allocator_construct` and any sequence of calls of
`allocator_allocate` and `allocator_deallocate` that return, asking for fewer than `2 ^ 64`
pages together with the next call, the identifiers that the next `allocator_allocate`
assigns are the numbers that follow the page number of the last node of the page table
(from 1 on when the page table is empty), and each of them is strictly greater than every
identifier in the page table at the time of the call. -/
theorem C5_assigned_identifiers_exceed_committed_ones (heap : Nat → UInt8) (buffSize : Nat)
    (calls : List Call) (msize : Int) (m0 m m' : allocator) (vs : List Int) (A : Nat)
    (hc : allocator_construct heap buffSize = .ok (m0, 0))
    (hr : runCalls m0 calls = .ok (m, vs))
    (ha : allocator_allocate m msize = .ok (m', A))
    (hb : totalPages calls + pagesOf msize < SIZE_MOD) :
    (∃ k, assigned m m' = List.range' (lastId m.pageTableHead + 1) k) ∧
    ∀ id ∈ assigned m m', ∀ e ∈ m.pageTableHead, e.pageNumber < id := by
  have h0 := IdsInv_construct heap buffSize m0 hc
  have h1 := IdsInv_runCalls calls m0 m 0 vs h0 (by omega) hr
  obtain ⟨_, k, hk⟩ := IdsInv_allocate m m' _ msize A h1 (by omega) ha
  have hassigned : assigned m m' = List.range' (lastId m.pageTableHead + 1) k := by
    unfold assigned
    have : (pageIds m'.pageTableHead).drop m.pageTableHead.length =
        List.range' (lastId m.pageTableHead + 1) k := by
      rw [hk]
      have hlen : m.pageTableHead.length = (pageIds m.pageTableHead).length := by
        simp [pageIds]
      rw [hlen, List.drop_left]
    rw [← this]
    simp [pageIds]
  refine ⟨⟨k, hassigned⟩, ?_⟩
  intro id hid e he
  rw [hassigned] at hid
  have h2 := (List.mem_range'_1.mp hid).1
  have h3 := le_lastId_of_sorted _ h1.2.1 e he
  omega

/-- C5, amended, at the allocator for 8192 bytes after `allocator_allocate(4096)`,
`allocator_allocate(4096)`, `allocator_deallocate(0x1000, 4096)`, for a request of 4096
bytes. -/
theorem C5_assigned_identifiers_witness :
    ∃ m0 m m' vs, allocator_construct zeroHeap 8192 = .ok (m0, 0) ∧
      runCalls m0 [.allocate 4096, .allocate 4096, .deallocate 0x1000 4096] = .ok (m, vs) ∧
      allocator_allocate m 4096 = .ok (m', 0x3000) ∧
      totalPages [.allocate 4096, .allocate 4096, .deallocate 0x1000 4096] + pagesOf 4096
        < SIZE_MOD ∧
      (∃ k, assigned m m' = List.range' (lastId m.pageTableHead + 1) k) ∧
      ∀ id ∈ assigned m m', ∀ e ∈ m.pageTableHead, e.pageNumber < id :=
  ⟨_, _, _, _, rfl, rfl, rfl, by decide,
    C5_assigned_identifiers_exceed_committed_ones zeroHeap 8192
      [.allocate 4096, .allocate 4096, .deallocate 0x1000 4096] 4096 _ _ _ _ 0x3000
      rfl rfl rfl (by decide)⟩

/-! ## C6: two allocations, a release and a third allocation -/

/-- C6 as stated fails.  On the allocator for 12288 bytes, after `allocator_allocate(12288)`
(identifiers 1, 2, 3) and `allocator_deallocate(0x1000, 12288)` all three frames are free.
Two calls `allocator_allocate(4096)`, `allocator_deallocate(0x1000, 4096)` and a third
`allocator_allocate(4096)` then assign the identifiers 1, 2 and 3: the identifier 3 of the
last page was used before. -/
theorem C6_third_identifier_was_used_before :
    (runFrom zeroHeap 12288 [.allocate 12288, .deallocate 0x1000 12288]).map
        (fun r => (r.1.freeFramesNum, freeCount r.1.frameTableHead, r.1.pageTableHead)) =
      .ok (3, 3, []) ∧
    assignedIdsFrom zeroHeap 12288 [.allocate 12288, .deallocate 0x1000 12288] = [1, 2, 3] ∧
    assignedIdsFrom zeroHeap 12288
        [.allocate 12288, .deallocate 0x1000 12288,
          .allocate 4096, .allocate 4096, .deallocate 0x1000 4096, .allocate 4096] =
      [1, 2, 3] ++ [1, 2, 3] := by
  decide

/-- C6, amended.  In a state whose tail pointer is right, whose page numbers increase from
head to tail and stay below `2 ^ 52 - 3`, and which has a free frame count of at least 2 and
at least 2 frame nodes flagged free: two calls `allocator_allocate(4096)` return addresses
`A1 < A2` of two new pages `p1`, `p2` whose page numbers differ by 1;
`allocator_deallocate(A1, 4096)` returns 0, erases `p1` and flags the frame of `p1` free; a
third `allocator_allocate(4096)` appends a page `p3` bound to that frame, with a page number
above those of `p1` and `p2` and above every page number in the page table at that
time. -/
theorem C6_reallocation_reuses_frame_with_larger_identifier (m : allocator) (ht : TailOK m)
    (hs : List.Pairwise (fun a b => a < b) (pageIds m.pageTableHead))
    (hl : lastId m.pageTableHead + 3 < 2 ^ 52)
    (hcount : 2 ≤ m.freeFramesNum) (hfree : 2 ≤ freeCount m.frameTableHead) :
    ∃ (m1 m2 m3 m4 : allocator) (A1 A2 A3 : Nat) (p1 p2 p3 : __pageTableEntry),
      allocator_allocate m 4096 = .ok (m1, A1) ∧
      allocator_allocate m1 4096 = .ok (m2, A2) ∧
      m2.pageTableHead = m.pageTableHead ++ [p1, p2] ∧
      A1 >>> 12 = p1.pageNumber ∧ A2 >>> 12 = p2.pageNumber ∧
      A1 < A2 ∧ A2 >>> 12 = A1 >>> 12 + 1 ∧
      allocator_deallocate m2 A1 4096 = .ok (m3, 0) ∧
      m3.pageTableHead = m.pageTableHead ++ [p2] ∧
      m3.frameTableHead = releaseFlag m2.frameTableHead p1.memAddr ∧
      (∃ f ∈ m3.frameTableHead, f.memAddr = p1.memAddr ∧ f.isFree = true) ∧
      allocator_allocate m3 4096 = .ok (m4, A3) ∧
      m4.pageTableHead = m3.pageTableHead ++ [p3] ∧
      A3 >>> 12 = p3.pageNumber ∧
      p3.memAddr = p1.memAddr ∧
      p1.pageNumber < p3.pageNumber ∧ p2.pageNumber < p3.pageNumber ∧
      ∀ e ∈ m3.pageTableHead, e.pageNumber < p3.pageNumber := by
  obtain ⟨F1, a, hF1, hc1, ha1, hmem1⟩ := find_free_frame_loop_some m.frameTableHead (by omega)
  obtain ⟨F2, b, hF2, hc2, ha2, _⟩ := find_free_frame_loop_some F1 (by omega)
  obtain ⟨F4, hF4⟩ := find_free_frame_loop_after_release _ _ _ a b hF1 hF2
  have hle := le_lastId_of_sorted _ hs
  have e1 := (encode_eq (lastId m.pageTableHead + 1) (by omega)).2.1
  have e2 := (encode_eq (lastId m.pageTableHead + 2) (by omega)).2.1
  have e3 := (encode_eq (lastId m.pageTableHead + 3) (by omega)).2.1
  obtain ⟨m1, hA1, ht1, hp1, hf1, hn1⟩ :=
    allocate_one_page m F1 a ht (by omega) (by omega) hF1
  have hl1 : lastId m1.pageTableHead = lastId m.pageTableHead + 1 := by
    rw [hp1, lastId_append_singleton]
  obtain ⟨m2, hA2, ht2, hp2, hf2, hn2⟩ :=
    allocate_one_page m1 F2 b ht1 (by omega) (by omega) (by rw [hf1]; exact hF2)
  rw [hl1] at hA2 hp2
  have hp2' : m2.pageTableHead = m.pageTableHead ++
      (⟨a, lastId m.pageTableHead + 1⟩ :: [⟨b, lastId m.pageTableHead + 2⟩]) := by
    rw [hp2, hp1, List.append_assoc]
    rfl
  obtain ⟨m3, hD, ht3, hp3, hf3, hn3⟩ :=
    deallocate_one_page m2 m.pageTableHead [⟨b, lastId m.pageTableHead + 2⟩]
      ⟨a, lastId m.pageTableHead + 1⟩ hp2'
      (fun e he => by have := hle e he; simp only; omega) (by simp only; omega)
      (by rw [hf2, ha2, ha1]; exact hmem1)
  have hl3 : lastId m3.pageTableHead = lastId m.pageTableHead + 2 := by
    rw [hp3, lastId_append_singleton]
  obtain ⟨m4, hA4, _, hp4, _, _⟩ :=
    allocate_one_page m3 F4 a ht3 (by omega) (by omega) (by rw [hf3, hf2]; exact hF4)
  rw [hl3] at hA4 hp4
  refine ⟨m1, m2, m3, m4, _, _, _, ⟨a, lastId m.pageTableHead + 1⟩,
    ⟨b, lastId m.pageTableHead + 2⟩, ⟨a, lastId m.pageTableHead + 3⟩,
    hA1, hA2, hp2', e1, e2, ?_, ?_, hD, hp3, hf3, ?_, hA4, hp4, e3, rfl, ?_, ?_, ?_⟩
  · simp only [Nat.shiftLeft_eq]
    omega
  · rw [e1, e2]
  · rw [hf3]
    apply releaseFlag_free
    rw [hf2, ha2, ha1]
    exact hmem1
  · simp only
    omega
  · simp only
    omega
  · intro e he
    rw [hp3] at he
    simp only
    rcases List.mem_append.mp he with he | he
    · have := hle e he
      omega
    · rw [List.mem_singleton.mp he]
      simp only
      omega

/-- C6, amended, at the allocator for 12288 bytes after one `allocator_allocate(4096)`. -/
theorem C6_reallocation_witness :
    (runFrom zeroHeap 12288 [.allocate 4096]).map (fun r => tables r.1) =
      .ok (tables onePageOfThree) ∧
    TailOK onePageOfThree ∧
    List.Pairwise (fun a b => a < b) (pageIds onePageOfThree.pageTableHead) ∧
    lastId onePageOfThree.pageTableHead + 3 < 2 ^ 52 ∧
    2 ≤ onePageOfThree.freeFramesNum ∧ 2 ≤ freeCount onePageOfThree.frameTableHead ∧
    ∃ (m1 m2 m3 m4 : allocator) (A1 A2 A3 : Nat) (p1 p2 p3 : __pageTableEntry),
      allocator_allocate onePageOfThree 4096 = .ok (m1, A1) ∧
      allocator_allocate m1 4096 = .ok (m2, A2) ∧
      m2.pageTableHead = onePageOfThree.pageTableHead ++ [p1, p2] ∧
      A1 >>> 12 = p1.pageNumber ∧ A2 >>> 12 = p2.pageNumber ∧
      A1 < A2 ∧ A2 >>> 12 = A1 >>> 12 + 1 ∧
      allocator_deallocate m2 A1 4096 = .ok (m3, 0) ∧
      m3.pageTableHead = onePageOfThree.pageTableHead ++ [p2] ∧
      m3.frameTableHead = releaseFlag m2.frameTableHead p1.memAddr ∧
      (∃ f ∈ m3.frameTableHead, f.memAddr = p1.memAddr ∧ f.isFree = true) ∧
      allocator_allocate m3 4096 = .ok (m4, A3) ∧
      m4.pageTableHead = m3.pageTableHead ++ [p3] ∧
      A3 >>> 12 = p3.pageNumber ∧
      p3.memAddr = p1.memAddr ∧
      p1.pageNumber < p3.pageNumber ∧ p2.pageNumber < p3.pageNumber ∧
      ∀ e ∈ m3.pageTableHead, e.pageNumber < p3.pageNumber :=
  ⟨by decide, rfl, by decide, by decide, by decide, by decide,
    C6_reallocation_reuses_frame_with_larger_identifier onePageOfThree rfl (by decide)
      (by decide) (by decide) (by decide)⟩

/-! ## C7: the buffer size that `allocator_construct` stores -/

/-- C7, at the failing input.  `allocator_construct` with a requested size of 1 stores the
buffer size 4097, which is no multiple of 4096 and is not below `1 + 4096`; it makes two
frame nodes, the second of which has one byte inside the buffer, and a free frame count
of 1. -/
theorem C7_construct_one_byte :
    (allocator_construct zeroHeap 1).map (fun r => (tables r.1, r.2)) =
      .ok ({ bufSize := 4097, freeFramesNum := 1, pageTableHead := [], pageTableTail := none,
             frameTableHead := [⟨some 0, true⟩, ⟨some 4096, true⟩] }, 0) ∧
    4097 % PAGE_SIZE ≠ 0 ∧ ¬ 4097 < 1 + PAGE_SIZE := by
  decide

/-! ## C8: the lookup of a page that is not in the page table -/

/-- C8, at the failing input.  With an empty page table, and with a page table that holds
page 1 only, the lookup of an identifier that no node has reads `pageNumber` through the
null pointer: `__pageTableEntry_find`, `allocator_deallocate`, `allocator_read` and
`allocator_write` do not return. -/
theorem C8_lookup_of_absent_page_is_stuck :
    __pageTableEntry_find [] 1 = .error .nullDeref ∧
    __pageTableEntry_find [⟨some 0, 1⟩] 5 = .error .nullDeref ∧
    (runFrom zeroHeap 8192 [.deallocate 0x1000 4096]).map (fun r => r.2) =
      .error .nullDeref ∧
    (runFrom zeroHeap 8192 [.allocate 4096, .deallocate 0x5000 4096]).map (fun r => r.2) =
      .error .nullDeref ∧
    (runFrom zeroHeap 8192 [.allocate 4096]).bind
        (fun r => (allocator_read r.1 zeroHeap 0 0x5000 1).map (fun w => w.2)) =
      .error .nullDeref ∧
    (runFrom zeroHeap 8192 [.allocate 4096]).bind
        (fun r => (allocator_write r.1 zeroHeap 0x5000 0 1).map (fun w => w.2)) =
      .error .nullDeref := by
  decide

/-! ## C9: a read or write that runs out of pages -/

/-- C9, at the failing input.  On the allocator for 8192 bytes with pages 1 and 2 committed
by one `allocator_allocate(8192)`, a read or write of 8193 bytes at `0x1000` runs out of
pages at its second page: the recursive call returns 1, the outer call drops that status
and returns 0.  The same shortage at the first page (4097 bytes at `0x2000`) returns 1. -/
theorem C9_truncated_chain_at_depth_two_returns_success :
    (runFrom zeroHeap 8192 [.allocate 8192]).map (fun r => (r.1.pageTableHead, r.2)) =
      .ok ([⟨some 0, 1⟩, ⟨some 4096, 2⟩], [0x1000]) ∧
    (runFrom zeroHeap 8192 [.allocate 8192]).bind
        (fun r => (allocator_read r.1 zeroHeap 0 0x1000 8193).map (fun w => w.2)) = .ok 0 ∧
    (runFrom zeroHeap 8192 [.allocate 8192]).bind
        (fun r => (allocator_write r.1 zeroHeap 0x1000 0 8193).map (fun w => w.2)) = .ok 0 ∧
    (runFrom zeroHeap 8192 [.allocate 8192]).bind
        (fun r => (allocator_read r.1 zeroHeap 0 0x2000 4097).map (fun w => w.2)) = .ok 1 ∧
    (runFrom zeroHeap 8192 [.allocate 8192]).bind
        (fun r => (allocator_write r.1 zeroHeap 0x2000 0 4097).map (fun w => w.2)) = .ok 1 := by
  decide

/-! ## C10: the address that `allocator_allocate` returns -/

/-- C10.  On a state whose tail pointer is right, the address that `allocator_allocate`
returns has its low 12 bits zero; when it is not `NULL`, and the page number after the last
one is below `2 ^ 52`, the call has appended at least one node to the page table and the
address is the page number of the first node appended, shifted left by 12.  On the
allocator for 8192 bytes the first `allocator_allocate(4096)` returns `0x1000` and leaves
the free frame count 1, the second returns `0x2000` and leaves the free frame count 0. -/
theorem C10_allocate_returns_first_page_address :
    (∀ (m m' : allocator) (msize : Int) (A : Nat), TailOK m →
      allocator_allocate m msize = .ok (m', A) →
      A % 4096 = 0 ∧
      (A ≠ 0 → lastId m.pageTableHead + 1 < 2 ^ 52 →
        ∃ e rest, m'.pageTableHead = m.pageTableHead ++ e :: rest ∧
          A = e.pageNumber <<< 12 ∧ A >>> 12 = e.pageNumber)) ∧
    (∀ heap : Nat → UInt8,
      (runFrom heap 8192 [.allocate 4096]).map (fun r => (r.1.freeFramesNum, r.2)) =
        .ok (1, [0x1000]) ∧
      (runFrom heap 8192 [.allocate 4096, .allocate 4096]).map
          (fun r => (r.1.freeFramesNum, r.2)) = .ok (0, [0x1000, 0x2000])) := by
  refine ⟨?_, scenario_two_allocations⟩
  intro m m' msize A ht h
  rw [allocate_eq m msize ht] at h
  by_cases hc : m.freeFramesNum < Int.tdiv msize 4096
  · rw [if_pos hc] at h
    have hA : A = 0 := (Prod.mk.inj (Except.ok.inj h)).2.symm
    exact ⟨by rw [hA], fun hne => absurd hA hne⟩
  · rw [if_neg hc] at h
    have hm : m' = allocSteps (pagesOf msize) m := (Prod.mk.inj (Except.ok.inj h)).1.symm
    have hA : A = allocAddr (pagesOf msize) m 0 := (Prod.mk.inj (Except.ok.inj h)).2.symm
    refine ⟨by rw [hA]; exact allocAddr_aligned _ _ _ rfl, ?_⟩
    intro hne hlt
    cases hk : pagesOf msize with
    | zero => rw [hk] at hA; exact absurd hA hne
    | succ k =>
      obtain ⟨e1, e2, e3⟩ := encode_eq (lastId m.pageTableHead + 1) hlt
      have hmod : (lastId m.pageTableHead + 1) % SIZE_MOD = lastId m.pageTableHead + 1 :=
        Nat.mod_eq_of_lt (by unfold SIZE_MOD; omega)
      obtain ⟨new, hn, _⟩ := allocSteps_pageTable k (allocStep m)
      refine ⟨{ memAddr := (__allocator_find_free_frame m).2,
                pageNumber := lastId m.pageTableHead + 1 }, new, ?_, ?_, ?_⟩
      · rw [hm, hk, allocSteps, hn, allocStep_pageTable, hmod]
        simp
      · rw [hA, hk, allocAddr, if_pos rfl, e1, allocAddr_of_ne_zero]
        intro h0
        have := e3.mp h0
        omega
      · rw [hA, hk, allocAddr, if_pos rfl, e1, allocAddr_of_ne_zero, e2]
        intro h0
        have := e3.mp h0
        omega

/-- C10 at the allocator for 8192 bytes with one page, for a request of 4096 bytes. -/
theorem C10_allocate_returns_first_page_address_witness :
    ∃ m m', (runFrom zeroHeap 8192 [.allocate 4096]).map (fun r => tables r.1) = .ok (tables m) ∧
      TailOK m ∧ allocator_allocate m 4096 = .ok (m', 0x2000) ∧ 0x2000 % 4096 = 0 ∧
      (0x2000 ≠ 0 → lastId m.pageTableHead + 1 < 2 ^ 52 →
        ∃ e rest, m'.pageTableHead = m.pageTableHead ++ e :: rest ∧
          0x2000 = e.pageNumber <<< 12 ∧ 0x2000 >>> 12 = e.pageNumber) :=
  ⟨{ bufSize := 8192, freeFramesNum := 1, buffer := zeroHeap,
     pageTableHead := [⟨some 0, 1⟩], pageTableTail := some 0,
     frameTableHead := [⟨some 0, false⟩, ⟨some 4096, true⟩] }, _, by decide, rfl, rfl,
    C10_allocate_returns_first_page_address.1 _ _ 4096 0x2000 rfl rfl⟩

/-! ## C11 to C14: the code at the inputs where it leaves the specification -/

/-- C11, at the failing input.  On the allocator for 4096 bytes, `allocator_allocate(4096)`
takes the only frame and `allocator_allocate(1)` appends page 2, at position 1 of the page
table, bound to no frame.  `allocator_deallocate(0x2000, 1)` looks for a frame node with the
null address, finds none and writes `isFree` through the null pointer: it does not return,
where the page at position 1 should be removed. -/
theorem C11_deallocate_of_page_without_frame_is_stuck :
    (runFrom zeroHeap 4096 [.allocate 4096, .allocate 1]).map
        (fun r => (r.1.pageTableHead, r.2)) =
      .ok ([⟨some 0, 1⟩, ⟨none, 2⟩], [0x1000, 0x2000]) ∧
    pagesOf 1 = 1 ∧
    (runFrom zeroHeap 4096 [.allocate 4096, .allocate 1, .deallocate 0x2000 1]).map
        (fun r => r.2) = .error .nullDeref := by
  decide

/-- C12, at the failing input.  On the allocator for 8192 bytes after two calls
`allocator_allocate(4096)` the free frame count is 0.  `allocator_allocate(1)` returns the
address `0x3000` and appends one page, which is the number of pages for one byte, but the
free frame count stays 0 instead of going down by 1. -/
theorem C12_free_count_unchanged_by_allocation :
    pagesOf 1 = 1 ∧
    (runFrom zeroHeap 8192 [.allocate 4096, .allocate 4096]).map
        (fun r => (r.1.freeFramesNum, pageIds r.1.pageTableHead)) = .ok (0, [1, 2]) ∧
    (runFrom zeroHeap 8192 [.allocate 4096, .allocate 4096, .allocate 1]).map
        (fun r => (r.1.freeFramesNum, pageIds r.1.pageTableHead, r.2)) =
      .ok (0, [1, 2, 3], [0x1000, 0x2000, 0x3000]) := by
  decide

/-- C13, at the failing input.  Right after `allocator_construct` with a requested size of
1 the frame table has two nodes, both flagged free, and the free frame count is 1. -/
theorem C13_free_count_differs_after_construct :
    (allocator_construct zeroHeap 1).map
        (fun r => (r.1.freeFramesNum, freeCount r.1.frameTableHead,
          r.1.frameTableHead.length, r.2)) = .ok (1, 2, 2, 0) := by
  decide

/-- C14, at the failing input.  On the allocator for 4096 bytes, after
`allocator_allocate(4096)` and `allocator_allocate(1)` the second node of the page table has
the null frame address, which is the address of no frame node. -/
theorem C14_page_bound_to_no_frame :
    (runFrom zeroHeap 4096 [.allocate 4096, .allocate 1]).map
        (fun r => (r.1.pageTableHead, r.1.frameTableHead, r.2)) =
      .ok ([⟨some 0, 1⟩, ⟨none, 2⟩], [⟨some 0, false⟩], [0x1000, 0x2000]) ∧
    (none : Option Nat) ∉ frameAddrs [⟨some 0, false⟩] := by
  decide

/-! ## C15: the order of the page table -/

/-- A call of `allocator_deallocate` that returns leaves a page table whose nodes are nodes
of the old one, in their order. -/
theorem deallocate_sublist (m m' : allocator) (virtAddr : Nat) (msize : Int) (st : Int)
    (hd : allocator_deallocate m virtAddr msize = .ok (m', st)) :
    List.Sublist m'.pageTableHead m.pageTableHead := by
  unfold allocator_deallocate at hd
  by_cases hc : offsetOf virtAddr ≠ 0 ∨ msize ≤ 0
  · rw [if_pos hc] at hd
    rw [← (Prod.mk.inj (Except.ok.inj hd)).1]
  · rw [if_neg hc] at hd
    simp only at hd
    cases hf : __pageTableEntry_find m.pageTableHead (virtAddr >>> 12) with
    | error s => rw [hf] at hd; exact Except.noConfusion hd
    | ok r =>
      rw [hf] at hd
      cases r with
      | none =>
        simp only at hd
        rw [← (Prod.mk.inj (Except.ok.inj hd)).1]
      | some i =>
        simp only at hd
        cases hl : allocator_deallocate_loop msize.toNat m i msize with
        | error s => rw [hl] at hd; exact Except.noConfusion hd
        | ok m1 =>
          rw [hl] at hd
          simp only at hd
          rw [← (Prod.mk.inj (Except.ok.inj hd)).1, deallocate_loop_ok _ m m1 i msize hl]
          exact deallocSteps_sublist (pagesOf msize) m i

/-- A sequence of calls that returns, on a state with the invariant of the page identifiers
and with page numbers above 0, leaves page numbers above 0. -/
theorem pageIds_pos_runCalls (calls : List Call) (m m' : allocator) (n : Nat) (vs : List Int)
    (h : IdsInv m n) (hp : ∀ id ∈ pageIds m.pageTableHead, 0 < id)
    (hn : n + totalPages calls < SIZE_MOD) (hr : runCalls m calls = .ok (m', vs)) :
    ∀ id ∈ pageIds m'.pageTableHead, 0 < id := by
  induction calls generalizing m n vs with
  | nil =>
    unfold runCalls at hr
    rw [← (Prod.mk.inj (Except.ok.inj hr)).1]
    exact hp
  | cons c rest ih =>
    unfold runCalls at hr
    cases hc : c.run m with
    | error s => rw [hc] at hr; exact Except.noConfusion hr
    | ok r =>
      obtain ⟨m1, v⟩ := r
      rw [hc] at hr
      simp only at hr
      cases hrest : runCalls m1 rest with
      | error s => rw [hrest] at hr; exact Except.noConfusion hr
      | ok r2 =>
        obtain ⟨m2, vs2⟩ := r2
        rw [hrest] at hr
        simp only at hr
        have hm2 : m2 = m' := (Prod.mk.inj (Except.ok.inj hr)).1
        subst hm2
        cases c with
        | allocate msize =>
          simp only [Call.run] at hc
          cases ha : allocator_allocate m msize with
          | error s => rw [ha] at hc; exact Except.noConfusion hc
          | ok ra =>
            obtain ⟨ma, A⟩ := ra
            rw [ha] at hc
            simp only at hc
            have hma : ma = m1 := (Prod.mk.inj (Except.ok.inj hc)).1
            rw [hma] at ha
            simp only [totalPages] at hn
            obtain ⟨h1, k, hk⟩ := IdsInv_allocate m m1 n msize A h (by omega) ha
            refine ih m1 (n + pagesOf msize) vs2 h1 ?_ (by omega) hrest
            intro id hid
            rw [hk] at hid
            rcases List.mem_append.mp hid with hid | hid
            · exact hp id hid
            · have := (List.mem_range'_1.mp hid).1
              omega
        | deallocate virtAddr msize =>
          simp only [Call.run] at hc
          simp only [totalPages] at hn
          have hsub : List.Sublist (pageIds m1.pageTableHead) (pageIds m.pageTableHead) :=
            List.Sublist.map _ (deallocate_sublist m m1 virtAddr msize v hc)
          exact ih m1 n vs2 (IdsInv_deallocate m m1 n virtAddr msize v h hc)
            (fun id hid => hp id (hsub.subset hid)) hn hrest

/-- C15.  In every state that a sequence of calls of `allocator_allocate` and
`allocator_deallocate` reaches from `allocator_construct`, the calls asking for fewer than
`2 ^ 64` pages together, the page numbers of the page table are above 0 and increase
strictly from head to tail, and the stored tail pointer is null for the empty page table and
points to the last node otherwise. -/
theorem C15_page_table_order (heap : Nat → UInt8) (buffSize : Nat) (calls : List Call)
    (m0 m : allocator) (vs : List Int)
    (hc : allocator_construct heap buffSize = .ok (m0, 0))
    (hr : runCalls m0 calls = .ok (m, vs)) (hb : totalPages calls < SIZE_MOD) :
    (∀ id ∈ pageIds m.pageTableHead, 0 < id) ∧
    List.Pairwise (fun a b => a < b) (pageIds m.pageTableHead) ∧
    m.pageTableTail =
      (if m.pageTableHead = [] then none else some (m.pageTableHead.length - 1)) := by
  have h0 := IdsInv_construct heap buffSize m0 hc
  have hpos0 : ∀ id ∈ pageIds m0.pageTableHead, 0 < id := by
    obtain ⟨_, _, hp, _⟩ := construct_ok heap buffSize m0 hc
    rw [hp]
    simp [pageIds]
  obtain ⟨ht, hs, _⟩ := IdsInv_reachable heap buffSize calls m0 m vs hc hr hb
  refine ⟨pageIds_pos_runCalls calls m0 m 0 vs h0 hpos0 (by omega) hr, hs, ?_⟩
  unfold TailOK at ht
  rw [ht]
  cases m.pageTableHead with
  | nil => rfl
  | cons e rest => simp [tailOf]

/-- C15 at the allocator for 8192 bytes after `allocator_allocate(4096)`,
`allocator_allocate(4096)` and `allocator_deallocate(0x1000, 4096)`. -/
theorem C15_page_table_order_witness :
    ∃ m0 m vs, allocator_construct zeroHeap 8192 = .ok (m0, 0) ∧
      runCalls m0 [.allocate 4096, .allocate 4096, .deallocate 0x1000 4096] = .ok (m, vs) ∧
      totalPages [.allocate 4096, .allocate 4096, .deallocate 0x1000 4096] < SIZE_MOD ∧
      pageIds m.pageTableHead = [2] ∧
      (∀ id ∈ pageIds m.pageTableHead, 0 < id) ∧
      List.Pairwise (fun a b => a < b) (pageIds m.pageTableHead) ∧
      m.pageTableTail =
        (if m.pageTableHead = [] then none else some (m.pageTableHead.length - 1)) :=
  ⟨_, _, _, rfl, rfl, by decide, rfl,
    C15_page_table_order zeroHeap 8192
      [.allocate 4096, .allocate 4096, .deallocate 0x1000 4096] _ _ _ rfl rfl (by decide)⟩

/-! ## C16: `__pageTable_erase` -/

/-- C16.  For every page table and every position `i` in it, `__pageTable_erase` at the node
of that position returns the table without the entry of position `i`: the length goes down
by one, the entries before `i` stay at their positions, every entry after `i` moves one
position down with its identifier and frame address (so the node of position `i` holds
what its successor held, when it had one), and the table is empty when the entry was the
only one. -/
theorem C16_erase_removes_the_entry (head : List __pageTableEntry) (i : Nat)
    (h : i < head.length) :
    __pageTable_erase head i = .ok (head.eraseIdx i) ∧
    (head.eraseIdx i).length + 1 = head.length ∧
    (∀ j, j < i → (head.eraseIdx i)[j]? = head[j]?) ∧
    (∀ j, i ≤ j → (head.eraseIdx i)[j]? = head[j + 1]?) ∧
    (∀ s, head[i + 1]? = some s → (head.eraseIdx i)[i]? = some s) ∧
    (head.length = 1 → head.eraseIdx i = []) := by
  have hget : ∀ j, (head.eraseIdx i)[j]? = if j < i then head[j]? else head[j + 1]? :=
    fun j => List.getElem?_eraseIdx head i j
  refine ⟨pageTable_erase_eq head i h, ?_, ?_, ?_, ?_, ?_⟩
  · rw [List.length_eraseIdx, if_pos h]
    omega
  · intro j hj
    rw [hget, if_pos hj]
  · intro j hj
    rw [hget, if_neg (by omega)]
  · intro s hs
    rw [hget, if_neg (by omega), hs]
  · intro h1
    apply List.eq_nil_of_length_eq_zero
    rw [List.length_eraseIdx, if_pos h]
    omega

/-- C16 at the page table with the pages 1, 2, 3 and the position 1. -/
theorem C16_erase_witness :
    1 < ([⟨some 0, 1⟩, ⟨some 4096, 2⟩, ⟨some 8192, 3⟩] : List __pageTableEntry).length ∧
    __pageTable_erase [⟨some 0, 1⟩, ⟨some 4096, 2⟩, ⟨some 8192, 3⟩] 1 =
      .ok [⟨some 0, 1⟩, ⟨some 8192, 3⟩] :=
  ⟨by decide,
    (C16_erase_removes_the_entry [⟨some 0, 1⟩, ⟨some 4096, 2⟩, ⟨some 8192, 3⟩] 1
      (by decide)).1⟩

/-! ## C17: a read that runs out of pages at its second page -/

/-- C17 as stated fails.  On the allocator for 8192 bytes with the pages 1 and 2 committed
and filled with the byte `0xAB`, a read of 8193 bytes at `0x1000` into memory filled with
zero bytes finds no page after page 2.  It has copied the 4096 bytes of page 1, it has
copied no byte of page 2 (the byte at offset 4096 of the destination is still 0, where the
buffer holds `0xAB`), and the status is 0. -/
theorem C17_second_page_is_not_copied :
    (runFrom zeroHeap 8192 [.allocate 8192]).map (fun r => (tables r.1, r.2)) =
      .ok (tables twoPages, [0x1000]) ∧
    (allocator_write twoPages (fun _ => 0xAB) 0x1000 0 8192).bind (fun w =>
      (allocator_read w.1 zeroHeap 0 0x1000 8193).map (fun rd =>
        (w.2, rd.2, [w.1.buffer 0, w.1.buffer 4096],
          [rd.1 0, rd.1 4095, rd.1 4096, rd.1 8191]))) =
      .ok (0, 0, [0xAB, 0xAB], [0xAB, 0xAB, 0, 0]) := by
  decide

/-- In a page table whose page numbers increase, the lookup of the page number of the entry
at a position returns the node of that position. -/
theorem pageTableEntry_find_of_sorted (head : List __pageTableEntry) (j : Nat)
    (p : __pageTableEntry) (hs : List.Pairwise (fun a b => a < b) (pageIds head))
    (hget : head[j]? = some p) :
    __pageTableEntry_find head p.pageNumber = .ok (some j) := by
  have hj : j < head.length := by
    by_contra hc
    rw [List.getElem?_eq_none (by omega)] at hget
    exact Option.noConfusion hget
  have hp : head[j] = p := by
    rw [List.getElem?_eq_getElem hj] at hget
    exact Option.some.inj hget
  have hsplit : head = head.take j ++ p :: head.drop (j + 1) := by
    rw [← hp, ← List.drop_eq_getElem_cons hj, List.take_append_drop]
  have hlen : (head.take j).length = j := by
    rw [List.length_take]
    omega
  have hpre : ∀ e ∈ head.take j, e.pageNumber ≠ p.pageNumber := by
    rw [hsplit] at hs
    simp only [pageIds, List.map_append, List.map_cons] at hs
    have h2 := (List.pairwise_append.mp hs).2.2
    intro e he
    have := h2 e.pageNumber (List.mem_map_of_mem _ he) p.pageNumber (List.mem_cons_self _ _)
    omega
  have := pageTableEntry_find_from_append 0 (head.take j) (head.drop (j + 1)) p p.pageNumber
    hpre rfl
  rw [← hsplit, hlen, Nat.zero_add] at this
  exact this

/-- C17, amended.  In a state whose page numbers increase from head to tail, for a read at
an address in the page of position `i` whose frame lies in the buffer, when the page of
position `i + 1` is the last one and the bytes to read do not end in it:
`allocator_read` returns, and the memory of the caller is the one it was given with the
bytes of the first page, from the offset of the address to the end of the page, copied to
the destination; no other byte of the destination has changed, so that no byte of the
second page has been copied. -/
theorem C17_only_first_page_is_copied (m : allocator) (real : Nat → UInt8)
    (toRealAddr fromVirtAddr : Nat) (msize : Int) (i a : Nat) (p1 p2 : __pageTableEntry)
    (hs : List.Pairwise (fun a b => a < b) (pageIds m.pageTableHead))
    (hget1 : m.pageTableHead[i]? = some p1) (hget2 : m.pageTableHead[i + 1]? = some p2)
    (hlast : m.pageTableHead[i + 2]? = none)
    (hA : fromVirtAddr >>> 12 = p1.pageNumber) (hp2 : p2.pageNumber < 2 ^ 52)
    (hframe : p1.memAddr = some a) (hin : a + 4096 ≤ m.bufSize)
    (hsize : ((4096 - offsetOf fromVirtAddr : Nat) : Int) + 4096 < msize) :
    ∃ real' st, allocator_read m real toRealAddr fromVirtAddr msize = .ok (real', st) ∧
      (∀ t, t < 4096 - offsetOf fromVirtAddr →
        real' (toRealAddr + t) = m.buffer (a + offsetOf fromVirtAddr + t)) ∧
      (∀ x, x < toRealAddr ∨ toRealAddr + (4096 - offsetOf fromVirtAddr) ≤ x →
        real' x = real x) := by
  have ho : offsetOf fromVirtAddr < 4096 := by
    rw [offsetOf_eq_mod]
    omega
  have hfind1 := pageTableEntry_find_of_sorted _ i p1 hs hget1
  have hfind2 := pageTableEntry_find_of_sorted _ (i + 1) p2 hs hget2
  obtain ⟨e1, e2, _⟩ := encode_eq p2.pageNumber hp2
  have hmod : p2.pageNumber % SIZE_MOD = p2.pageNumber :=
    Nat.mod_eq_of_lt (by unfold SIZE_MOD; omega)
  have henc : (p2.pageNumber <<< 12) % SIZE_MOD = p2.pageNumber <<< 12 := by
    rw [hmod] at e1
    exact e1
  have hoff2 : offsetOf (p2.pageNumber <<< 12) = 0 := by
    rw [offsetOf_eq_mod, Nat.shiftLeft_eq]
    omega
  have hrange : bufferRange m (some a) (offsetOf fromVirtAddr)
      (PAGE_SIZE - offsetOf fromVirtAddr) = .ok (a + offsetOf fromVirtAddr) := by
    unfold bufferRange PAGE_SIZE
    simp only
    rw [if_pos (by omega)]
  have hfuel : msize.toNat + 1 = (msize.toNat - 1) + 1 + 1 := by omega
  refine ⟨memcpy real toRealAddr m.buffer (a + offsetOf fromVirtAddr)
    (4096 - offsetOf fromVirtAddr), 0, ?_, ?_, ?_⟩
  · unfold allocator_read
    rw [hfuel]
    unfold allocator_read_rec
    simp only [hA, hfind1, hget1, hget2, hframe, hrange, henc]
    rw [if_pos (by omega), if_neg (by simp only [PAGE_SIZE]; omega)]
    unfold allocator_read_rec
    simp only [e2, hfind2, hget2, hlast, hoff2]
    rw [if_pos (by simp only [PAGE_SIZE]; omega), if_neg (by simp only [PAGE_SIZE]; omega)]
    rfl
  · intro t ht
    unfold memcpy
    rw [if_pos (by omega)]
    congr 1
    omega
  · intro x hx
    unfold memcpy
    rw [if_neg (by omega)]

/-- C17, amended, at the allocator for 8192 bytes with the pages 1 and 2 committed, for a
read of 8193 bytes at `0x1000`. -/
theorem C17_only_first_page_witness :
    List.Pairwise (fun a b => a < b) (pageIds twoPages.pageTableHead) ∧
    twoPages.pageTableHead[0]? = some ⟨some 0, 1⟩ ∧
    twoPages.pageTableHead[0 + 1]? = some ⟨some 4096, 2⟩ ∧
    twoPages.pageTableHead[0 + 2]? = none ∧
    0 + 4096 ≤ twoPages.bufSize ∧
    ((4096 - offsetOf 0x1000 : Nat) : Int) + 4096 < 8193 ∧
    ∃ real' st, allocator_read twoPages zeroHeap 0 0x1000 8193 = .ok (real', st) ∧
      (∀ t, t < 4096 - offsetOf 0x1000 →
        real' (0 + t) = twoPages.buffer (0 + offsetOf 0x1000 + t)) ∧
      (∀ x, x < 0 ∨ 0 + (4096 - offsetOf 0x1000) ≤ x → real' x = zeroHeap x) :=
  ⟨by decide, rfl, rfl, rfl, by decide, by decide,
    C17_only_first_page_is_copied twoPages zeroHeap 0 0x1000 8193 0 0 ⟨some 0, 1⟩
      ⟨some 4096, 2⟩ (by decide) rfl rfl rfl (by decide) (by decide) rfl (by decide)
      (by decide)⟩

/-! ## C18: first fit -/

theorem find_free_frame_loop_first (pre post : List __frameTableEntry) (f : __frameTableEntry)
    (hpre : ∀ g ∈ pre, g.isFree = false) (hf : f.isFree = true) :
    __allocator_find_free_frame_loop (pre ++ f :: post) =
      some (pre ++ { f with isFree := false } :: post, f.memAddr) := by
  induction pre with
  | nil => simp [__allocator_find_free_frame_loop, hf]
  | cons g pre ih =>
    have hg : g.isFree = false := hpre g (List.mem_cons_self _ _)
    rw [List.cons_append, __allocator_find_free_frame_loop, hg,
      ih (fun x hx => hpre x (List.mem_cons_of_mem _ hx))]
    rfl

theorem find_free_frame_loop_none (frames : List __frameTableEntry)
    (h : ∀ g ∈ frames, g.isFree = false) : __allocator_find_free_frame_loop frames = none := by
  induction frames with
  | nil => rfl
  | cons g rest ih =>
    rw [__allocator_find_free_frame_loop, h g (List.mem_cons_self _ _),
      ih (fun x hx => h x (List.mem_cons_of_mem _ hx))]
    rfl

/-- C18.  For every state: when the frame table is `pre ++ f :: post` with no node of `pre`
flagged free and `f` flagged free, `__allocator_find_free_frame` returns the address of `f`,
flags `f` in use, takes one from the free frame count and leaves every other node and field
as it was; when no node is flagged free it returns the null address and the state it was
given. -/
theorem C18_find_free_frame_is_first_fit (m : allocator) :
    (∀ (pre post : List __frameTableEntry) (f : __frameTableEntry),
      m.frameTableHead = pre ++ f :: post → (∀ g ∈ pre, g.isFree = false) → f.isFree = true →
      __allocator_find_free_frame m =
        ({ m with
           frameTableHead := pre ++ { f with isFree := false } :: post
           freeFramesNum := m.freeFramesNum - 1 }, f.memAddr)) ∧
    ((∀ g ∈ m.frameTableHead, g.isFree = false) → __allocator_find_free_frame m = (m, none)) := by
  refine ⟨?_, ?_⟩
  · intro pre post f hm hpre hf
    unfold __allocator_find_free_frame
    rw [hm, find_free_frame_loop_first pre post f hpre hf]
  · intro h
    unfold __allocator_find_free_frame
    rw [find_free_frame_loop_none _ h]

/-- C18 at the allocator for 12288 bytes after one allocation, whose first frame is in use
and whose second frame is the first free one. -/
theorem C18_find_free_frame_witness :
    onePageOfThree.frameTableHead = [⟨some 0, false⟩] ++ ⟨some 4096, true⟩ :: [⟨some 8192, true⟩] ∧
    (∀ g ∈ ([⟨some 0, false⟩] : List __frameTableEntry), g.isFree = false) ∧
    (⟨some 4096, true⟩ : __frameTableEntry).isFree = true ∧
    __allocator_find_free_frame onePageOfThree =
      ({ onePageOfThree with
         frameTableHead :=
           [⟨some 0, false⟩] ++ { (⟨some 4096, true⟩ : __frameTableEntry) with isFree := false } ::
             [⟨some 8192, true⟩]
         freeFramesNum := onePageOfThree.freeFramesNum - 1 }, some 4096) :=
  ⟨rfl, by decide, rfl,
    (C18_find_free_frame_is_first_fit onePageOfThree).1 [⟨some 0, false⟩] [⟨some 8192, true⟩]
      ⟨some 4096, true⟩ rfl (by decide) rfl⟩

/-! ## C19: the address codec -/

/-- C19.  For every address below `2 ^ 64`, the offset `((a << 52) >> 52)` of the source,
computed in 64 bits, is `a & 0xFFF`, and the address is its page number shifted left by 12
plus that offset; for every page number below `2 ^ 52`, the address `p << 12` has the page
number `p` and the offset 0. -/
theorem C19_address_codec :
    (∀ a : Nat, a < 2 ^ 64 →
      offsetOf a = a &&& 0xFFF ∧
      a = ((a >>> 12) <<< 12) % SIZE_MOD + (a &&& 0xFFF)) ∧
    (∀ p : Nat, p < 2 ^ 52 →
      ((p <<< 12) % SIZE_MOD) >>> 12 = p ∧ offsetOf ((p <<< 12) % SIZE_MOD) = 0) := by
  have hand : ∀ a : Nat, a &&& 0xFFF = a % 4096 := fun a =>
    Nat.and_pow_two_sub_one_eq_mod a 12
  refine ⟨?_, ?_⟩
  · intro a ha
    rw [offsetOf_eq_mod, hand]
    refine ⟨rfl, ?_⟩
    unfold SIZE_MOD
    simp only [Nat.shiftLeft_eq, Nat.shiftRight_eq_div_pow]
    omega
  · intro p hp
    rw [offsetOf_eq_mod]
    unfold SIZE_MOD
    simp only [Nat.shiftLeft_eq, Nat.shiftRight_eq_div_pow]
    omega

/-- C19 at the address `0x2ABC` and at the page number 2. -/
theorem C19_address_codec_witness :
    (0x2ABC < 2 ^ 64 ∧ offsetOf 0x2ABC = 0x2ABC &&& 0xFFF ∧ offsetOf 0x2ABC = 0xABC ∧
      0x2ABC = ((0x2ABC >>> 12) <<< 12) % SIZE_MOD + (0x2ABC &&& 0xFFF)) ∧
    (2 < 2 ^ 52 ∧ ((2 <<< 12) % SIZE_MOD) >>> 12 = 2 ∧ offsetOf ((2 <<< 12) % SIZE_MOD) = 0) :=
  ⟨⟨by decide, (C19_address_codec.1 0x2ABC (by decide)).1, by decide,
      (C19_address_codec.1 0x2ABC (by decide)).2⟩,
    ⟨by decide, C19_address_codec.2 2 (by decide)⟩⟩

/-! ## C20: what `allocator_read` and `allocator_write` leave as it was -/

theorem pageTableEntry_find_from_present (i : Nat) (head : List __pageTableEntry)
    (pageNumber : Nat) (h : ∃ e ∈ head, e.pageNumber = pageNumber) :
    ∃ j, __pageTableEntry_find_from i head pageNumber = .ok (some (i + j)) ∧ j < head.length := by
  induction head generalizing i with
  | nil =>
    obtain ⟨e, he, _⟩ := h
    simp at he
  | cons e rest ih =>
    by_cases hp : e.pageNumber = pageNumber
    · exact ⟨0, by simp [__pageTableEntry_find_from, hp], by simp⟩
    · have h' : ∃ e' ∈ rest, e'.pageNumber = pageNumber := by
        obtain ⟨e', he', hp'⟩ := h
        rcases List.mem_cons.mp he' with he' | he'
        · rw [he'] at hp'
          exact absurd hp' hp
        · exact ⟨e', he', hp'⟩
      obtain ⟨j, hj, hlt⟩ := ih (i + 1) h'
      refine ⟨j + 1, ?_, by simp only [List.length_cons]; omega⟩
      rw [__pageTableEntry_find_from, if_pos hp, hj]
      congr 2
      omega

/-- The lookup of an identifier that a node of the page table has returns a node of the page
table. -/
theorem pageTableEntry_find_present (head : List __pageTableEntry) (pageNumber : Nat)
    (h : ∃ e ∈ head, e.pageNumber = pageNumber) :
    ∃ j page, __pageTableEntry_find head pageNumber = .ok (some j) ∧ head[j]? = some page := by
  obtain ⟨j, hj, hlt⟩ := pageTableEntry_find_from_present 0 head pageNumber h
  rw [Nat.zero_add] at hj
  exact ⟨j, head[j], hj, List.getElem?_eq_getElem hlt⟩

/-- When `allocator_write` returns, the fields of the allocator other than the content of
the buffer are what they were. -/
theorem write_rec_tables (fuel : Nat) (m m' : allocator) (real : Nat → UInt8)
    (toVirtAddr fromRealAddr : Nat) (msize : Int) (st : Int)
    (h : allocator_write_rec fuel m real toVirtAddr fromRealAddr msize = .ok (m', st)) :
    tables m' = tables m := by
  induction fuel generalizing m m' toVirtAddr fromRealAddr msize st with
  | zero => exact Except.noConfusion h
  | succ fuel ih =>
    unfold allocator_write_rec at h
    simp only at h
    split at h
    · exact Except.noConfusion h
    · rw [← (Prod.mk.inj (Except.ok.inj h)).1]
    · split at h
      · exact Except.noConfusion h
      · split at h
        · split at h
          · split at h
            · exact Except.noConfusion h
            · rw [← (Prod.mk.inj (Except.ok.inj h)).1]
              rfl
          · split at h
            · rw [← (Prod.mk.inj (Except.ok.inj h)).1]
            · split at h
              · exact Except.noConfusion h
              · split at h
                · exact Except.noConfusion h
                · rename_i m2 st2 hrec
                  rw [← (Prod.mk.inj (Except.ok.inj h)).1, ih _ _ _ _ _ _ hrec]
                  rfl
        · rw [← (Prod.mk.inj (Except.ok.inj h)).1]

/-- The copy to a destination in the memory of the caller leaves the allocator as it was. -/
theorem memcpyFromBuffer_inCaller (m m1 : allocator) (real real1 : Nat → UInt8)
    (a src n : Nat) (h : memcpyFromBuffer m real (.inCaller a) src n = .ok (m1, real1)) :
    m1 = m ∧ real1 = memcpy real a m.buffer src n := by
  unfold memcpyFromBuffer at h
  obtain ⟨h1, h2⟩ := Prod.mk.inj (Except.ok.inj h)
  exact ⟨h1.symm, h2.symm⟩

/-- The copy to a destination in the backing buffer leaves the memory of the caller, the
bookkeeping and the bytes of the buffer outside the destination range as they were. -/
theorem memcpyFromBuffer_inBuffer (m m1 : allocator) (real real1 : Nat → UInt8)
    (d src n : Nat) (h : memcpyFromBuffer m real (.inBuffer d) src n = .ok (m1, real1)) :
    real1 = real ∧ tables m1 = tables m ∧
    ∀ x, x < d ∨ d + n ≤ x → m1.buffer x = m.buffer x := by
  unfold memcpyFromBuffer at h
  simp only at h
  split at h
  · exact Except.noConfusion h
  · split at h
    · exact Except.noConfusion h
    · obtain ⟨h1, h2⟩ := Prod.mk.inj (Except.ok.inj h)
      rw [← h1, ← h2]
      refine ⟨rfl, rfl, ?_⟩
      intro x hx
      show memcpy m.buffer d m.buffer src n x = m.buffer x
      unfold memcpy
      rw [if_neg (by omega)]

theorem memcpyFromBuffer_tables (m m1 : allocator) (real real1 : Nat → UInt8)
    (dst : Dest) (src n : Nat) (h : memcpyFromBuffer m real dst src n = .ok (m1, real1)) :
    tables m1 = tables m := by
  cases dst with
  | inBuffer d => exact (memcpyFromBuffer_inBuffer m m1 real real1 d src n h).2.1
  | inCaller a => rw [(memcpyFromBuffer_inCaller m m1 real real1 a src n h).1]

/-- When `allocator_read` returns, whatever the destination, the fields of the allocator
other than the content of the buffer are what they were. -/
theorem read_dest_rec_tables (fuel : Nat) (m m' : allocator) (real real' : Nat → UInt8)
    (dst : Dest) (fromVirtAddr : Nat) (msize : Int) (st : Int)
    (h : allocator_read_dest_rec fuel m real dst fromVirtAddr msize = .ok (m', real', st)) :
    tables m' = tables m := by
  induction fuel generalizing m m' real real' dst fromVirtAddr msize st with
  | zero => exact Except.noConfusion h
  | succ fuel ih =>
    unfold allocator_read_dest_rec at h
    simp only at h
    split at h
    · exact Except.noConfusion h
    · rw [← (Prod.mk.inj (Except.ok.inj h)).1]
    · split at h
      · exact Except.noConfusion h
      · split at h
        · split at h
          · split at h
            · exact Except.noConfusion h
            · split at h
              · exact Except.noConfusion h
              · rename_i m1 real1 hcp
                rw [← (Prod.mk.inj (Except.ok.inj h)).1]
                exact memcpyFromBuffer_tables _ _ _ _ _ _ _ hcp
          · split at h
            · rw [← (Prod.mk.inj (Except.ok.inj h)).1]
            · split at h
              · exact Except.noConfusion h
              · split at h
                · exact Except.noConfusion h
                · rename_i m1 real1 hcp
                  split at h
                  · exact Except.noConfusion h
                  · rename_i m2 real2 st2 hrec
                    rw [← (Prod.mk.inj (Except.ok.inj h)).1, ih _ _ _ _ _ _ _ _ hrec]
                    exact memcpyFromBuffer_tables _ _ _ _ _ _ _ hcp
        · rw [← (Prod.mk.inj (Except.ok.inj h)).1]

/-- When `allocator_read` with a destination in the memory of the caller returns, the
allocator is the one it was given, content of the buffer included. -/
theorem read_dest_rec_inCaller (fuel : Nat) (m m' : allocator) (real real' : Nat → UInt8)
    (a : Nat) (fromVirtAddr : Nat) (msize : Int) (st : Int)
    (h : allocator_read_dest_rec fuel m real (.inCaller a) fromVirtAddr msize =
      .ok (m', real', st)) : m' = m := by
  induction fuel generalizing m' real real' a fromVirtAddr msize st with
  | zero => exact Except.noConfusion h
  | succ fuel ih =>
    unfold allocator_read_dest_rec at h
    simp only at h
    split at h
    · exact Except.noConfusion h
    · exact (Prod.mk.inj (Except.ok.inj h)).1.symm
    · split at h
      · exact Except.noConfusion h
      · split at h
        · split at h
          · split at h
            · exact Except.noConfusion h
            · split at h
              · exact Except.noConfusion h
              · rename_i m1 real1 hcp
                rw [← (Prod.mk.inj (Except.ok.inj h)).1]
                exact (memcpyFromBuffer_inCaller _ _ _ _ _ _ _ hcp).1
          · split at h
            · exact (Prod.mk.inj (Except.ok.inj h)).1.symm
            · split at h
              · exact Except.noConfusion h
              · split at h
                · exact Except.noConfusion h
                · rename_i m1 real1 hcp
                  split at h
                  · exact Except.noConfusion h
                  · rename_i m2 real2 st2 hrec
                    have hm1 := (memcpyFromBuffer_inCaller _ _ _ _ _ _ _ hcp).1
                    rw [hm1] at hrec
                    rw [← (Prod.mk.inj (Except.ok.inj h)).1]
                    exact ih _ _ _ _ _ _ _ hrec
        · exact (Prod.mk.inj (Except.ok.inj h)).1.symm

/-- When `allocator_read` with a destination in the backing buffer returns, the memory of
the caller is what it was, and so is every byte of the buffer outside the `msize` bytes from
the destination on. -/
theorem read_dest_rec_inBuffer (fuel : Nat) (m m' : allocator) (real real' : Nat → UInt8)
    (d : Nat) (fromVirtAddr : Nat) (msize : Int) (st : Int)
    (h : allocator_read_dest_rec fuel m real (.inBuffer d) fromVirtAddr msize =
      .ok (m', real', st)) :
    real' = real ∧ ∀ x, x < d ∨ d + msize.toNat ≤ x → m'.buffer x = m.buffer x := by
  induction fuel generalizing m m' real real' d fromVirtAddr msize st with
  | zero => exact Except.noConfusion h
  | succ fuel ih =>
    have hoff : offsetOf fromVirtAddr < 4096 := by
      rw [offsetOf_eq_mod]
      exact Nat.mod_lt _ (by decide)
    unfold allocator_read_dest_rec at h
    simp only at h
    split at h
    · exact Except.noConfusion h
    · obtain ⟨h1, h2⟩ := Prod.mk.inj (Except.ok.inj h)
      rw [← h1, ← (Prod.mk.inj h2).1]
      exact ⟨rfl, fun _ _ => rfl⟩
    · split at h
      · exact Except.noConfusion h
      · split at h
        · split at h
          · split at h
            · exact Except.noConfusion h
            · split at h
              · exact Except.noConfusion h
              · rename_i m1 real1 hcp
                obtain ⟨h1, h2⟩ := Prod.mk.inj (Except.ok.inj h)
                obtain ⟨c1, _, c3⟩ := memcpyFromBuffer_inBuffer _ _ _ _ _ _ _ hcp
                rw [← h1, ← (Prod.mk.inj h2).1]
                exact ⟨c1, c3⟩
          · split at h
            · obtain ⟨h1, h2⟩ := Prod.mk.inj (Except.ok.inj h)
              rw [← h1, ← (Prod.mk.inj h2).1]
              exact ⟨rfl, fun _ _ => rfl⟩
            · split at h
              · exact Except.noConfusion h
              · split at h
                · exact Except.noConfusion h
                · rename_i m1 real1 hcp
                  split at h
                  · exact Except.noConfusion h
                  · rename_i m2 real2 st2 hrec
                    have hsize : ¬ ((PAGE_SIZE - offsetOf fromVirtAddr : Nat) : Int) ≥ msize := by
                      assumption
                    obtain ⟨h1, h2⟩ := Prod.mk.inj (Except.ok.inj h)
                    obtain ⟨c1, _, c3⟩ := memcpyFromBuffer_inBuffer _ _ _ _ _ _ _ hcp
                    obtain ⟨i1, i2⟩ := ih _ _ _ _ _ _ _ _ hrec
                    rw [← h1, ← (Prod.mk.inj h2).1]
                    refine ⟨by rw [i1, c1], ?_⟩
                    intro x hx
                    simp only [PAGE_SIZE] at i2 c3 hsize
                    rw [i2 x (by omega), c3 x (by omega)]
        · obtain ⟨h1, h2⟩ := Prod.mk.inj (Except.ok.inj h)
          rw [← h1, ← (Prod.mk.inj h2).1]
          exact ⟨rfl, fun _ _ => rfl⟩

/-- With a destination in the memory of the caller, `allocator_read` on the allocator and
the memory of the caller together returns the memory and the status that `allocator_read`
returns. -/
theorem read_dest_rec_eq (fuel : Nat) (m : allocator) (real : Nat → UInt8)
    (a fromVirtAddr : Nat) (msize : Int) :
    (allocator_read_dest_rec fuel m real (.inCaller a) fromVirtAddr msize).map (fun r => r.2) =
      allocator_read_rec fuel m real a fromVirtAddr msize := by
  induction fuel generalizing real a fromVirtAddr msize with
  | zero => rfl
  | succ fuel ih =>
    unfold allocator_read_dest_rec allocator_read_rec
    simp only [memcpyFromBuffer, Dest.step]
    split
    · rfl
    · rfl
    · split
      · rfl
      · split
        · split
          · split
            · rfl
            · rfl
          · split
            · rfl
            · split
              · rfl
              · rw [← ih]
                generalize allocator_read_dest_rec fuel m _ _ _ _ = r
                rcases r with e | ⟨m2, real2, s2⟩ <;> rfl
        · rfl

/-- C20 as stated fails.  On the allocator for 12288 bytes with page 1 committed in the first
frame and ten bytes `0xAB` written at `0x1000`, `allocator_read` of ten bytes from `0x1000`
with the destination `buffer + 4096`, a pointer into the backing buffer, returns the status
0 and the bytes of the buffer at the offsets 4096 to 4105 are `0xAB` where they were 0: the
read has changed bytes of the backing buffer. -/
theorem C20_read_into_the_buffer_changes_it :
    (runFrom zeroHeap 12288 [.allocate 4096]).map (fun r => (tables r.1, r.2)) =
      .ok (tables onePageOfThree, [0x1000]) ∧
    (allocator_write onePageOfThree (fun _ => 0xAB) 0x1000 0 10).bind (fun w =>
      (allocator_read_dest w.1 zeroHeap (.inBuffer 4096) 0x1000 10).map (fun rd =>
        (w.2, rd.2.2, [w.1.buffer 4096, w.1.buffer 4105],
          [rd.1.buffer 4096, rd.1.buffer 4105]))) =
      .ok (0, 0, [0, 0], [0xAB, 0xAB]) := by
  decide

/-- C20, amended.  When `allocator_write` returns, the buffer size, the free frame count, the
page table with its tail pointer and the frame table with its flags are what they were.  With
a size that is not positive and an address whose page number a node of the page table has,
`allocator_write` returns the status 0 and the state it was given, content of the buffer
included.  When `allocator_read` returns, whatever its destination, the buffer size, the free
frame count, the page table and the frame table are what they were.  With a destination in
the memory of the caller, apart from the memory of the allocator, the allocator is the one it
was given, every byte of the backing buffer included.  With a destination in the backing
buffer, the memory of the caller is what it was and so is every byte of the buffer outside the
`msize` bytes from the destination on.  With a destination in the memory of the caller the
memory and the status returned are those of `allocator_read`. -/
theorem C20_read_and_write_keep_the_tables :
    (∀ (m m' : allocator) (real : Nat → UInt8) (toVirtAddr fromRealAddr : Nat) (msize st : Int),
      allocator_write m real toVirtAddr fromRealAddr msize = .ok (m', st) →
      tables m' = tables m) ∧
    (∀ (m : allocator) (real : Nat → UInt8) (toVirtAddr fromRealAddr : Nat) (msize : Int),
      msize ≤ 0 → (∃ e ∈ m.pageTableHead, e.pageNumber = toVirtAddr >>> 12) →
      allocator_write m real toVirtAddr fromRealAddr msize = .ok (m, 0)) ∧
    (∀ (m m' : allocator) (real real' : Nat → UInt8) (toRealAddr : Dest) (fromVirtAddr : Nat)
      (msize st : Int),
      allocator_read_dest m real toRealAddr fromVirtAddr msize = .ok (m', real', st) →
      tables m' = tables m) ∧
    (∀ (m m' : allocator) (real real' : Nat → UInt8) (a fromVirtAddr : Nat) (msize st : Int),
      allocator_read_dest m real (.inCaller a) fromVirtAddr msize = .ok (m', real', st) →
      m' = m) ∧
    (∀ (m m' : allocator) (real real' : Nat → UInt8) (d fromVirtAddr : Nat) (msize st : Int),
      allocator_read_dest m real (.inBuffer d) fromVirtAddr msize = .ok (m', real', st) →
      real' = real ∧ ∀ x, x < d ∨ d + msize.toNat ≤ x → m'.buffer x = m.buffer x) ∧
    (∀ (m : allocator) (real : Nat → UInt8) (a fromVirtAddr : Nat) (msize : Int),
      (allocator_read_dest m real (.inCaller a) fromVirtAddr msize).map (fun r => r.2) =
        allocator_read m real a fromVirtAddr msize) := by
  refine ⟨?_, ?_, ?_, ?_, ?_, ?_⟩
  · intro m m' real toVirtAddr fromRealAddr msize st h
    exact write_rec_tables _ m m' real toVirtAddr fromRealAddr msize st h
  · intro m real toVirtAddr fromRealAddr msize hs hp
    obtain ⟨j, page, hfind, hget⟩ := pageTableEntry_find_present _ _ hp
    have hfuel : msize.toNat + 1 = 0 + 1 := by omega
    unfold allocator_write
    rw [hfuel]
    unfold allocator_write_rec
    simp only [hfind, hget]
    rw [if_neg (by omega)]
  · intro m m' real real' toRealAddr fromVirtAddr msize st h
    exact read_dest_rec_tables _ m m' real real' toRealAddr fromVirtAddr msize st h
  · intro m m' real real' a fromVirtAddr msize st h
    exact read_dest_rec_inCaller _ m m' real real' a fromVirtAddr msize st h
  · intro m m' real real' d fromVirtAddr msize st h
    exact read_dest_rec_inBuffer _ m m' real real' d fromVirtAddr msize st h
  · intro m real a fromVirtAddr msize
    exact read_dest_rec_eq _ m real a fromVirtAddr msize

/-- C20, amended, at the allocator for 12288 bytes with page 1 committed: a write of 10
bytes, a write of no byte, and a read of 10 bytes at `0x1000` to the backing buffer at the
offset 4096 and to the memory of the caller. -/
theorem C20_read_and_write_tables_witness :
    (∃ m', allocator_write onePageOfThree (fun _ => 0xAB) 0x1000 0 10 = .ok (m', 0) ∧
      tables m' = tables onePageOfThree) ∧
    ((0 : Int) ≤ 0 ∧ (∃ e ∈ onePageOfThree.pageTableHead, e.pageNumber = 0x1000 >>> 12) ∧
      allocator_write onePageOfThree (fun _ => 0xAB) 0x1000 0 0 = .ok (onePageOfThree, 0)) ∧
    (∃ m' real', allocator_read_dest onePageOfThree zeroHeap (.inBuffer 4096) 0x1000 10 =
        .ok (m', real', 0) ∧ tables m' = tables onePageOfThree) ∧
    (∃ m' real', allocator_read_dest onePageOfThree zeroHeap (.inCaller 0) 0x1000 10 =
        .ok (m', real', 0) ∧ m' = onePageOfThree) ∧
    (∃ m' real', allocator_read_dest onePageOfThree zeroHeap (.inBuffer 4096) 0x1000 10 =
        .ok (m', real', 0) ∧ real' = zeroHeap ∧
        ∀ x, x < 4096 ∨ 4096 + (10 : Int).toNat ≤ x → m'.buffer x = onePageOfThree.buffer x) :=
  ⟨⟨_, rfl, C20_read_and_write_keep_the_tables.1 onePageOfThree _ (fun _ => 0xAB)
      0x1000 0 10 0 rfl⟩,
    ⟨by decide, ⟨⟨some 0, 1⟩, by decide, by decide⟩,
      C20_read_and_write_keep_the_tables.2.1 onePageOfThree (fun _ => 0xAB) 0x1000 0 0
        (by decide) ⟨⟨some 0, 1⟩, by decide, by decide⟩⟩,
    ⟨_, _, rfl, C20_read_and_write_keep_the_tables.2.2.1 onePageOfThree _ zeroHeap _
      (.inBuffer 4096) 0x1000 10 0 rfl⟩,
    ⟨_, _, rfl, C20_read_and_write_keep_the_tables.2.2.2.1 onePageOfThree _ zeroHeap _
      0 0x1000 10 0 rfl⟩,
    ⟨_, _, rfl, C20_read_and_write_keep_the_tables.2.2.2.2.1 onePageOfThree _ zeroHeap _
      4096 0x1000 10 0 rfl⟩⟩

/-! ## The binding of pages to frames in the states that the calls reach -/

theorem flagOf_mem (frames : List __frameTableEntry) (a : Option Nat) (b : Bool)
    (h : flagOf frames a = some b) : a ∈ frameAddrs frames := by
  induction frames with
  | nil => simp [flagOf] at h
  | cons f rest ih =>
    unfold flagOf at h
    by_cases hf : f.memAddr = a
    · simp [frameAddrs, hf]
    · rw [if_neg hf] at h
      have := ih h
      unfold frameAddrs at this ⊢
      simp [this]

theorem flagOf_releaseFlag_other (frames : List __frameTableEntry) (a b : Option Nat)
    (hne : b ≠ a) : flagOf (releaseFlag frames a) b = flagOf frames b := by
  induction frames with
  | nil => rfl
  | cons f rest ih =>
    unfold releaseFlag
    by_cases hf : f.memAddr = a
    · rw [if_pos hf]
      have hfb : ¬ f.memAddr = b := by rw [hf]; exact fun h => hne h.symm
      simp [flagOf, hfb]
    · rw [if_neg hf]
      unfold flagOf
      rw [ih]

theorem freeCount_releaseFlag (frames : List __frameTableEntry) (a : Option Nat)
    (h : flagOf frames a = some false) :
    freeCount (releaseFlag frames a) = freeCount frames + 1 := by
  induction frames with
  | nil => simp [flagOf] at h
  | cons f rest ih =>
    unfold flagOf at h
    unfold releaseFlag
    by_cases hf : f.memAddr = a
    · rw [if_pos hf] at h ⊢
      have hfree : f.isFree = false := Option.some.inj h
      simp [freeCount, List.countP_cons, hfree]
    · rw [if_neg hf] at h ⊢
      have := ih h
      unfold freeCount at this ⊢
      simp only [List.countP_cons]
      omega

/-- With distinct frame addresses, the frame that `__allocator_find_free_frame` hands out
was flagged free and is flagged in use afterwards; the flags of the other addresses and the
number of frames flagged free but this one are as before. -/
theorem find_free_frame_loop_flag (frames frames' : List __frameTableEntry) (a : Option Nat)
    (hn : (frameAddrs frames).Nodup)
    (h : __allocator_find_free_frame_loop frames = some (frames', a)) :
    flagOf frames a = some true ∧ flagOf frames' a = some false ∧
    (∀ b, b ≠ a → flagOf frames' b = flagOf frames b) ∧
    freeCount frames' + 1 = freeCount frames := by
  induction frames generalizing frames' with
  | nil => simp [__allocator_find_free_frame_loop] at h
  | cons f rest ih =>
    unfold __allocator_find_free_frame_loop at h
    by_cases hf : f.isFree = true
    · rw [if_pos hf] at h
      obtain ⟨h1, h2⟩ := Prod.mk.inj (Option.some.inj h)
      subst h1; subst h2
      refine ⟨by simp [flagOf, hf], by simp [flagOf], ?_, by simp [freeCount, List.countP_cons, hf]⟩
      intro b hb
      have hfb : ¬ f.memAddr = b := fun e => hb e.symm
      simp [flagOf, hfb]
    · rw [if_neg hf] at h
      cases hr : __allocator_find_free_frame_loop rest with
      | none => rw [hr] at h; simp at h
      | some r =>
        obtain ⟨r1, r2⟩ := r
        rw [hr] at h
        simp only [Option.map] at h
        obtain ⟨h1, h2⟩ := Prod.mk.inj (Option.some.inj h)
        subst h1; subst h2
        have hn' : f.memAddr ∉ frameAddrs rest ∧ (frameAddrs rest).Nodup := by
          unfold frameAddrs at hn ⊢
          exact List.nodup_cons.mp hn
        obtain ⟨i1, i2, i3, i4⟩ := ih r1 hn'.2 hr
        have hmem := flagOf_mem rest r2 true i1
        have hne : ¬ f.memAddr = r2 := fun e => hn'.1 (e ▸ hmem)
        refine ⟨by simp [flagOf, hne, i1], by simp [flagOf, hne, i2], ?_, ?_⟩
        · intro b hb
          unfold flagOf
          rw [i3 b hb]
        · have hff : f.isFree = false := by simpa using hf
          unfold freeCount at i4 ⊢
          simp only [List.countP_cons, hff]
          omega

theorem find_free_frame_loop_none_count (frames : List __frameTableEntry)
    (h : __allocator_find_free_frame_loop frames = none) : freeCount frames = 0 := by
  induction frames with
  | nil => rfl
  | cons f rest ih =>
    unfold __allocator_find_free_frame_loop at h
    by_cases hf : f.isFree = true
    · rw [if_pos hf] at h; exact Option.noConfusion h
    · rw [if_neg hf] at h
      cases hr : __allocator_find_free_frame_loop rest with
      | some r => rw [hr] at h; simp at h
      | none =>
        have := ih hr
        have hff : f.isFree = false := by simpa using hf
        unfold freeCount at this ⊢
        simp only [List.countP_cons, hff, Bool.false_eq_true, if_false]
        omega

theorem boundAddrs_append_singleton (head : List __pageTableEntry) (e : __pageTableEntry) :
    boundAddrs (head ++ [e]) =
      boundAddrs head ++ (if e.memAddr.isSome then [e.memAddr] else []) := by
  unfold boundAddrs
  rw [List.map_append, List.filter_append]
  by_cases h : e.memAddr.isSome = true <;> simp [List.filter, h]

theorem boundAddrs_eraseIdx_sublist (head : List __pageTableEntry) (i : Nat) :
    List.Sublist (boundAddrs (head.eraseIdx i)) (boundAddrs head) := by
  unfold boundAddrs
  exact List.Sublist.filter _ (List.Sublist.map _ (List.eraseIdx_sublist head i))

theorem boundAddrs_mem_of_getElem (head : List __pageTableEntry) (i : Nat)
    (p : __pageTableEntry) (hp : head[i]? = some p) (hs : p.memAddr.isSome = true) :
    p.memAddr ∈ boundAddrs head := by
  unfold boundAddrs
  rw [List.mem_filter]
  exact ⟨List.mem_map.mpr ⟨p, List.getElem?_mem hp, rfl⟩, hs⟩

/-- After the erase of a page whose frame address is not null, no page left has that frame
address, when the frame addresses of the pages were distinct. -/
theorem boundAddrs_eraseIdx_not_mem (head : List __pageTableEntry) (i : Nat)
    (p : __pageTableEntry) (hn : (boundAddrs head).Nodup) (hp : head[i]? = some p)
    (hs : p.memAddr.isSome = true) : p.memAddr ∉ boundAddrs (head.eraseIdx i) := by
  induction head generalizing i with
  | nil => simp at hp
  | cons e rest ih =>
    cases i with
    | zero =>
      simp only [List.getElem?_cons_zero, Option.some.injEq] at hp
      subst hp
      simp only [List.eraseIdx_cons_zero]
      have : boundAddrs (e :: rest) = e.memAddr :: boundAddrs rest := by
        simp [boundAddrs, List.filter, hs]
      rw [this] at hn
      exact (List.nodup_cons.mp hn).1
    | succ i =>
      simp only [List.getElem?_cons_succ] at hp
      simp only [List.eraseIdx_cons_succ]
      have hmem := boundAddrs_mem_of_getElem rest i p hp hs
      by_cases he : e.memAddr.isSome = true
      · have h1 : boundAddrs (e :: rest) = e.memAddr :: boundAddrs rest := by
          simp [boundAddrs, List.filter, he]
        have h2 : boundAddrs (e :: rest.eraseIdx i) = e.memAddr :: boundAddrs (rest.eraseIdx i) := by
          simp [boundAddrs, List.filter, he]
        rw [h1] at hn
        rw [h2]
        obtain ⟨n1, n2⟩ := List.nodup_cons.mp hn
        intro hc
        rcases List.mem_cons.mp hc with hc | hc
        · exact n1 (hc ▸ hmem)
        · exact ih i n2 hp hc
      · have h1 : boundAddrs (e :: rest) = boundAddrs rest := by
          simp [boundAddrs, List.filter, he]
        have h2 : boundAddrs (e :: rest.eraseIdx i) = boundAddrs (rest.eraseIdx i) := by
          simp [boundAddrs, List.filter, he]
        rw [h1] at hn
        rw [h2]
        exact ih i hn hp

/-- One iteration of the loop of `allocator_allocate` keeps the invariant of the binding,
with or without a free frame. -/
theorem FramesInv_allocStep (m : allocator) (d : Int) (h : FramesInv m d) :
    FramesInv (allocStep m) d := by
  obtain ⟨_, h1, h2, h3, h4, h5⟩ := h
  have htl := allocStep_tailOK m
  cases hl : __allocator_find_free_frame_loop m.frameTableHead with
  | none =>
    have hstep : allocStep m =
        { m with
          pageTableHead := m.pageTableHead ++
            [{ memAddr := none, pageNumber := (lastId m.pageTableHead + 1) % SIZE_MOD }]
          pageTableTail := some m.pageTableHead.length } := by
      unfold allocStep __allocator_find_free_frame
      simp only [hl]
    rw [hstep] at htl ⊢
    have hb : boundAddrs (m.pageTableHead ++
        [{ memAddr := none, pageNumber := (lastId m.pageTableHead + 1) % SIZE_MOD }]) =
        boundAddrs m.pageTableHead := by
      rw [boundAddrs_append_singleton]
      simp
    refine ⟨htl, h1, h2, ?_, ?_, h5⟩
    · show (boundAddrs (m.pageTableHead ++ _)).Nodup
      rw [hb]; exact h3
    · show ∀ a ∈ boundAddrs (m.pageTableHead ++ _), flagOf m.frameTableHead a = some false
      rw [hb]; exact h4
  | some r =>
    obtain ⟨frames', a⟩ := r
    rw [allocStep_of_loop m frames' a hl] at htl ⊢
    obtain ⟨i1, i2, i3, i4⟩ := find_free_frame_loop_flag _ frames' a h1 hl
    have haddrs := find_free_frame_loop_addrs _ frames' a hl
    have hmem := flagOf_mem _ a true i1
    have hsome : a.isSome = true := by
      cases a with
      | none => exact absurd hmem h2
      | some x => rfl
    have hnot : a ∉ boundAddrs m.pageTableHead := by
      intro hc
      have := h4 a hc
      rw [i1] at this
      exact absurd (Option.some.inj this) (by decide)
    have hb : boundAddrs (m.pageTableHead ++
        [{ memAddr := a, pageNumber := (lastId m.pageTableHead + 1) % SIZE_MOD }]) =
        boundAddrs m.pageTableHead ++ [a] := by
      rw [boundAddrs_append_singleton]
      simp [hsome]
    refine ⟨htl, ?_, ?_, ?_, ?_, ?_⟩
    · show (frameAddrs frames').Nodup
      rw [haddrs]; exact h1
    · show none ∉ frameAddrs frames'
      rw [haddrs]; exact h2
    · show (boundAddrs (m.pageTableHead ++ _)).Nodup
      rw [hb]
      refine List.Nodup.append h3 (List.nodup_singleton a) ?_
      intro x hx hx'
      rw [List.mem_singleton] at hx'
      exact hnot (hx' ▸ hx)
    · show ∀ b ∈ boundAddrs (m.pageTableHead ++ _), flagOf frames' b = some false
      rw [hb]
      intro b hb'
      rcases List.mem_append.mp hb' with hb' | hb'
      · have hne : b ≠ a := fun e => hnot (e ▸ hb')
        rw [i3 b hne]
        exact h4 b hb'
      · rw [List.mem_singleton] at hb'
        rw [hb']
        exact i2
    · show (freeCount frames' : Int) = m.freeFramesNum - 1 + d
      omega

theorem FramesInv_allocSteps (k : Nat) (m : allocator) (d : Int) (h : FramesInv m d) :
    FramesInv (allocSteps k m) d := by
  induction k generalizing m with
  | zero => exact h
  | succ k ih => exact ih _ (FramesInv_allocStep m d h)

/-- A call of `allocator_allocate` that returns keeps the invariant of the binding. -/
theorem FramesInv_allocate (m m' : allocator) (d : Int) (msize : Int) (A : Nat)
    (h : FramesInv m d) (ha : allocator_allocate m msize = .ok (m', A)) : FramesInv m' d := by
  rw [allocate_eq m msize h.1] at ha
  by_cases hc : m.freeFramesNum < Int.tdiv msize 4096
  · rw [if_pos hc] at ha
    rw [← (Prod.mk.inj (Except.ok.inj ha)).1]
    exact h
  · rw [if_neg hc] at ha
    rw [← (Prod.mk.inj (Except.ok.inj ha)).1]
    exact FramesInv_allocSteps _ m d h

/-- An iteration of the loop of `allocator_deallocate` that returns keeps the invariant of
the binding. -/
theorem FramesInv_deallocate_body (m m' : allocator) (d : Int) (i : Nat)
    (h : FramesInv m d) (hb : allocator_deallocate_body m i = .ok m') : FramesInv m' d := by
  obtain ⟨ht, h1, h2, h3, h4, h5⟩ := h
  obtain ⟨hm, hi⟩ := deallocate_body_ok m m' i hb
  have htl := deallocStep_tailOK m i ht
  cases hp : m.pageTableHead[i]? with
  | none =>
    rw [List.getElem?_eq_none_iff] at hp
    omega
  | some p =>
    have ha : p.memAddr ∈ frameAddrs m.frameTableHead := by
      by_contra hc
      unfold allocator_deallocate_body at hb
      rw [hp] at hb
      simp only [freeUp_frame_stuck m p.memAddr hc] at hb
      exact Except.noConfusion hb
    have hsome : p.memAddr.isSome = true := by
      cases hq : p.memAddr with
      | none => rw [hq] at ha; exact absurd ha h2
      | some x => rfl
    have hstep : deallocStep m i =
        { m with
          frameTableHead := releaseFlag m.frameTableHead p.memAddr
          freeFramesNum := m.freeFramesNum + 1
          pageTableHead := m.pageTableHead.eraseIdx i
          pageTableTail := tailOf (m.pageTableHead.eraseIdx i) } := by
      unfold deallocStep
      simp only [hp]
    rw [hm]
    rw [hstep] at htl ⊢
    have hsub := boundAddrs_eraseIdx_sublist m.pageTableHead i
    have hnot := boundAddrs_eraseIdx_not_mem m.pageTableHead i p h3 hp hsome
    have hflag := h4 _ (boundAddrs_mem_of_getElem m.pageTableHead i p hp hsome)
    refine ⟨htl, ?_, ?_, ?_, ?_, ?_⟩
    · show (frameAddrs (releaseFlag m.frameTableHead p.memAddr)).Nodup
      rw [releaseFlag_addrs]; exact h1
    · show none ∉ frameAddrs (releaseFlag m.frameTableHead p.memAddr)
      rw [releaseFlag_addrs]; exact h2
    · exact List.Nodup.sublist hsub h3
    · show ∀ b ∈ boundAddrs (m.pageTableHead.eraseIdx i),
        flagOf (releaseFlag m.frameTableHead p.memAddr) b = some false
      intro b hb'
      have hne : b ≠ p.memAddr := fun e => hnot (e ▸ hb')
      rw [flagOf_releaseFlag_other _ _ _ hne]
      exact h4 b (hsub.subset hb')
    · show (freeCount (releaseFlag m.frameTableHead p.memAddr) : Int) = m.freeFramesNum + 1 + d
      rw [freeCount_releaseFlag _ _ hflag]
      push_cast
      omega

theorem FramesInv_deallocate_loop (fuel : Nat) (m m' : allocator) (d : Int) (i : Nat)
    (msize : Int) (h : FramesInv m d)
    (hl : allocator_deallocate_loop fuel m i msize = .ok m') : FramesInv m' d := by
  induction fuel generalizing m msize with
  | zero =>
    unfold allocator_deallocate_loop at hl
    by_cases hc : msize > 0
    · rw [if_pos hc] at hl; exact Except.noConfusion hl
    · rw [if_neg hc] at hl
      rw [← Except.ok.inj hl]; exact h
  | succ fuel ih =>
    unfold allocator_deallocate_loop at hl
    by_cases hc : msize > 0
    · rw [if_pos hc] at hl
      cases hb : allocator_deallocate_body m i with
      | error s => rw [hb] at hl; exact Except.noConfusion hl
      | ok m1 =>
        rw [hb] at hl
        exact ih m1 _ (FramesInv_deallocate_body m m1 d i h hb) hl
    · rw [if_neg hc] at hl
      rw [← Except.ok.inj hl]; exact h

/-- A call of `allocator_deallocate` that returns keeps the invariant of the binding. -/
theorem FramesInv_deallocate (m m' : allocator) (d : Int) (virtAddr : Nat) (msize : Int)
    (st : Int) (h : FramesInv m d)
    (hd : allocator_deallocate m virtAddr msize = .ok (m', st)) : FramesInv m' d := by
  unfold allocator_deallocate at hd
  by_cases hc : offsetOf virtAddr ≠ 0 ∨ msize ≤ 0
  · rw [if_pos hc] at hd
    rw [← (Prod.mk.inj (Except.ok.inj hd)).1]
    exact h
  · rw [if_neg hc] at hd
    simp only at hd
    cases hf : __pageTableEntry_find m.pageTableHead (virtAddr >>> 12) with
    | error s => rw [hf] at hd; exact Except.noConfusion hd
    | ok r =>
      rw [hf] at hd
      cases r with
      | none =>
        simp only at hd
        rw [← (Prod.mk.inj (Except.ok.inj hd)).1]
        exact h
      | some i =>
        simp only at hd
        cases hl : allocator_deallocate_loop msize.toNat m i msize with
        | error s => rw [hl] at hd; exact Except.noConfusion hd
        | ok m1 =>
          rw [hl] at hd
          simp only at hd
          rw [← (Prod.mk.inj (Except.ok.inj hd)).1]
          exact FramesInv_deallocate_loop _ m m1 d i msize h hl

/-- A sequence of calls that returns keeps the invariant of the binding. -/
theorem FramesInv_runCalls (calls : List Call) (m m' : allocator) (d : Int) (vs : List Int)
    (h : FramesInv m d) (hr : runCalls m calls = .ok (m', vs)) : FramesInv m' d := by
  induction calls generalizing m vs with
  | nil =>
    unfold runCalls at hr
    rw [← (Prod.mk.inj (Except.ok.inj hr)).1]
    exact h
  | cons c rest ih =>
    unfold runCalls at hr
    cases hc : c.run m with
    | error s => rw [hc] at hr; exact Except.noConfusion hr
    | ok r =>
      obtain ⟨m1, v⟩ := r
      rw [hc] at hr
      simp only at hr
      cases hrest : runCalls m1 rest with
      | error s => rw [hrest] at hr; exact Except.noConfusion hr
      | ok r2 =>
        obtain ⟨m2, vs2⟩ := r2
        rw [hrest] at hr
        simp only at hr
        have hm2 : m2 = m' := (Prod.mk.inj (Except.ok.inj hr)).1
        subst hm2
        cases c with
        | allocate msize =>
          simp only [Call.run] at hc
          cases ha : allocator_allocate m msize with
          | error s => rw [ha] at hc; exact Except.noConfusion hc
          | ok ra =>
            obtain ⟨ma, A⟩ := ra
            rw [ha] at hc
            simp only at hc
            have hma : ma = m1 := (Prod.mk.inj (Except.ok.inj hc)).1
            rw [hma] at ha
            exact ih m1 vs2 (FramesInv_allocate m m1 d msize A h ha) hrest
        | deallocate virtAddr msize =>
          simp only [Call.run] at hc
          exact ih m1 vs2 (FramesInv_deallocate m m1 d virtAddr msize v h hc) hrest

/-- Without wrap of the counter, the nodes that the loop of `__frameTable_construct`
appends have distinct addresses, none null and none below the counter, and the last of them
starts below the buffer size. -/
theorem frameTable_construct_loop_addrs (fuel i bufSize : Nat)
    (frames : List __frameTableEntry) (hb : bufSize + 4096 ≤ SIZE_MOD)
    (h : __frameTable_construct_loop fuel i bufSize = .ok frames) :
    (∀ a ∈ frameAddrs frames, ∃ x, a = some x ∧ i ≤ x) ∧ (frameAddrs frames).Nodup ∧
    (frames = [] ∨ i + 4096 * frames.length < bufSize + 4096) := by
  induction fuel generalizing i frames with
  | zero =>
    unfold __frameTable_construct_loop at h
    by_cases hi : i < bufSize
    · rw [if_pos hi] at h; exact Except.noConfusion h
    · rw [if_neg hi] at h
      rw [← Except.ok.inj h]
      exact ⟨by simp [frameAddrs], by simp [frameAddrs], Or.inl rfl⟩
  | succ fuel ih =>
    unfold __frameTable_construct_loop at h
    by_cases hi : i < bufSize
    · rw [if_pos hi] at h
      have hmod : (i + PAGE_SIZE) % SIZE_MOD = i + 4096 :=
        Nat.mod_eq_of_lt (by simp only [PAGE_SIZE]; omega)
      rw [hmod] at h
      cases hr : __frameTable_construct_loop fuel (i + 4096) bufSize with
      | error s => rw [hr] at h; exact Except.noConfusion h
      | ok rest =>
        rw [hr] at h
        obtain ⟨h1, h2, h3⟩ := ih _ rest hr
        have hfr : frames = __frameTableEntry_construct (some i) :: rest :=
          (Except.ok.inj h).symm
        rw [hfr]
        have hfa : frameAddrs (__frameTableEntry_construct (some i) :: rest) =
            some i :: frameAddrs rest := rfl
        rw [hfa]
        refine ⟨?_, ?_, Or.inr ?_⟩
        · intro a ha
          rcases List.mem_cons.mp ha with ha | ha
          · exact ⟨i, ha, le_refl _⟩
          · obtain ⟨x, hx, hle⟩ := h1 a ha
            exact ⟨x, hx, by omega⟩
        · refine List.nodup_cons.mpr ⟨?_, h2⟩
          intro hc
          obtain ⟨x, hx, hle⟩ := h1 _ hc
          have := Option.some.inj hx
          omega
        · simp only [List.length_cons]
          rcases h3 with h3 | h3
          · rw [h3]; simp; omega
          · omega
    · rw [if_neg hi] at h
      rw [← Except.ok.inj h]
      exact ⟨by simp [frameAddrs], by simp [frameAddrs], Or.inl rfl⟩

/-- The allocator that `allocator_construct` makes for a requested size below `2 ^ 64` has
the invariant of the binding: the number of frame nodes flagged free is the stored count
when the requested size is a multiple of `PAGE_SIZE`, and the stored count plus one
otherwise. -/
theorem FramesInv_construct (heap : Nat → UInt8) (buffSize : Nat) (m : allocator)
    (hlt : buffSize < SIZE_MOD)
    (h : allocator_construct heap buffSize = .ok (m, 0)) :
    FramesInv m (if buffSize % PAGE_SIZE = 0 then 0 else 1) := by
  obtain ⟨c1, c2, c3, c4, c5, c6, c7, _⟩ := construct_ok heap buffSize m h
  unfold allocator_construct at h
  simp only [if_pos c1] at h
  rw [← c2] at h
  have hB : m.bufSize + 4096 ≤ SIZE_MOD := by
    by_contra hc
    unfold __frameTable_construct at h
    rw [frameTable_construct_loop_no_exit _ PAGE_SIZE m.bufSize (by omega) (by decide)
      (by decide)] at h
    exact Except.noConfusion h
  unfold __frameTable_construct at h
  cases hl : __frameTable_construct_loop (m.bufSize / PAGE_SIZE) PAGE_SIZE m.bufSize with
  | error s => rw [hl] at h; exact Except.noConfusion h
  | ok rest =>
    rw [hl] at h
    simp only [Except.map] at h
    have hm := (Prod.mk.inj (Except.ok.inj h)).1
    have hframes : m.frameTableHead = __frameTableEntry_construct (some 0) :: rest := by
      rw [← hm]
    obtain ⟨a1, a2, a3⟩ := frameTable_construct_loop_addrs _ _ _ rest hB hl
    obtain ⟨_, b2⟩ := frameTable_construct_loop_ok _ _ _ rest hl
    have hfa : frameAddrs m.frameTableHead = some 0 :: frameAddrs rest := by
      rw [hframes]; rfl
    refine ⟨?_, ?_, ?_, ?_, ?_, ?_⟩
    · unfold TailOK
      rw [c3, c4]; rfl
    · rw [hfa]
      refine List.nodup_cons.mpr ⟨?_, a2⟩
      intro hc
      obtain ⟨x, hx, hle⟩ := a1 _ hc
      have := Option.some.inj hx
      simp only [PAGE_SIZE] at hle
      omega
    · rw [hfa]
      intro hc
      rcases List.mem_cons.mp hc with hc | hc
      · exact Option.noConfusion hc
      · obtain ⟨x, hx, _⟩ := a1 _ hc
        exact Option.noConfusion hx
    · rw [c3]; exact List.nodup_nil
    · rw [c3]; intro a ha; simp [boundAddrs] at ha
    · rw [c6, c5, hframes]
      simp only [List.length_cons]
      have hmodB : m.bufSize % 4096 = buffSize % 4096 := by
        rw [c2]
        unfold SIZE_MOD PAGE_SIZE
        split <;> omega
      have hpos : 0 < m.bufSize := by
        rw [c2]
        unfold SIZE_MOD PAGE_SIZE at *
        split <;> omega
      simp only [PAGE_SIZE] at b2 a3 ⊢
      by_cases hz : buffSize % 4096 = 0
      · rw [if_pos hz]
        rcases a3 with a3 | a3
        · rw [a3] at b2 ⊢
          simp only [List.length_nil] at b2 ⊢
          omega
        · omega
      · rw [if_neg hz]
        rcases a3 with a3 | a3
        · rw [a3] at b2 ⊢
          simp only [List.length_nil] at b2 ⊢
          omega
        · omega

/-- In every state that a sequence of calls reaches from `allocator_construct`, for a
requested size below `2 ^ 64`: the frame nodes have distinct addresses, none null; the frame
addresses of the pages that are not null are distinct and each is the address of a frame
node flagged in use; the number of frame nodes flagged free is the stored count when the
requested size is a multiple of `PAGE_SIZE`, and the stored count plus one otherwise. -/
theorem FramesInv_reachable (heap : Nat → UInt8) (buffSize : Nat) (calls : List Call)
    (m0 m : allocator) (vs : List Int) (hlt : buffSize < SIZE_MOD)
    (hc : allocator_construct heap buffSize = .ok (m0, 0))
    (hr : runCalls m0 calls = .ok (m, vs)) :
    FramesInv m (if buffSize % PAGE_SIZE = 0 then 0 else 1) :=
  FramesInv_runCalls calls m0 m _ vs (FramesInv_construct heap buffSize m0 hlt hc) hr

/-! ## The calls on states where the pages are bound to frames -/

theorem flagOf_releaseFlag_same (frames : List __frameTableEntry) (a : Option Nat)
    (h : a ∈ frameAddrs frames) : flagOf (releaseFlag frames a) a = some true := by
  induction frames with
  | nil => simp [frameAddrs] at h
  | cons f rest ih =>
    unfold releaseFlag
    by_cases hf : f.memAddr = a
    · rw [if_pos hf]
      simp [flagOf, hf]
    · rw [if_neg hf]
      unfold flagOf
      rw [if_neg hf]
      apply ih
      unfold frameAddrs at h ⊢
      rcases List.mem_cons.mp h with h | h
      · exact absurd h.symm hf
      · exact h

theorem drop_eraseIdx_self {α : Type} (l : List α) (i : Nat) :
    (l.eraseIdx i).drop i = l.drop (i + 1) := by
  induction l generalizing i with
  | nil => simp
  | cons x xs ih =>
    cases i with
    | zero => simp
    | succ i => simp [ih]

/-- The frame table after `k` iterations of the loop of `allocator_deallocate` at position
`i`, when the `k` pages from position `i` on have frame addresses of the frame table: the
frames of these pages are flagged free, the flags of the other addresses are as before. -/
theorem deallocSteps_flags (k : Nat) (m : allocator) (i : Nat)
    (hlen : i + k ≤ m.pageTableHead.length)
    (hmem : ∀ e ∈ (m.pageTableHead.drop i).take k, e.memAddr ∈ frameAddrs m.frameTableHead) :
    (∀ e ∈ (m.pageTableHead.drop i).take k,
      flagOf (deallocSteps k m i).frameTableHead e.memAddr = some true) ∧
    (∀ b, (∀ e ∈ (m.pageTableHead.drop i).take k, e.memAddr ≠ b) →
      flagOf (deallocSteps k m i).frameTableHead b = flagOf m.frameTableHead b) ∧
    frameAddrs (deallocSteps k m i).frameTableHead = frameAddrs m.frameTableHead := by
  induction k generalizing m with
  | zero => simp [deallocSteps]
  | succ k ih =>
    have hi : i < m.pageTableHead.length := by omega
    obtain ⟨f1, _, f3, _⟩ := deallocStep_fields m i hi
    have hdrop : (m.pageTableHead.drop i).take (k + 1) =
        m.pageTableHead[i] :: (m.pageTableHead.drop (i + 1)).take k := by
      rw [List.drop_eq_getElem_cons hi, List.take_succ_cons]
    have hdrop1 : ((deallocStep m i).pageTableHead.drop i).take k =
        (m.pageTableHead.drop (i + 1)).take k := by
      rw [f1, drop_eraseIdx_self]
    have hfa : frameAddrs (deallocStep m i).frameTableHead = frameAddrs m.frameTableHead := by
      rw [f3, releaseFlag_addrs]
    rw [hdrop] at hmem ⊢
    have hpin := hmem _ (List.mem_cons_self _ _)
    obtain ⟨i1, i2, i3⟩ := ih (deallocStep m i)
      (by rw [f1, List.length_eraseIdx, if_pos hi]; omega)
      (by
        rw [hdrop1, hfa]
        intro e he
        exact hmem e (List.mem_cons_of_mem _ he))
    rw [hdrop1] at i1 i2
    have hother : ∀ b, (∀ e ∈ (m.pageTableHead.drop (i + 1)).take k, e.memAddr ≠ b) →
        flagOf (deallocSteps k (deallocStep m i) i).frameTableHead b =
          flagOf (releaseFlag m.frameTableHead (m.pageTableHead[i]).memAddr) b := by
      intro b hb
      rw [i2 b hb, f3]
    refine ⟨?_, ?_, ?_⟩
    · intro e he
      rw [deallocSteps]
      rcases List.mem_cons.mp he with he | he
      · rw [he]
        by_cases hex : ∃ e' ∈ (m.pageTableHead.drop (i + 1)).take k,
            e'.memAddr = (m.pageTableHead[i]).memAddr
        · obtain ⟨e', he', heq⟩ := hex
          rw [← heq]
          exact i1 e' he'
        · rw [hother _ (fun e' he' heq => hex ⟨e', he', heq⟩)]
          exact flagOf_releaseFlag_same _ _ hpin
      · exact i1 e he
    · intro b hb
      rw [deallocSteps, hother b (fun e he => hb e (List.mem_cons_of_mem _ he))]
      exact flagOf_releaseFlag_other _ _ _ (fun e => hb _ (List.mem_cons_self _ _) e.symm)
    · rw [deallocSteps, i3, hfa]

/-- On a page table with increasing page numbers, `allocator_deallocate` at the aligned
address of the page of position `i`, with a positive size of `k` pages, when the table has
`k` pages from position `i` on and each has the address of a frame node: the call returns
0, the page table is the old one without these `k` entries, the free frame count is raised
by `k`, the frames of these pages are flagged free and no other flag changes. -/
theorem deallocate_bound_pages (m : allocator) (i : Nat) (p : __pageTableEntry)
    (virtAddr : Nat) (msize : Int)
    (hs : List.Pairwise (fun a b => a < b) (pageIds m.pageTableHead))
    (hget : m.pageTableHead[i]? = some p) (hoff : offsetOf virtAddr = 0)
    (hA : virtAddr >>> 12 = p.pageNumber) (h1 : 0 < msize)
    (hlen : i + pagesOf msize ≤ m.pageTableHead.length)
    (hb : ∀ e ∈ (m.pageTableHead.drop i).take (pagesOf msize),
      e.memAddr ∈ frameAddrs m.frameTableHead) :
    ∃ m', allocator_deallocate m virtAddr msize = .ok (m', 0) ∧
      m'.pageTableHead = m.pageTableHead.take i ++ m.pageTableHead.drop (i + pagesOf msize) ∧
      m'.freeFramesNum = m.freeFramesNum + pagesOf msize ∧
      (∀ e ∈ (m.pageTableHead.drop i).take (pagesOf msize),
        flagOf m'.frameTableHead e.memAddr = some true) ∧
      (∀ b, (∀ e ∈ (m.pageTableHead.drop i).take (pagesOf msize), e.memAddr ≠ b) →
        flagOf m'.frameTableHead b = flagOf m.frameTableHead b) ∧
      frameAddrs m'.frameTableHead = frameAddrs m.frameTableHead := by
  obtain ⟨g1, g2, g3⟩ := deallocSteps_flags (pagesOf msize) m i hlen hb
  refine ⟨deallocSteps (pagesOf msize) m i, ?_, deallocSteps_pageTable _ m i hlen,
    deallocSteps_count _ m i hlen, g1, g2, g3⟩
  unfold allocator_deallocate
  rw [if_neg (by rw [hoff]; omega)]
  simp only
  rw [hA, pageTableEntry_find_of_sorted _ i p hs hget]
  simp only
  rw [deallocate_loop_eq _ m i msize (le_refl _) hlen hb]

/-- On a state with a right tail pointer, `allocator_allocate` of a size of `k` pages that
passes the guard, when at least `k` frame nodes are flagged free and the page numbers do not
wrap: the page table is the old one followed by `k` new entries with the page numbers that
follow the last one, each with the address of a frame node, and the free frame count is
lowered by `k`. -/
theorem allocate_with_free_frames (m : allocator) (msize : Int) (ht : TailOK m)
    (hl : lastId m.pageTableHead + pagesOf msize < SIZE_MOD)
    (hguard : ¬ m.freeFramesNum < Int.tdiv msize 4096)
    (hfree : pagesOf msize ≤ freeCount m.frameTableHead) :
    ∃ m' A new, allocator_allocate m msize = .ok (m', A) ∧
      m'.pageTableHead = m.pageTableHead ++ new ∧ new.length = pagesOf msize ∧
      pageIds new = List.range' (lastId m.pageTableHead + 1) (pagesOf msize) ∧
      (∀ e ∈ new, e.memAddr ∈ frameAddrs m.frameTableHead) ∧
      m'.freeFramesNum = m.freeFramesNum - pagesOf msize ∧
      freeCount m'.frameTableHead + pagesOf msize = freeCount m.frameTableHead := by
  obtain ⟨b1, b2, b3⟩ := allocSteps_bound (pagesOf msize) m hfree
  obtain ⟨new, n1, n2⟩ := allocSteps_pageTable (pagesOf msize) m
  have hids := allocSteps_pageIds (pagesOf msize) m hl
  refine ⟨allocSteps (pagesOf msize) m, allocAddr (pagesOf msize) m 0, new, ?_, n1, n2, ?_, ?_,
    b1, b2⟩
  · rw [allocate_eq m msize ht, if_neg hguard]
  · rw [n1] at hids
    unfold pageIds at hids ⊢
    rw [List.map_append] at hids
    exact List.append_cancel_left hids
  · intro e he
    apply b3
    rw [n1, List.drop_left]
    exact he

end PageMemory
